import Mathlib

/-!
Roux last-six-edges solver (`roux_lse.c`): a verification development

Shallow embedding of `src/roux_lse.c` / `src/roux_lse.h`.

* C arrays `unsigned char x[6]` are lists of naturals; a read is `List.getD _ _ 0`
  and a write is `List.set`.  Reads and writes outside the array are undefined
  in C; every theorem below is about arrays of six entries and in-range indices.
* The 2-bit bit-fields `M_position`, `U_position` are naturals reduced `% 4`
  at every increment / decrement.
* `uint32_t` left shifts are reduced `% 2^32`.
* A pointer to a `StateNode` (nodes are written once, in `queue_append`, and
  never mutated) is the node value itself; `NULL` is `none`.
-/

namespace RouxLSE

/-! ## Data model (`roux_lse.h`) -/

/-- Models `typedef enum Move {U_prime, M, U, M_prime, no_move} Move;` -/
inductive Move where
  | U_prime
  | M
  | U
  | M_prime
  | no_move
  deriving DecidableEq

/-- The numeric value of an enumerator. -/
def Move.toNat : Move → Nat
  | .U_prime => 0
  | .M => 1
  | .U => 2
  | .M_prime => 3
  | .no_move => 4

/-- Models `typedef struct State`. -/
structure State where
  edges_position : List Nat
  edges_orientation : List Nat
  M_position : Nat
  U_position : Nat
  deriving DecidableEq

/-- Models `typedef struct StateNode`; the parent pointer is the parent node. -/
inductive StateNode where
  | mk (state : State) (generator_move : Move) (parent : Option StateNode)

/-- Field `state`. -/
def StateNode.state : StateNode → State
  | .mk s _ _ => s

/-- Field `generator_move`. -/
def StateNode.generator_move : StateNode → Move
  | .mk _ m _ => m

/-- Field `parent`. -/
def StateNode.parent : StateNode → Option StateNode
  | .mk _ _ p => p

/-- Models `typedef struct StateCache`: the presence table `array` (allocated with
`MAX_CACHE_SIZE` entries), the counter `length` and the permutation table. -/
structure StateCache where
  array : Nat → Bool
  length : Nat
  perms : List (List Nat)

/-! ## Constants -/

/-- Models `#define MAX_CACHE_SIZE 368639` -/
def MAX_CACHE_SIZE : Nat := 368639

/-- Models `const State SOLVED` -/
def SOLVED : State := ⟨[0, 1, 2, 3, 4, 5], [0, 0, 0, 0, 0, 0], 0, 0⟩

/-- Models `const State NOSTATE` -/
def NOSTATE : State := ⟨[0, 0, 0, 0, 0, 0], [0, 0, 0, 0, 0, 0], 0, 0⟩

/-- Models `Face U_face = {3, 4, 2, 5};` -/
def U_face : List Nat := [3, 4, 2, 5]

/-- Models `Face M_face = {0, 1, 2, 3};` -/
def M_face : List Nat := [0, 1, 2, 3]

/-! ## Cube state model -/

/-- Models `Move reverse_move(Move move)` -/
def reverse_move : Move → Move
  | .U => .U_prime
  | .U_prime => .U
  | .M => .M_prime
  | .M_prime => .M
  | .no_move => .no_move

/-- Models `State rotate_edges(State initial_state, Face face, bool prime)`: the loop
`for (i = 0; i < 4; i++)` writes into `final_state` what it reads from
`initial_state`. -/
def rotate_edges (initial_state : State) (face : List Nat) (prime : Bool) : State :=
  [0, 1, 2, 3].foldl
    (fun final_state i =>
      let pos := if prime then face.getD ((i + 1) % 4) 0 else face.getD i 0
      let new_pos := if prime then face.getD i 0 else face.getD ((i + 1) % 4) 0
      { final_state with
        edges_position :=
          final_state.edges_position.set new_pos (initial_state.edges_position.getD pos 0) })
    initial_state

/-- The orientation loop of `make_move`: for each slot of the top face, flip
the orientation bit of the edge now sitting there. -/
def flip_edges (final_state : State) : State :=
  [0, 1, 2, 3].foldl
    (fun fs i =>
      let pos := U_face.getD i 0
      let edge := fs.edges_position.getD pos 0
      { fs with
        edges_orientation :=
          fs.edges_orientation.set edge (fs.edges_orientation.getD edge 0 ^^^ 1) })
    final_state

/-- Models `State make_move(State initial_state, Move move)`.  On the 2-bit fields
`++` is `(x + 1) % 4` and `--` is `(x + 3) % 4`. -/
def make_move (initial_state : State) (move : Move) : State :=
  let prime : Bool := (move == Move.M_prime || move == Move.U_prime)
  let is_U : Bool := (move == Move.U || move == Move.U_prime)
  let BF_up : Bool := initial_state.M_position % 2 != 0
  if move = Move.no_move then NOSTATE
  else if is_U then
    let final_state := rotate_edges initial_state U_face prime
    let final_state :=
      { final_state with
        U_position :=
          if prime then (final_state.U_position + 3) % 4
          else (final_state.U_position + 1) % 4 }
    if BF_up then flip_edges final_state else final_state
  else
    let final_state := rotate_edges initial_state M_face prime
    { final_state with
      M_position :=
        if prime then (final_state.M_position + 3) % 4
        else (final_state.M_position + 1) % 4 }

/-- Models `bool compare_states(State A, State B)` -/
def compare_states (A B : State) : Bool :=
  if A.M_position != B.M_position then false
  else if A.U_position != B.U_position then false
  else
    [0, 1, 2, 3, 4, 5].all fun i =>
      A.edges_position.getD i 0 == B.edges_position.getD i 0
        && A.edges_orientation.getD i 0 == B.edges_orientation.getD i 0

/-- Models `bool is_nostate(State state)` -/
def is_nostate (state : State) : Bool :=
  state.edges_position.getD 0 0 == state.edges_position.getD 1 0

/-! ## State codec -/

/-- Models `__builtin_popcount` on a 32-bit word. -/
def popcount (n : Nat) : Nat :=
  ((List.range 32).map fun i => (n >>> i) &&& 1).sum

/-- Models `void swap(unsigned char* a, unsigned char* b)` on cells `i`, `j` of one array. -/
def swap (a : List Nat) (i j : Nat) : List Nat :=
  let tmp := a.getD i 0
  (a.set i (a.getD j 0)).set j tmp

/-- Models `void heap_permutation(a, size, index, permutations)`.  The state is the
working array `a` and the rows written so far (`*index` is their number). -/
def heap_permutation : Nat → List Nat × List (List Nat) → List Nat × List (List Nat)
  | 0, st => st
  | 1, st => (st.1, st.2 ++ [[0, 1, 2, 3, 4, 5].map fun i => st.1.getD i 0])
  | size + 2, st =>
    (List.range (size + 2)).foldl
      (fun st i =>
        let st := heap_permutation (size + 1) st
        if (size + 2) % 2 != 0 then (swap st.1 0 (size + 1), st.2)
        else (swap st.1 i (size + 1), st.2))
      st

/-- The scan `for (i = 0; i < 64; i++)` of `encode_eo`, over the values of `i`
still to visit.  Leaving the loop without a hit (no `return` in C, possible
only when `int_eo > 63`) yields `count_valid`. -/
def encode_eo_scan (int_eo : Nat) : List Nat → Nat → Nat
  | [], count_valid => count_valid
  | i :: rest, count_valid =>
    if popcount i % 2 = 0 then
      if i = int_eo then count_valid else encode_eo_scan int_eo rest (count_valid + 1)
    else encode_eo_scan int_eo rest count_valid

/-- Models `uint32_t encode_eo(unsigned char* eo)` -/
def encode_eo (eo : List Nat) : Nat :=
  let int_eo :=
    [0, 1, 2, 3, 4, 5].foldl (fun int_eo i => ((int_eo <<< 1) % 2 ^ 32) ||| eo.getD i 0) 0
  if popcount int_eo % 2 != 0 then 1
  else encode_eo_scan int_eo (List.range 64) 0

/-- The scan `for (i = 0; i < 64; i++)` of `decode_eo`; `int_eo` is left as it
was (`0` here, uninitialised in C) when no `i` is hit. -/
def decode_eo_scan (eo_id : Nat) : List Nat → Nat → Nat
  | [], _ => 0
  | i :: rest, count_valid =>
    if popcount i % 2 = 0 then
      if eo_id = count_valid then i else decode_eo_scan eo_id rest (count_valid + 1)
    else decode_eo_scan eo_id rest count_valid

/-- Models `void decode_eo(uint32_t eo_id, unsigned char* eo)`: the six cells written,
from `eo[5]` down to `eo[0]`. -/
def decode_eo (eo_id : Nat) : List Nat :=
  let int_eo := decode_eo_scan eo_id (List.range 64) 0
  ([5, 4, 3, 2, 1, 0].foldl
    (fun (st : List Nat × Nat) i => (st.1.set i (st.2 &&& 1), st.2 >>> 1))
    ([0, 0, 0, 0, 0, 0], int_eo)).1

/-- Models `bool ep_is_equal(unsigned char* A, unsigned char* B)` -/
def ep_is_equal (A B : List Nat) : Bool :=
  [0, 1, 2, 3, 4, 5].all fun i => A.getD i 0 == B.getD i 0

/-- The lookup loop of `encode_state`:
`for (int_ep = 0; int_ep < 720; ++int_ep) if (ep_is_equal(..)) break;`
with `fuel = 720 - int_ep` iterations left. -/
def find_ep (ep : List Nat) (permutations : List (List Nat)) : Nat → Nat → Nat
  | 0, int_ep => int_ep
  | fuel + 1, int_ep =>
    if ep_is_equal ep (permutations.getD int_ep []) then int_ep
    else find_ep ep permutations fuel (int_ep + 1)

/-- Models `uint32_t encode_state(State state, unsigned char permutations[720][6])` -/
def encode_state (state : State) (permutations : List (List Nat)) : Nat :=
  let code := 0
  let int_ep := find_ep state.edges_position permutations 720 0
  let code := code ||| int_ep
  let code := (code <<< 5) % 2 ^ 32
  let code := code ||| encode_eo state.edges_orientation
  let code := (code <<< 2) % 2 ^ 32
  let code := code ||| state.M_position
  let code := (code <<< 2) % 2 ^ 32
  let code := code ||| state.U_position
  code

/-- Models `State decode_state(uint32_t code, unsigned char permutations[720][6])` -/
def decode_state (code : Nat) (permutations : List (List Nat)) : State :=
  let U_position := code &&& 3
  let code := code >>> 2
  let M_position := code &&& 3
  let code := code >>> 2
  let edges_orientation := decode_eo (code &&& 31)
  let code := code >>> 5
  let edges_position := [0, 1, 2, 3, 4, 5].map fun i => (permutations.getD code []).getD i 0
  ⟨edges_position, edges_orientation, M_position, U_position⟩

/-- The permutation table filled by `new_cache`:
`heap_permutation(ini, 6, &ind, cache->perms)` with `ini = {0,1,2,3,4,5}`. -/
def new_cache_perms : List (List Nat) :=
  (heap_permutation 6 ([0, 1, 2, 3, 4, 5], [])).2

/-- Models `StateCache* new_cache(void)` -/
def new_cache : StateCache :=
  ⟨fun _ => false, 0, new_cache_perms⟩

/-! ## Visited-state cache and frontier queue -/

/-- Models `bool is_in_cache(StateCache* cache, State state)`; `none` is a read outside
the `MAX_CACHE_SIZE` entries of `cache->array`. -/
def is_in_cache (cache : StateCache) (state : State) : Option Bool :=
  let state_code := encode_state state cache.perms
  if state_code < MAX_CACHE_SIZE then some (cache.array state_code) else none

/-- The loop `for (Move m = 0; m < 4; m++)` of `get_new_neighbors`, over the
moves still to visit; the result lists `new_neighbors[m]` for those moves. -/
def get_new_neighbors_loop (cache : StateCache) (state_node : StateNode)
    (move_to_parent : Move) : List Move → Option (List State)
  | [] => some []
  | m :: ms =>
    if m = move_to_parent then
      (get_new_neighbors_loop cache state_node move_to_parent ms).map fun l => NOSTATE :: l
    else
      let neighbor := make_move state_node.state m
      match is_in_cache cache neighbor with
      | none => none
      | some b =>
        (get_new_neighbors_loop cache state_node move_to_parent ms).map fun l =>
          (if b then NOSTATE else neighbor) :: l

/-- Models `void get_new_neighbors(StateCache*, StateNode, State* new_neighbors)`:
the four cells of `new_neighbors`, in the order `U_prime, M, U, M_prime`
of the enumeration. -/
def get_new_neighbors (cache : StateCache) (state_node : StateNode) : Option (List State) :=
  let move_to_parent := reverse_move state_node.generator_move
  get_new_neighbors_loop cache state_node move_to_parent
    [Move.U_prime, Move.M, Move.U, Move.M_prime]

/-- Models `int cache_append(StateCache* cache, State state)`: the updated cache and
the returned value; `none` is a write outside `cache->array`. -/
def cache_append (cache : StateCache) (state : State) : Option (StateCache × Nat) :=
  let code := encode_state state cache.perms
  if code < MAX_CACHE_SIZE then
    some ({ cache with array := fun i => if i = code then true else cache.array i,
                       length := cache.length + 1 }, 0)
  else none

/-- Models `int queue_append(queue, new_state, parent, gen_move, state_cache)`.  The
queue lists the nodes from `head.prev` (oldest) to `tail.next` (newest). -/
def queue_append (queue : List StateNode) (new_state : State) (parent : Option StateNode)
    (gen_move : Move) (state_cache : StateCache) :
    Option (Nat × List StateNode × StateCache) :=
  let state_node := StateNode.mk new_state gen_move parent
  match cache_append state_cache new_state with
  | none => none
  | some (state_cache, rc) =>
    if rc ≠ 0 then some (1, queue, state_cache)
    else some (0, queue ++ [state_node], state_cache)

/-! ## Move-trace reconstructor -/

/-- The table `move_names` of `print_moves_traceback`. -/
def move_names : Move → String
  | .U => "U"
  | .U_prime => "U\x27"
  | .M => "M"
  | .M_prime => "M\x27"
  | .no_move => "."

/-- The `while (current_node.parent)` loop of `print_moves_traceback`; `out`
collects the strings printed by the `printf` calls of the loop body. -/
def print_moves_loop : StateNode → Move → Bool → List String → Move × Bool × List String
  | .mk _ _ none, current_move, quiet_next, out => (current_move, quiet_next, out)
  | .mk _ generator_move (some parent), current_move, quiet_next, out =>
    let prev_move := current_move
    let current_move := reverse_move generator_move
    if quiet_next then print_moves_loop parent current_move false out
    else if current_move = prev_move then
      print_moves_loop parent current_move true
        (out ++ [String.mk [(move_names prev_move).get 0, Char.ofNat 50, Char.ofNat 32]])
    else
      print_moves_loop parent current_move quiet_next (out ++ [move_names prev_move ++ " "])

/-- Models `void print_moves_traceback(StateNode initial_node)`: the move tokens
printed, in printing order (the leading `printf("\n")` is not a token). -/
def print_moves_traceback (initial_node : StateNode) : List String :=
  let r := print_moves_loop initial_node Move.no_move true []
  if !r.2.1 then r.2.2 ++ [move_names r.1] else r.2.2

/-! ## Breadth-first search driver (`main`) -/

/-- How `main` ends. -/
inductive Outcome where
  | solution_found (node : StateNode)
  | exausted_cache
  | not_found
  | out_of_bounds

/-- The final situation of `main`: the outcome, the queue and the cache. -/
structure Final where
  outcome : Outcome
  queue : List StateNode
  cache : StateCache

/-- The loop `for (Move m = 0; m < 4; m++)` of `main`, over the moves still to
visit paired with `next_states[m]`.  The returned flag is `1` when a
`queue_append` failed. -/
def append_new_states (current_node : StateNode) :
    List (Move × State) → List StateNode → StateCache →
      Option (Nat × List StateNode × StateCache)
  | [], queue, cache => some (0, queue, cache)
  | (m, new_state) :: rest, queue, cache =>
    if !is_nostate new_state then
      match queue_append queue new_state (some current_node) m cache with
      | none => none
      | some (rc, queue, cache) =>
        if rc ≠ 0 then some (1, queue, cache)
        else append_new_states current_node rest queue cache
    else append_new_states current_node rest queue cache

/-- The loop `while (!queue_is_empty(queue))` of `main`, for at most `fuel`
dequeues; `none` when the fuel runs out before the loop ends. -/
def main_loop (target_state : State) : Nat → List StateNode → StateCache → Option Final
  | 0, _, _ => none
  | fuel + 1, queue, cache =>
    match queue with
    | [] => some ⟨Outcome.not_found, [], cache⟩
    | current_node :: queue =>
      if compare_states target_state current_node.state then
        some ⟨Outcome.solution_found current_node, queue, cache⟩
      else
        match get_new_neighbors cache current_node with
        | none => some ⟨Outcome.out_of_bounds, queue, cache⟩
        | some next_states =>
          match append_new_states current_node
              ([Move.U_prime, Move.M, Move.U, Move.M_prime].zip next_states) queue cache with
          | none => some ⟨Outcome.out_of_bounds, queue, cache⟩
          | some (rc, queue, cache) =>
            if rc ≠ 0 then some ⟨Outcome.exausted_cache, queue, cache⟩
            else main_loop target_state fuel queue cache

/-- The search of `main` for the target read by `get_state`: the root node is
appended (`queue_append(queue, SOLVED, NULL, no_move, cache)`, its result
ignored) and the loop runs. -/
def main (target_state : State) (fuel : Nat) : Option Final :=
  match queue_append [] SOLVED none Move.no_move new_cache with
  | none => some ⟨Outcome.out_of_bounds, [], new_cache⟩
  | some (_, queue, cache) => main_loop target_state fuel queue cache


/-! ## Specification vocabulary -/

/-- The four generator moves, in the order of the enumeration. -/
def generators : List Move := [Move.U_prime, Move.M, Move.U, Move.M_prime]

/-- The array `edges_position` is a permutation of the labels `0..5`. -/
def valid_position (ep : List Nat) : Prop :=
  ep.length = 6 ∧ ep.Nodup ∧ ∀ x ∈ ep, x < 6

/-- The array `edges_orientation` is six bits with an even number of ones. -/
def valid_orientation (eo : List Nat) : Prop :=
  eo.length = 6 ∧ (∀ x ∈ eo, x ≤ 1) ∧ eo.count 1 % 2 = 0

/-- A valid configuration. -/
def State.Valid (s : State) : Prop :=
  valid_position s.edges_position ∧ valid_orientation s.edges_orientation ∧
    s.M_position < 4 ∧ s.U_position < 4

/-- Apply a sequence of moves, first move first. -/
def apply_moves (s : State) (ms : List Move) : State :=
  ms.foldl make_move s

/-- A sequence of generator moves (no `no_move`). -/
def generator_moves (ms : List Move) : Prop :=
  ∀ m ∈ ms, m ≠ Move.no_move

/-- Reachable from `SOLVED` by a finite sequence of generator moves. -/
def Reachable (s : State) : Prop :=
  ∃ ms, generator_moves ms ∧ apply_moves SOLVED ms = s

/-- One orientation flip of `make_move`: `edges_orientation[edge] ^= 1`. -/
def flip_at (eo : List Nat) (edge : Nat) : List Nat :=
  eo.set edge (eo.getD edge 0 ^^^ 1)

instance valid_position_decidable (ep : List Nat) : Decidable (valid_position ep) := by
  unfold valid_position; infer_instance

instance valid_orientation_decidable (eo : List Nat) : Decidable (valid_orientation eo) := by
  unfold valid_orientation; infer_instance

instance State.valid_decidable (s : State) : Decidable s.Valid := by
  unfold State.Valid; infer_instance

/-- Distinctness check with a bit mask of the values seen so far. -/
def nodup_check : List Nat → Nat → Bool
  | [], _ => true
  | k :: ks, mask => !(Nat.testBit mask k) && nodup_check ks (mask ||| (1 <<< k))

/-- A row of the permutation table as one number (base 8). -/
def row_key (r : List Nat) : Nat :=
  r.foldl (fun k x => k * 8 + x) 0

/-- The six decimal digits of a code of `perms_codes`. -/
def row_of_code (c : Nat) : List Nat :=
  [c / 100000 % 10, c / 10000 % 10, c / 1000 % 10, c / 100 % 10, c / 10 % 10, c % 10]

/-- The 720 rows written by `heap_permutation` from `{0,1,2,3,4,5}`, each as
the decimal number `1abcdef` (proved equal to the computed table below). -/
def perms_codes : List Nat :=
  [
    1012345, 1102345, 1201345, 1021345, 1120345, 1210345, 1312045, 1132045, 1231045, 1321045, 1123045, 1213045,
    1302145, 1032145, 1230145, 1320145, 1023145, 1203145, 1301245, 1031245, 1130245, 1310245, 1013245, 1103245,
    1401235, 1041235, 1140235, 1410235, 1014235, 1104235, 1201435, 1021435, 1120435, 1210435, 1012435, 1102435,
    1241035, 1421035, 1124035, 1214035, 1412035, 1142035, 1240135, 1420135, 1024135, 1204135, 1402135, 1042135,
    1340125, 1430125, 1034125, 1304125, 1403125, 1043125, 1140325, 1410325, 1014325, 1104325, 1401325, 1041325,
    1130425, 1310425, 1013425, 1103425, 1301425, 1031425, 1134025, 1314025, 1413025, 1143025, 1341025, 1431025,
    1234015, 1324015, 1423015, 1243015, 1342015, 1432015, 1034215, 1304215, 1403215, 1043215, 1340215, 1430215,
    1024315, 1204315, 1402315, 1042315, 1240315, 1420315, 1023415, 1203415, 1302415, 1032415, 1230415, 1320415,
    1123405, 1213405, 1312405, 1132405, 1231405, 1321405, 1423105, 1243105, 1342105, 1432105, 1234105, 1324105,
    1413205, 1143205, 1341205, 1431205, 1134205, 1314205, 1412305, 1142305, 1241305, 1421305, 1124305, 1214305,
    1512340, 1152340, 1251340, 1521340, 1125340, 1215340, 1312540, 1132540, 1231540, 1321540, 1123540, 1213540,
    1352140, 1532140, 1235140, 1325140, 1523140, 1253140, 1351240, 1531240, 1135240, 1315240, 1513240, 1153240,
    1451230, 1541230, 1145230, 1415230, 1514230, 1154230, 1251430, 1521430, 1125430, 1215430, 1512430, 1152430,
    1241530, 1421530, 1124530, 1214530, 1412530, 1142530, 1245130, 1425130, 1524130, 1254130, 1452130, 1542130,
    1345120, 1435120, 1534120, 1354120, 1453120, 1543120, 1145320, 1415320, 1514320, 1154320, 1451320, 1541320,
    1135420, 1315420, 1513420, 1153420, 1351420, 1531420, 1134520, 1314520, 1413520, 1143520, 1341520, 1431520,
    1234510, 1324510, 1423510, 1243510, 1342510, 1432510, 1534210, 1354210, 1453210, 1543210, 1345210, 1435210,
    1524310, 1254310, 1452310, 1542310, 1245310, 1425310, 1523410, 1253410, 1352410, 1532410, 1235410, 1325410,
    1123450, 1213450, 1312450, 1132450, 1231450, 1321450, 1423150, 1243150, 1342150, 1432150, 1234150, 1324150,
    1413250, 1143250, 1341250, 1431250, 1134250, 1314250, 1412350, 1142350, 1241350, 1421350, 1124350, 1214350,
    1502341, 1052341, 1250341, 1520341, 1025341, 1205341, 1302541, 1032541, 1230541, 1320541, 1023541, 1203541,
    1352041, 1532041, 1235041, 1325041, 1523041, 1253041, 1350241, 1530241, 1035241, 1305241, 1503241, 1053241,
    1450231, 1540231, 1045231, 1405231, 1504231, 1054231, 1250431, 1520431, 1025431, 1205431, 1502431, 1052431,
    1240531, 1420531, 1024531, 1204531, 1402531, 1042531, 1245031, 1425031, 1524031, 1254031, 1452031, 1542031,
    1345021, 1435021, 1534021, 1354021, 1453021, 1543021, 1045321, 1405321, 1504321, 1054321, 1450321, 1540321,
    1035421, 1305421, 1503421, 1053421, 1350421, 1530421, 1034521, 1304521, 1403521, 1043521, 1340521, 1430521,
    1234501, 1324501, 1423501, 1243501, 1342501, 1432501, 1534201, 1354201, 1453201, 1543201, 1345201, 1435201,
    1524301, 1254301, 1452301, 1542301, 1245301, 1425301, 1523401, 1253401, 1352401, 1532401, 1235401, 1325401,
    1023451, 1203451, 1302451, 1032451, 1230451, 1320451, 1423051, 1243051, 1342051, 1432051, 1234051, 1324051,
    1403251, 1043251, 1340251, 1430251, 1034251, 1304251, 1402351, 1042351, 1240351, 1420351, 1024351, 1204351,
    1501342, 1051342, 1150342, 1510342, 1015342, 1105342, 1301542, 1031542, 1130542, 1310542, 1013542, 1103542,
    1351042, 1531042, 1135042, 1315042, 1513042, 1153042, 1350142, 1530142, 1035142, 1305142, 1503142, 1053142,
    1450132, 1540132, 1045132, 1405132, 1504132, 1054132, 1150432, 1510432, 1015432, 1105432, 1501432, 1051432,
    1140532, 1410532, 1014532, 1104532, 1401532, 1041532, 1145032, 1415032, 1514032, 1154032, 1451032, 1541032,
    1345012, 1435012, 1534012, 1354012, 1453012, 1543012, 1045312, 1405312, 1504312, 1054312, 1450312, 1540312,
    1035412, 1305412, 1503412, 1053412, 1350412, 1530412, 1034512, 1304512, 1403512, 1043512, 1340512, 1430512,
    1134502, 1314502, 1413502, 1143502, 1341502, 1431502, 1534102, 1354102, 1453102, 1543102, 1345102, 1435102,
    1514302, 1154302, 1451302, 1541302, 1145302, 1415302, 1513402, 1153402, 1351402, 1531402, 1135402, 1315402,
    1013452, 1103452, 1301452, 1031452, 1130452, 1310452, 1413052, 1143052, 1341052, 1431052, 1134052, 1314052,
    1403152, 1043152, 1340152, 1430152, 1034152, 1304152, 1401352, 1041352, 1140352, 1410352, 1014352, 1104352,
    1501243, 1051243, 1150243, 1510243, 1015243, 1105243, 1201543, 1021543, 1120543, 1210543, 1012543, 1102543,
    1251043, 1521043, 1125043, 1215043, 1512043, 1152043, 1250143, 1520143, 1025143, 1205143, 1502143, 1052143,
    1450123, 1540123, 1045123, 1405123, 1504123, 1054123, 1150423, 1510423, 1015423, 1105423, 1501423, 1051423,
    1140523, 1410523, 1014523, 1104523, 1401523, 1041523, 1145023, 1415023, 1514023, 1154023, 1451023, 1541023,
    1245013, 1425013, 1524013, 1254013, 1452013, 1542013, 1045213, 1405213, 1504213, 1054213, 1450213, 1540213,
    1025413, 1205413, 1502413, 1052413, 1250413, 1520413, 1024513, 1204513, 1402513, 1042513, 1240513, 1420513,
    1124503, 1214503, 1412503, 1142503, 1241503, 1421503, 1524103, 1254103, 1452103, 1542103, 1245103, 1425103,
    1514203, 1154203, 1451203, 1541203, 1145203, 1415203, 1512403, 1152403, 1251403, 1521403, 1125403, 1215403,
    1012453, 1102453, 1201453, 1021453, 1120453, 1210453, 1412053, 1142053, 1241053, 1421053, 1124053, 1214053,
    1402153, 1042153, 1240153, 1420153, 1024153, 1204153, 1401253, 1041253, 1140253, 1410253, 1014253, 1104253,
    1501234, 1051234, 1150234, 1510234, 1015234, 1105234, 1201534, 1021534, 1120534, 1210534, 1012534, 1102534,
    1251034, 1521034, 1125034, 1215034, 1512034, 1152034, 1250134, 1520134, 1025134, 1205134, 1502134, 1052134,
    1350124, 1530124, 1035124, 1305124, 1503124, 1053124, 1150324, 1510324, 1015324, 1105324, 1501324, 1051324,
    1130524, 1310524, 1013524, 1103524, 1301524, 1031524, 1135024, 1315024, 1513024, 1153024, 1351024, 1531024,
    1235014, 1325014, 1523014, 1253014, 1352014, 1532014, 1035214, 1305214, 1503214, 1053214, 1350214, 1530214,
    1025314, 1205314, 1502314, 1052314, 1250314, 1520314, 1023514, 1203514, 1302514, 1032514, 1230514, 1320514,
    1123504, 1213504, 1312504, 1132504, 1231504, 1321504, 1523104, 1253104, 1352104, 1532104, 1235104, 1325104,
    1513204, 1153204, 1351204, 1531204, 1135204, 1315204, 1512304, 1152304, 1251304, 1521304, 1125304, 1215304,
    1012354, 1102354, 1201354, 1021354, 1120354, 1210354, 1312054, 1132054, 1231054, 1321054, 1123054, 1213054,
    1302154, 1032154, 1230154, 1320154, 1023154, 1203154, 1301254, 1031254, 1130254, 1310254, 1013254, 1103254
  ]

/-- The permutation table as a literal. -/
def perms_table : List (List Nat) := perms_codes.map row_of_code

/-! ### Search nodes and traces -/

/-- The generating moves on the parent chain of a node, the root's child first. -/
def chain_moves : StateNode → List Move
  | .mk _ _ none => []
  | .mk _ generator_move (some parent) => chain_moves parent ++ [generator_move]

/-- The number of parent links from a node to the root. -/
def depth : StateNode → Nat
  | .mk _ _ none => 0
  | .mk _ _ (some parent) => depth parent + 1

/-- A chain of the search tree: the root holds `SOLVED`, every other node
holds `make_move` of its parent's state by its generator move. -/
def chain_ok : StateNode → Prop
  | .mk state _ none => state = SOLVED
  | .mk state generator_move (some parent) =>
    generator_move ≠ Move.no_move ∧ state = make_move parent.state generator_move ∧
      chain_ok parent

/-- The root of the chain was created with `no_move`, as `main` does. -/
def root_move_ok : StateNode → Prop
  | .mk _ generator_move none => generator_move = Move.no_move
  | .mk _ _ (some parent) => root_move_ok parent

/-- The moves `print_moves_traceback` walks through: the reverse of each
generating move, from the node up to the root's child. -/
def solution_moves (node : StateNode) : List Move :=
  (chain_moves node).reverse.map reverse_move

/-- The letter of the layer a move turns. -/
def layer_letter : Move → String
  | .U => "U"
  | .U_prime => "U"
  | .M => "M"
  | .M_prime => "M"
  | .no_move => "."

/-- The spec's rendering of a move sequence: two adjacent identical moves are
printed once with a `2` suffix; every token but a final single move is
followed by a blank. -/
def trace_tokens : List Move → List String
  | [] => []
  | [m] => [move_names m]
  | m :: m2 :: rest =>
    if m2 = m then (layer_letter m ++ "2 ") :: trace_tokens rest
    else (move_names m ++ " ") :: trace_tokens (m2 :: rest)

/-- The moves a printed token stands for; `X2` is the move `X` twice. -/
def token_moves (t : String) : List Move :=
  if t = "U" ∨ t = "U " then [Move.U]
  else if t = "U\x27" ∨ t = "U\x27 " then [Move.U_prime]
  else if t = "M" ∨ t = "M " then [Move.M]
  else if t = "M\x27" ∨ t = "M\x27 " then [Move.M_prime]
  else if t = "U2" ∨ t = "U2 " then [Move.U, Move.U]
  else if t = "M2" ∨ t = "M2 " then [Move.M, Move.M]
  else []

/-- The moves a printed sequence of tokens stands for. -/
def tokens_moves (ts : List String) : List Move :=
  ts.flatMap token_moves

/-- The number of generator moves a printed sequence stands for. -/
def logical_length (ts : List String) : Nat :=
  (tokens_moves ts).length

/-! ### Search invariants -/

/-- The number of inversions of a sequence of labels. -/
def inversions : List Nat → Nat
  | [] => 0
  | x :: xs => (xs.filter fun y => y < x).length + inversions xs

/-- The permutation parity of the positions matches the parity of the number
of quarter turns recorded in the two offsets. -/
def parity_ok (s : State) : Prop :=
  (inversions s.edges_position + s.M_position + s.U_position) % 2 = 0

instance parity_ok_decidable (s : State) : Decidable (parity_ok s) := by
  unfold parity_ok; infer_instance

/-- The positions after a move (they do not depend on the other fields). -/
def moved_position (ep : List Nat) (m : Move) : List Nat :=
  (make_move ⟨ep, [0, 0, 0, 0, 0, 0], 0, 0⟩ m).edges_position

/-- The body of `cache_append`: `cache->array[i] = true; cache->length++`. -/
def StateCache.mark (c : StateCache) (i : Nat) : StateCache :=
  { c with array := fun j => if j = i then true else c.array j, length := c.length + 1 }

/-- Mark the codes of a list of states, in order. -/
def mark_all (c : StateCache) (l : List State) : StateCache :=
  l.foldl (fun c s => c.mark (encode_state s perms_table)) c

/-- The entry of a neighbour in `new_neighbors`. -/
def neighbor_entry (c : StateCache) (n : StateNode) (m : Move) : State :=
  if m = reverse_move n.generator_move then NOSTATE
  else if c.array (encode_state (make_move n.state m) perms_table) then NOSTATE
  else make_move n.state m

/-- The moves whose neighbour the expansion of a node appends to the queue. -/
def new_moves (c : StateCache) (n : StateNode) : List Move :=
  generators.filter fun m =>
    decide (m ≠ reverse_move n.generator_move) &&
      !c.array (encode_state (make_move n.state m) perms_table)

/-- The nodes appended by the expansion of a node. -/
def new_nodes (c : StateCache) (n : StateNode) : List StateNode :=
  (new_moves c n).map fun m => StateNode.mk (make_move n.state m) m (some n)

/-- The number of codes of the dense range not yet marked. -/
def unmarked (c : StateCache) : Nat :=
  ((Finset.range 368640).filter fun i => c.array i = false).card

/-- The invariant of the loop of `main`, for the queue and the cache at the
head of an iteration. -/
structure SearchInv (t : State) (q : List StateNode) (c : StateCache) : Prop where
  perms : c.perms = perms_table
  chain : ∀ n ∈ q, chain_ok n ∧ root_move_ok n
  marked : ∀ n ∈ q, c.array (encode_state n.state perms_table) = true
  parent : ∀ n ∈ q, ∀ p, n.parent = some p →
    c.array (encode_state p.state perms_table) = true
  minimal : ∀ n ∈ q, ∀ ms, generator_moves ms → apply_moves SOLVED ms = n.state →
    depth n ≤ ms.length
  sorted : q.Pairwise fun a b => depth a ≤ depth b
  near : ∀ a ∈ q, ∀ b ∈ q, depth b ≤ depth a + 1
  closed : ∀ s, Reachable s → c.array (encode_state s perms_table) = true →
    (∃ n ∈ q, n.state = s) ∨
      (s ≠ t ∧ ∀ m ∈ generators, c.array (encode_state (make_move s m) perms_table) = true)
  solved : c.array (encode_state SOLVED perms_table) = true

/-! ### Distance bounds -/

/-- Evaluate a number before passing it on. -/
def force_nat {α : Type} (x : Nat) (k : Nat → α) : α :=
  match x with
  | 0 => k 0
  | n + 1 => k (n + 1)

/-- Evaluate the entries of a list before passing it on. -/
def force_list {α : Type} : List Nat → (List Nat → α) → α
  | [], k => k []
  | x :: xs, k => force_nat x fun y => force_list xs fun ys => k (y :: ys)

/-- A left fold that evaluates the working array after every step. -/
def strict_foldl (f : List Nat × List (List Nat) → Nat → List Nat × List (List Nat)) :
    List Nat → List Nat × List (List Nat) → List Nat × List (List Nat)
  | [], st => st
  | i :: is, st =>
    match f st i with
    | (a, rows) => force_list a fun b => strict_foldl f is (b, rows)

/-- The function `heap_permutation` with the rows collected newest first and
the working array evaluated after every swap. -/
def heap_rev : Nat → List Nat × List (List Nat) → List Nat × List (List Nat)
  | 0, st => st
  | 1, st =>
    match st with
    | (a, rows) => (a, ([0, 1, 2, 3, 4, 5].map fun i => a.getD i 0) :: rows)
  | size + 2, st =>
    strict_foldl
      (fun st i =>
        match heap_rev (size + 1) st with
        | (a, rows) =>
          if (size + 2) % 2 != 0 then (swap a 0 (size + 1), rows)
          else (swap a i (size + 1), rows))
      (List.range (size + 2)) st

/-- The configurations one move after those of a list, each with the move
that produced it; the reverse of the move that produced a configuration is
not taken. -/
def sphere_step (l : List (State × Move)) : List (State × Move) :=
  l.flatMap fun p =>
    (generators.filter fun m => m ≠ reverse_move p.2).map fun m => (make_move p.1 m, m)

/-- The orientation bits as one number, first bit lowest. -/
def bits_code (eo : List Nat) : Nat :=
  eo.foldr (fun x k => x + 2 * k) 0

/-- A configuration as one number: positions in base 8, orientation bits,
offsets. -/
def pack (s : State) : Nat :=
  s.edges_position.foldr (fun x k => x + 8 * k) 0 + 262144 * bits_code s.edges_orientation
    + 16777216 * s.M_position + 67108864 * s.U_position

/-- Digit of a packed configuration. -/
def digit (c k : Nat) : Nat := Nat.mod (Nat.div c k) 8

/-- Orientation bits of a packed configuration after the flips of a top move. -/
def flipped (c x1 x2 x3 x4 : Nat) : Nat :=
  Nat.xor (Nat.xor (Nat.xor (Nat.xor (Nat.mod (Nat.div c 262144) 64)
    (Nat.mul (Nat.mod (Nat.div c 16777216) 2) (Nat.pow 2 x1)))
    (Nat.mul (Nat.mod (Nat.div c 16777216) 2) (Nat.pow 2 x2)))
    (Nat.mul (Nat.mod (Nat.div c 16777216) 2) (Nat.pow 2 x3)))
    (Nat.mul (Nat.mod (Nat.div c 16777216) 2) (Nat.pow 2 x4))

/-- The function `make_move` on packed configurations. -/
def code_move (c : Nat) : Move → Nat
  | Move.U =>
    Nat.add (Nat.add (Nat.add (Nat.add (Nat.add (Nat.add (Nat.add (Nat.add
      (digit c 1) (Nat.mul 8 (digit c 8))) (Nat.mul 64 (digit c 4096)))
      (Nat.mul 512 (digit c 32768))) (Nat.mul 4096 (digit c 512)))
      (Nat.mul 32768 (digit c 64)))
      (Nat.mul 262144 (flipped c (digit c 32768) (digit c 512) (digit c 4096) (digit c 64))))
      (Nat.mul 16777216 (Nat.mod (Nat.div c 16777216) 4)))
      (Nat.mul 67108864 (Nat.mod (Nat.add (Nat.div c 67108864) 1) 4))
  | Move.U_prime =>
    Nat.add (Nat.add (Nat.add (Nat.add (Nat.add (Nat.add (Nat.add (Nat.add
      (digit c 1) (Nat.mul 8 (digit c 8))) (Nat.mul 64 (digit c 32768)))
      (Nat.mul 512 (digit c 4096))) (Nat.mul 4096 (digit c 64)))
      (Nat.mul 32768 (digit c 512)))
      (Nat.mul 262144 (flipped c (digit c 4096) (digit c 64) (digit c 32768) (digit c 512))))
      (Nat.mul 16777216 (Nat.mod (Nat.div c 16777216) 4)))
      (Nat.mul 67108864 (Nat.mod (Nat.add (Nat.div c 67108864) 3) 4))
  | Move.M =>
    Nat.add (Nat.add (Nat.add (Nat.add (Nat.add
      (digit c 512) (Nat.mul 8 (digit c 1))) (Nat.mul 64 (digit c 8)))
      (Nat.mul 512 (digit c 64))) (Nat.mul 4096 (Nat.mod (Nat.div c 4096) 4096)))
      (Nat.add (Nat.mul 16777216 (Nat.mod (Nat.add (Nat.mod (Nat.div c 16777216) 4) 1) 4))
        (Nat.mul 67108864 (Nat.div c 67108864)))
  | Move.M_prime =>
    Nat.add (Nat.add (Nat.add (Nat.add (Nat.add
      (digit c 8) (Nat.mul 8 (digit c 64))) (Nat.mul 64 (digit c 512)))
      (Nat.mul 512 (digit c 1))) (Nat.mul 4096 (Nat.mod (Nat.div c 4096) 4096)))
      (Nat.add (Nat.mul 16777216 (Nat.mod (Nat.add (Nat.mod (Nat.div c 16777216) 4) 3) 4))
        (Nat.mul 67108864 (Nat.div c 67108864)))
  | Move.no_move => c

/-- One when `x < y`, zero otherwise, for digits below 8. -/
def lt_digit (x y : Nat) : Nat := Nat.div (Nat.add (Nat.sub y x) 7) 8

/-- A small number naming a packed configuration, for the bit mask. -/
def code_key (c : Nat) : Nat :=
  Nat.add (Nat.mul (Nat.add (Nat.mul (Nat.add (Nat.mul
    (Nat.add (Nat.add (Nat.add (Nat.add
      (Nat.mul 120 (Nat.add (Nat.add (Nat.add (Nat.add
        (lt_digit (digit c 8) (digit c 1)) (lt_digit (digit c 64) (digit c 1)))
        (lt_digit (digit c 512) (digit c 1))) (lt_digit (digit c 4096) (digit c 1)))
        (lt_digit (digit c 32768) (digit c 1))))
      (Nat.mul 24 (Nat.add (Nat.add (Nat.add
        (lt_digit (digit c 64) (digit c 8)) (lt_digit (digit c 512) (digit c 8)))
        (lt_digit (digit c 4096) (digit c 8))) (lt_digit (digit c 32768) (digit c 8)))))
      (Nat.mul 6 (Nat.add (Nat.add
        (lt_digit (digit c 512) (digit c 64)) (lt_digit (digit c 4096) (digit c 64)))
        (lt_digit (digit c 32768) (digit c 64)))))
      (Nat.mul 2 (Nat.add
        (lt_digit (digit c 4096) (digit c 512)) (lt_digit (digit c 32768) (digit c 512)))))
      (lt_digit (digit c 32768) (digit c 4096)))
    32) (Nat.mod (Nat.div c 262144) 32)) 4) (Nat.mod (Nat.div c 16777216) 4)) 2)
    (Nat.div c 134217728)

/-- The moves after a packed configuration, never the reverse of its last move. -/
def code_children (c : Nat) (last : Move) (acc : List (Nat × Move)) : List (Nat × Move) :=
  match last with
  | Move.U =>
    (code_move c Move.M, Move.M) :: (code_move c Move.U, Move.U) ::
      (code_move c Move.M_prime, Move.M_prime) :: acc
  | Move.U_prime =>
    (code_move c Move.U_prime, Move.U_prime) :: (code_move c Move.M, Move.M) ::
      (code_move c Move.M_prime, Move.M_prime) :: acc
  | Move.M =>
    (code_move c Move.U_prime, Move.U_prime) :: (code_move c Move.M, Move.M) ::
      (code_move c Move.U, Move.U) :: acc
  | Move.M_prime =>
    (code_move c Move.U_prime, Move.U_prime) :: (code_move c Move.U, Move.U) ::
      (code_move c Move.M_prime, Move.M_prime) :: acc
  | Move.no_move =>
    (code_move c Move.U_prime, Move.U_prime) :: (code_move c Move.M, Move.M) ::
      (code_move c Move.U, Move.U) :: (code_move c Move.M_prime, Move.M_prime) :: acc

/-- The packed configurations one move after those of a list, each with the
move that produced it (the list `sphere_step` on packed configurations). -/
def next_codes : List (Nat × Move) → List (Nat × Move) → List (Nat × Move)
  | [], acc => acc
  | (c, last) :: rest, acc => next_codes rest (code_children c last acc)

/-- Set the bit of the key of every packed configuration of a list. -/
def mask_fold : List (Nat × Move) → Nat → Nat
  | [], m => m
  | (c, _) :: rest, m => mask_fold rest (Nat.lor m (Nat.shiftLeft 1 (code_key c)))

/-- Count the packed configurations of a list whose key has its bit set. -/
def hits_fold : List (Nat × Move) → Nat → Nat → Nat
  | [], _, h => h
  | (c, _) :: rest, mask, h =>
    hits_fold rest mask (Nat.add h (Nat.land 1 (Nat.shiftRight mask (code_key c))))

/-- The bits of the keys of all packed configurations within `k` moves of a
list. -/
def ball_mask : Nat → List (Nat × Move) → Nat → Nat
  | 0, fr, m => mask_fold fr m
  | k + 1, fr, m => ball_mask k (next_codes fr []) (mask_fold fr m)

/-- The number of bits of a mask met by the keys of the packed
configurations within `k` moves of a list. -/
def ball_hits : Nat → List (Nat × Move) → Nat → Nat → Nat
  | 0, fr, mask, h => hits_fold fr mask h
  | k + 1, fr, mask, h => ball_hits k (next_codes fr []) mask (hits_fold fr mask h)

/-- The number of configurations within `a` moves of `s` whose key is the key
of a configuration within `b` moves of `t`. -/
def codes_meet (s : State) (a : Nat) (t : State) (b : Nat) : Nat :=
  ball_hits a [(pack s, Move.no_move)] (ball_mask b [(pack t, Move.no_move)] 0) 0

/-- The target of the first run example: `012345 000011 2 2`. -/
def example_target : State := ⟨[0, 1, 2, 3, 4, 5], [0, 0, 0, 0, 1, 1], 2, 2⟩

/-- The output documented for `example_target`:
`M U M' U M U' M U M2 U' M' U' M' U2`. -/
def example_output : List String :=
  ["M ", "U ", "M\x27 ", "U ", "M ", "U\x27 ", "M ", "U ", "M2 ", "U\x27 ", "M\x27 ",
    "U\x27 ", "M\x27 ", "U2"]

/-- The root node created by `main`. -/
def root_node : StateNode := StateNode.mk SOLVED Move.no_move none

/-- A node two moves below the root: `M`, then `U`. -/
def example_node : StateNode :=
  StateNode.mk (make_move (make_move SOLVED Move.M) Move.U) Move.U
    (some (StateNode.mk (make_move SOLVED Move.M) Move.M (some root_node)))

/-- A node three moves below the root: `U'`, `U'`, then `M`. -/
def example_node_double : StateNode :=
  StateNode.mk (make_move (make_move (make_move SOLVED Move.U_prime) Move.U_prime) Move.M) Move.M
    (some (StateNode.mk (make_move (make_move SOLVED Move.U_prime) Move.U_prime) Move.U_prime
      (some (StateNode.mk (make_move SOLVED Move.U_prime) Move.U_prime (some root_node)))))

/-- A valid configuration with an odd middle-layer offset. -/
def example_state : State := ⟨[3, 0, 1, 2, 4, 5], [0, 0, 0, 0, 1, 1], 1, 2⟩

/-- Sixteen moves from `SOLVED` to `example_target`. -/
def example_path : List Move :=
  [Move.U_prime, Move.U_prime, Move.M, Move.U, Move.M, Move.U, Move.M_prime, Move.M_prime,
    Move.U_prime, Move.M_prime, Move.U, Move.M_prime, Move.U_prime, Move.M, Move.U_prime,
    Move.M_prime]

/-! ### Bounds, errors and variants of the search -/

/-- The configuration `103254 111111 3 3`: the last row of the permutation
table, all six edges misoriented, both offsets 3. -/
def last_state : State := ⟨[1, 0, 3, 2, 5, 4], [1, 1, 1, 1, 1, 1], 3, 3⟩

/-- Models the guard `if (__builtin_popcount(int_eo) % 2)` of `encode_eo`:
whether `Error: invalid edge orientation` is printed. -/
def encode_eo_error (eo : List Nat) : Bool :=
  let int_eo :=
    [0, 1, 2, 3, 4, 5].foldl (fun int_eo i => ((int_eo <<< 1) % 2 ^ 32) ||| eo.getD i 0) 0
  popcount int_eo % 2 != 0

/-- An orientation vector with an odd number of ones. -/
def odd_bits : List Nat := [0, 0, 0, 0, 0, 1]

/-- The even-parity orientation vector of index 1. -/
def even_bits : List Nat := [0, 0, 0, 0, 1, 1]

/-- The four top-layer slots of `U_face`. -/
def top_slots : List Nat := [2, 3, 4, 5]

/-- The edges that occupy the top-layer slots of a configuration. -/
def top_edges (s : State) : List Nat :=
  top_slots.map fun pos => s.edges_position.getD pos 0

/-- The loop of `get_new_neighbors` without the test `m == move_to_parent`:
every move is tried and looked up in the cache. -/
def get_new_neighbors_noskip_loop (cache : StateCache) (state_node : StateNode) :
    List Move → Option (List State)
  | [] => some []
  | m :: ms =>
    let neighbor := make_move state_node.state m
    match is_in_cache cache neighbor with
    | none => none
    | some b =>
      (get_new_neighbors_noskip_loop cache state_node ms).map fun l =>
        (if b then NOSTATE else neighbor) :: l

/-- The variant of `get_new_neighbors` that does not skip the move back to
the parent. -/
def get_new_neighbors_noskip (cache : StateCache) (state_node : StateNode) :
    Option (List State) :=
  get_new_neighbors_noskip_loop cache state_node
    [Move.U_prime, Move.M, Move.U, Move.M_prime]

/-- The loop of `main` over `get_new_neighbors_noskip`. -/
def main_loop_noskip (target_state : State) : Nat → List StateNode → StateCache → Option Final
  | 0, _, _ => none
  | fuel + 1, queue, cache =>
    match queue with
    | [] => some ⟨Outcome.not_found, [], cache⟩
    | current_node :: queue =>
      if compare_states target_state current_node.state then
        some ⟨Outcome.solution_found current_node, queue, cache⟩
      else
        match get_new_neighbors_noskip cache current_node with
        | none => some ⟨Outcome.out_of_bounds, queue, cache⟩
        | some next_states =>
          match append_new_states current_node
              ([Move.U_prime, Move.M, Move.U, Move.M_prime].zip next_states) queue cache with
          | none => some ⟨Outcome.out_of_bounds, queue, cache⟩
          | some (rc, queue, cache) =>
            if rc ≠ 0 then some ⟨Outcome.exausted_cache, queue, cache⟩
            else main_loop_noskip target_state fuel queue cache

/-- The search of `main` over `get_new_neighbors_noskip`. -/
def main_noskip (target_state : State) (fuel : Nat) : Option Final :=
  match queue_append [] SOLVED none Move.no_move new_cache with
  | none => some ⟨Outcome.out_of_bounds, [], new_cache⟩
  | some (_, queue, cache) => main_loop_noskip target_state fuel queue cache

/-- The loop over `next_states` of `main` with a record of every call of
`queue_append`: the node it creates and what `is_in_cache` yields for the
node's configuration when the call is made. -/
def append_new_states_log (current_node : StateNode) :
    List (Move × State) → List StateNode → StateCache → List (StateNode × Option Bool) →
      Option (Nat × List StateNode × StateCache × List (StateNode × Option Bool))
  | [], queue, cache, log => some (0, queue, cache, log)
  | (m, new_state) :: rest, queue, cache, log =>
    if !is_nostate new_state then
      match queue_append queue new_state (some current_node) m cache with
      | none => none
      | some (rc, queue2, cache2) =>
        if rc ≠ 0 then
          some (1, queue2, cache2,
            log ++ [(StateNode.mk new_state m (some current_node), is_in_cache cache new_state)])
        else
          append_new_states_log current_node rest queue2 cache2
            (log ++ [(StateNode.mk new_state m (some current_node), is_in_cache cache new_state)])
    else append_new_states_log current_node rest queue cache log

/-- The loop of `main` with the record of the calls of `queue_append`. -/
def main_loop_log (target_state : State) :
    Nat → List StateNode → StateCache → List (StateNode × Option Bool) →
      Option (Final × List (StateNode × Option Bool))
  | 0, _, _, _ => none
  | fuel + 1, queue, cache, log =>
    match queue with
    | [] => some (⟨Outcome.not_found, [], cache⟩, log)
    | current_node :: queue =>
      if compare_states target_state current_node.state then
        some (⟨Outcome.solution_found current_node, queue, cache⟩, log)
      else
        match get_new_neighbors cache current_node with
        | none => some (⟨Outcome.out_of_bounds, queue, cache⟩, log)
        | some next_states =>
          match append_new_states_log current_node
              ([Move.U_prime, Move.M, Move.U, Move.M_prime].zip next_states) queue cache log with
          | none => some (⟨Outcome.out_of_bounds, queue, cache⟩, log)
          | some (rc, queue, cache, log) =>
            if rc ≠ 0 then some (⟨Outcome.exausted_cache, queue, cache⟩, log)
            else main_loop_log target_state fuel queue cache log

/-- The search of `main` with the record of the calls of `queue_append`,
the call for the root node first. -/
def main_log (target_state : State) (fuel : Nat) :
    Option (Final × List (StateNode × Option Bool)) :=
  match queue_append [] SOLVED none Move.no_move new_cache with
  | none => some (⟨Outcome.out_of_bounds, [], new_cache⟩, [])
  | some (_, queue, cache) =>
    main_loop_log target_state fuel queue cache
      [(StateNode.mk SOLVED Move.no_move none, is_in_cache new_cache SOLVED)]

/-- The number of marked entries among the `MAX_CACHE_SIZE` entries of
`cache->array`. -/
def marked_count (c : StateCache) : Nat :=
  ((Finset.range MAX_CACHE_SIZE).filter fun i => c.array i = true).card

/-- The invariant of the record of `queue_append` calls: every call was made
for a configuration not yet marked, the nodes created hold pairwise different
reachable configurations, and the marked codes are the codes of these
configurations, as many as `cache->length`. -/
structure LogInv (c : StateCache) (log : List (StateNode × Option Bool)) : Prop where
  perms : c.perms = perms_table
  fresh : ∀ e ∈ log, e.2 = some false
  reach : ∀ e ∈ log, Reachable e.1.state
  distinct : (log.map fun e => e.1.state).Nodup
  marks : ∀ i, c.array i = true ↔ ∃ e ∈ log, encode_state e.1.state perms_table = i
  length : c.length = log.length
  count : c.length + unmarked c = 368640

/-- Segments of a move sequence and the tokens printed for them: a single
move prints its name, followed by a blank or not; two adjacent identical moves
print the letter of their layer with the suffix `2` and a blank. -/
def token_of (seg : List Move) (t : String) : Prop :=
  (∃ m, seg = [m] ∧ (t = move_names m ∨ t = move_names m ++ " ")) ∨
    (∃ m, seg = [m, m] ∧ t = layer_letter m ++ "2 ")

/-! ## Cube state model: lemmas -/

theorem list_length_six {α : Type} (l : List α) (h : l.length = 6) :
    ∃ a b c d e f, l = [a, b, c, d, e, f] := by
  match l, h with
  | [a, b, c, d, e, f], _ => exact ⟨a, b, c, d, e, f, rfl⟩

theorem flip_at_length (eo : List Nat) (e : Nat) : (flip_at eo e).length = eo.length := by
  simp [flip_at]

theorem flip_at_getD (eo : List Nat) (e i : Nat) (hi : i < eo.length) :
    (flip_at eo e).getD i 0 = if i = e then eo.getD i 0 ^^^ 1 else eo.getD i 0 := by
  unfold flip_at
  by_cases h : i = e
  · subst h
    simp [List.getD_eq_getElem?_getD, List.getElem?_set, hi]
  · have h2 : e ≠ i := fun h3 => h h3.symm
    simp [List.getD_eq_getElem?_getD, List.getElem?_set, h, h2]

theorem list_ext_getD (l1 l2 : List Nat) (hl : l1.length = l2.length)
    (h : ∀ i, i < l1.length → l1.getD i 0 = l2.getD i 0) : l1 = l2 := by
  apply List.ext_getElem hl
  intro i h1 h2
  have := h i h1
  simpa [List.getD_eq_getElem?_getD, h1, h2] using this

theorem xor_one_one (x : Nat) : x ^^^ 1 ^^^ 1 = x := by
  rw [Nat.xor_assoc]; simp

theorem flip_at_getD_bool (eo : List Nat) (e i : Nat) (hi : i < eo.length) :
    (flip_at eo e).getD i 0 = bif decide (i = e) then eo.getD i 0 ^^^ 1 else eo.getD i 0 := by
  rw [flip_at_getD eo e i hi]
  by_cases h : i = e <;> simp [h]

/-- Flipping the same four edges twice, in any two orders, restores the array. -/
theorem flip_twice (eo : List Nat) (c d e f : Nat) :
    flip_at (flip_at (flip_at (flip_at (flip_at (flip_at (flip_at (flip_at eo f) d) e) c) d) e) c) f
      = eo := by
  apply list_ext_getD
  · simp [flip_at_length]
  · intro i hi
    simp only [flip_at_length] at hi
    simp only [flip_at_getD_bool, flip_at_length, hi]
    generalize decide (i = c) = b1
    generalize decide (i = d) = b2
    generalize decide (i = e) = b3
    generalize decide (i = f) = b4
    cases b1 <;> cases b2 <;> cases b3 <;> cases b4 <;> simp [xor_one_one]

/-- The flips of `U_prime` followed by those of `U` restore the array. -/
theorem flip_twice_prime (eo : List Nat) (c d e f : Nat) :
    flip_at (flip_at (flip_at (flip_at (flip_at (flip_at (flip_at (flip_at eo e) c) f) d) d) e) c) f
      = eo := by
  apply list_ext_getD
  · simp [flip_at_length]
  · intro i hi
    simp only [flip_at_length] at hi
    simp only [flip_at_getD_bool, flip_at_length, hi]
    generalize decide (i = c) = b1
    generalize decide (i = d) = b2
    generalize decide (i = e) = b3
    generalize decide (i = f) = b4
    cases b1 <;> cases b2 <;> cases b3 <;> cases b4 <;> simp [xor_one_one]

/-- The four flips of `flip_edges`, at the edges occupying slots 3, 4, 2, 5. -/
theorem flip_edges_eq (a b c d e f : Nat) (eo : List Nat) (M U : Nat) :
    flip_edges ⟨[a, b, c, d, e, f], eo, M, U⟩ =
      ⟨[a, b, c, d, e, f], flip_at (flip_at (flip_at (flip_at eo d) e) c) f, M, U⟩ := rfl

theorem make_move_U (a b c d e f : Nat) (eo : List Nat) (M U : Nat) :
    make_move ⟨[a, b, c, d, e, f], eo, M, U⟩ Move.U =
      ⟨[a, b, e, f, d, c],
        if M % 2 ≠ 0 then flip_at (flip_at (flip_at (flip_at eo f) d) e) c else eo,
        M, (U + 1) % 4⟩ := by
  by_cases h : M % 2 = 0 <;> simp [make_move, h, rotate_edges, U_face, flip_edges_eq]

theorem make_move_U_prime (a b c d e f : Nat) (eo : List Nat) (M U : Nat) :
    make_move ⟨[a, b, c, d, e, f], eo, M, U⟩ Move.U_prime =
      ⟨[a, b, f, e, c, d],
        if M % 2 ≠ 0 then flip_at (flip_at (flip_at (flip_at eo e) c) f) d else eo,
        M, (U + 3) % 4⟩ := by
  by_cases h : M % 2 = 0 <;> simp [make_move, h, rotate_edges, U_face, flip_edges_eq]

theorem make_move_M (a b c d e f : Nat) (eo : List Nat) (M U : Nat) :
    make_move ⟨[a, b, c, d, e, f], eo, M, U⟩ Move.M =
      ⟨[d, a, b, c, e, f], eo, (M + 1) % 4, U⟩ := by
  simp [make_move, rotate_edges, M_face]

theorem make_move_M_prime (a b c d e f : Nat) (eo : List Nat) (M U : Nat) :
    make_move ⟨[a, b, c, d, e, f], eo, M, U⟩ Move.M_prime =
      ⟨[b, c, d, a, e, f], eo, (M + 3) % 4, U⟩ := by
  simp [make_move, rotate_edges, M_face]

/-- A move followed by its reverse restores any state with six positions and
both offsets below 4. -/
theorem make_move_reverse_six (ep eo : List Nat) (M U : Nat) (m : Move)
    (hep : ep.length = 6) (hM : M < 4) (hU : U < 4) (hm : m ≠ Move.no_move) :
    make_move (make_move ⟨ep, eo, M, U⟩ m) (reverse_move m) = ⟨ep, eo, M, U⟩ := by
  obtain ⟨a, b, c, d, e, f, rfl⟩ := list_length_six ep hep
  cases m with
  | no_move => exact absurd rfl hm
  | U =>
    simp only [reverse_move, make_move_U, make_move_U_prime]
    by_cases h : M % 2 = 0
    · simp [h]; omega
    · simp only [h, ne_eq, not_false_eq_true, if_true, flip_twice]
      simp; omega
  | U_prime =>
    simp only [reverse_move, make_move_U, make_move_U_prime]
    by_cases h : M % 2 = 0
    · simp [h]; omega
    · simp only [h, ne_eq, not_false_eq_true, if_true, flip_twice_prime]
      simp; omega
  | M =>
    simp only [reverse_move, make_move_M, make_move_M_prime]
    simp; omega
  | M_prime =>
    simp only [reverse_move, make_move_M, make_move_M_prime]
    simp; omega

/-! ## Validity is preserved by the moves -/

theorem flip_at_cons_zero (x : Nat) (xs : List Nat) :
    flip_at (x :: xs) 0 = (x ^^^ 1) :: xs := rfl

theorem flip_at_cons_succ (x : Nat) (xs : List Nat) (e : Nat) :
    flip_at (x :: xs) (e + 1) = x :: flip_at xs e := rfl

theorem bit_xor_one (x : Nat) (hx : x ≤ 1) : x ^^^ 1 ≤ 1 ∧ (x ^^^ 1 = 1 ↔ x = 0) := by
  interval_cases x <;> decide

theorem flip_at_bits (eo : List Nat) (e : Nat) (h : ∀ x ∈ eo, x ≤ 1) :
    ∀ x ∈ flip_at eo e, x ≤ 1 := by
  induction eo generalizing e with
  | nil => intro x hx; simp [flip_at] at hx
  | cons y ys ih =>
    have hy : y ≤ 1 := h y (List.mem_cons_self _ _)
    have hys : ∀ x ∈ ys, x ≤ 1 := fun x hx => h x (List.mem_cons_of_mem _ hx)
    cases e with
    | zero =>
      intro x hx
      rw [flip_at_cons_zero] at hx
      rcases List.mem_cons.mp hx with rfl | hx
      · exact (bit_xor_one y hy).1
      · exact hys x hx
    | succ e =>
      intro x hx
      rw [flip_at_cons_succ] at hx
      rcases List.mem_cons.mp hx with rfl | hx
      · exact hy
      · exact ih e hys x hx

theorem flip_at_count (eo : List Nat) (e : Nat) (h : ∀ x ∈ eo, x ≤ 1) (he : e < eo.length) :
    (flip_at eo e).count 1 % 2 = (eo.count 1 + 1) % 2 := by
  induction eo generalizing e with
  | nil => simp at he
  | cons y ys ih =>
    have hy : y ≤ 1 := h y (List.mem_cons_self _ _)
    have hys : ∀ x ∈ ys, x ≤ 1 := fun x hx => h x (List.mem_cons_of_mem _ hx)
    cases e with
    | zero =>
      rw [flip_at_cons_zero]
      interval_cases y <;> simp [List.count_cons]; omega
    | succ e =>
      rw [flip_at_cons_succ]
      have he2 : e < ys.length := by simpa using he
      have := ih e hys he2
      simp only [List.count_cons]
      omega

theorem valid_orientation_flip4 (eo : List Nat) (c d e f : Nat) (h : valid_orientation eo)
    (hc : c < 6) (hd : d < 6) (he : e < 6) (hf : f < 6) :
    valid_orientation (flip_at (flip_at (flip_at (flip_at eo c) d) e) f) := by
  obtain ⟨hl, hb, hp⟩ := h
  have b1 := flip_at_bits eo c hb
  have b2 := flip_at_bits _ d b1
  have b3 := flip_at_bits _ e b2
  have b4 := flip_at_bits _ f b3
  have c1 := flip_at_count eo c hb (by omega)
  have c2 := flip_at_count _ d b1 (by rw [flip_at_length]; omega)
  have c3 := flip_at_count _ e b2 (by rw [flip_at_length, flip_at_length]; omega)
  have c4 := flip_at_count _ f b3 (by rw [flip_at_length, flip_at_length, flip_at_length]; omega)
  refine ⟨by simp [flip_at_length, hl], b4, ?_⟩
  omega

theorem valid_position_six (a b c d e f : Nat) :
    valid_position [a, b, c, d, e, f] ↔
      (a ≠ b ∧ a ≠ c ∧ a ≠ d ∧ a ≠ e ∧ a ≠ f ∧ b ≠ c ∧ b ≠ d ∧ b ≠ e ∧ b ≠ f ∧
        c ≠ d ∧ c ≠ e ∧ c ≠ f ∧ d ≠ e ∧ d ≠ f ∧ e ≠ f) ∧
      a < 6 ∧ b < 6 ∧ c < 6 ∧ d < 6 ∧ e < 6 ∧ f < 6 := by
  simp only [valid_position, List.length_cons, List.length_nil, List.nodup_cons,
    List.mem_cons, List.mem_singleton, List.not_mem_nil, List.nodup_nil, not_or,
    forall_eq_or_imp, forall_eq]
  tauto

/-- The function `make_move` keeps a valid configuration valid. -/
theorem make_move_valid (s : State) (m : Move) (hs : s.Valid) (hm : m ≠ Move.no_move) :
    (make_move s m).Valid := by
  obtain ⟨ep, eo, M, U⟩ := s
  obtain ⟨hep, heo, hM, hU⟩ := hs
  simp only at hep heo hM hU
  obtain ⟨a, b, c, d, e, f, rfl⟩ := list_length_six ep hep.1
  rw [valid_position_six] at hep
  obtain ⟨⟨h1, h2, h3, h4, h5, h6, h7, h8, h9, h10, h11, h12, h13, h14, h15⟩,
    ha, hb, hc, hd, he, hf⟩ := hep
  cases m with
  | no_move => exact absurd rfl hm
  | U =>
    rw [make_move_U]
    refine ⟨?_, ?_, hM, Nat.mod_lt _ (by decide)⟩
    · simp only; rw [valid_position_six]
      repeat' apply And.intro
      all_goals first | assumption | exact Ne.symm (by assumption)
    · simp only
      split
      · exact valid_orientation_flip4 eo f d e c heo (by assumption) (by assumption) (by assumption) (by assumption)
      · exact heo
  | U_prime =>
    rw [make_move_U_prime]
    refine ⟨?_, ?_, hM, Nat.mod_lt _ (by decide)⟩
    · simp only; rw [valid_position_six]
      repeat' apply And.intro
      all_goals first | assumption | exact Ne.symm (by assumption)
    · simp only
      split
      · exact valid_orientation_flip4 eo e c f d heo (by assumption) (by assumption) (by assumption) (by assumption)
      · exact heo
  | M =>
    rw [make_move_M]
    refine ⟨?_, heo, Nat.mod_lt _ (by decide), hU⟩
    simp only; rw [valid_position_six]
    repeat' apply And.intro
    all_goals first | assumption | exact Ne.symm (by assumption)
  | M_prime =>
    rw [make_move_M_prime]
    refine ⟨?_, heo, Nat.mod_lt _ (by decide), hU⟩
    simp only; rw [valid_position_six]
    repeat' apply And.intro
    all_goals first | assumption | exact Ne.symm (by assumption)

theorem SOLVED_valid : SOLVED.Valid := by
  refine ⟨?_, ?_, by decide, by decide⟩
  · exact ⟨by decide, by decide, by decide⟩
  · exact ⟨by decide, by decide, by decide⟩

theorem apply_moves_append (s : State) (ms ms2 : List Move) :
    apply_moves s (ms ++ ms2) = apply_moves (apply_moves s ms) ms2 := by
  simp [apply_moves, List.foldl_append]

theorem apply_moves_valid (s : State) (ms : List Move) (hs : s.Valid)
    (hms : generator_moves ms) : (apply_moves s ms).Valid := by
  induction ms generalizing s with
  | nil => exact hs
  | cons m ms ih =>
    have hm : m ≠ Move.no_move := hms m (List.mem_cons_self _ _)
    exact ih (make_move s m) (make_move_valid s m hs hm)
      (fun x hx => hms x (List.mem_cons_of_mem _ hx))

theorem Reachable.valid {s : State} (h : Reachable s) : s.Valid := by
  obtain ⟨ms, hms, rfl⟩ := h
  exact apply_moves_valid SOLVED ms SOLVED_valid hms

/-- A move followed by its reverse restores a valid configuration. -/
theorem make_move_reverse (s : State) (m : Move) (hs : s.Valid) (hm : m ≠ Move.no_move) :
    make_move (make_move s m) (reverse_move m) = s := by
  obtain ⟨ep, eo, M, U⟩ := s
  exact make_move_reverse_six ep eo M U m hs.1.1 hs.2.2.1 hs.2.2.2 hm

/-! ## The permutation table -/

theorem nodup_check_sound (ks : List Nat) (mask : Nat) (h : nodup_check ks mask = true) :
    ks.Nodup ∧ ∀ k ∈ ks, mask.testBit k = false := by
  induction ks generalizing mask with
  | nil => exact ⟨List.nodup_nil, fun k hk => absurd hk (List.not_mem_nil k)⟩
  | cons k ks ih =>
    simp only [nodup_check, Bool.and_eq_true, Bool.not_eq_true'] at h
    obtain ⟨h0, h1⟩ := h
    obtain ⟨hn, hm⟩ := ih _ h1
    have hk : k ∉ ks := by
      intro hk
      have := hm k hk
      rw [Nat.testBit_or, Nat.one_shiftLeft, Nat.testBit_two_pow_self] at this
      simp at this
    refine ⟨List.nodup_cons.mpr ⟨hk, hn⟩, ?_⟩
    intro x hx
    rcases List.mem_cons.mp hx with rfl | hx
    · exact h0
    · have := hm x hx
      rw [Nat.testBit_or] at this
      simp only [Bool.or_eq_false_iff] at this
      exact this.1

theorem force_nat_eq {α : Type} (x : Nat) (k : Nat → α) : force_nat x k = k x := by
  cases x <;> rfl

theorem force_list_eq {α : Type} (l : List Nat) (k : List Nat → α) : force_list l k = k l := by
  induction l generalizing k with
  | nil => rfl
  | cons x xs ih => simp only [force_list, force_nat_eq, ih]

theorem strict_foldl_eq (f : List Nat × List (List Nat) → Nat → List Nat × List (List Nat))
    (l : List Nat) (st : List Nat × List (List Nat)) : strict_foldl f l st = l.foldl f st := by
  induction l generalizing st with
  | nil => rfl
  | cons i is ih => simp only [strict_foldl, force_list_eq, List.foldl_cons, ih]

theorem foldl_sim {σ τ ι : Type} (f : τ → ι → τ) (g : σ → ι → σ) (φ : σ → τ)
    (h : ∀ st i, f (φ st) i = φ (g st i)) :
    ∀ (l : List ι) (st : σ), l.foldl f (φ st) = φ (l.foldl g st) := by
  intro l
  induction l with
  | nil => intro st; rfl
  | cons i is ih => intro st; simp only [List.foldl_cons, h, ih]

/-- The rows of `heap_rev` are those of `heap_permutation`, newest first. -/
theorem heap_rev_eq (n : Nat) : ∀ st : List Nat × List (List Nat),
    heap_rev n (st.1, st.2.reverse) =
      ((heap_permutation n st).1, (heap_permutation n st).2.reverse) := by
  induction n with
  | zero => intro st; rfl
  | succ n ih =>
    cases n with
    | zero =>
      intro st
      simp [heap_rev, heap_permutation]
    | succ n =>
      intro st
      simp only [heap_rev, heap_permutation, strict_foldl_eq]
      apply foldl_sim _ _ (fun st : List Nat × List (List Nat) => (st.1, st.2.reverse))
      intro st i
      simp only [ih st]
      split <;> rfl

set_option maxRecDepth 100000 in
theorem heap_rev_table :
    (heap_rev 6 ([0, 1, 2, 3, 4, 5], [])).2 = perms_table.reverse := by decide!

theorem new_cache_perms_eq : new_cache_perms = perms_table := by
  have h := heap_rev_eq 6 ([0, 1, 2, 3, 4, 5], [])
  have h2 := congrArg Prod.snd h
  simp only [List.reverse_nil] at h2
  rw [heap_rev_table] at h2
  exact (List.reverse_injective h2).symm

theorem new_cache_perms_table : new_cache.perms = perms_table := by
  simp only [new_cache]
  exact new_cache_perms_eq

theorem perms_table_length : perms_table.length = 720 := by decide!

set_option maxRecDepth 100000 in
theorem perms_table_valid : ∀ r ∈ perms_table, valid_position r := by decide!

theorem perms_table_nodup : perms_table.Nodup :=
  List.Nodup.of_map row_key (nodup_check_sound _ 0 (by decide!)).1

theorem valid_position_perm (ep : List Nat) (h : valid_position ep) :
    ep.Perm (List.range 6) := by
  have hsub : ep ⊆ List.range 6 := fun x hx => List.mem_range.mpr (h.2.2 x hx)
  exact (h.2.1.subperm hsub).perm_of_length_le (by simp [h.1])

/-- Every permutation of the six labels is a row of the table. -/
theorem perms_table_complete (ep : List Nat) (h : valid_position ep) : ep ∈ perms_table := by
  have h1 : perms_table ⊆ (List.range 6).permutations := fun r hr =>
    List.mem_permutations.mpr (valid_position_perm r (perms_table_valid r hr))
  have h2 := (perms_table_nodup.subperm h1).perm_of_length_le
    (by rw [List.length_permutations, perms_table_length]; decide)
  exact h2.mem_iff.mpr (List.mem_permutations.mpr (valid_position_perm ep h))

theorem ep_is_equal_iff (A B : List Nat) (hA : A.length = 6) (hB : B.length = 6) :
    ep_is_equal A B = true ↔ A = B := by
  obtain ⟨a, b, c, d, e, f, rfl⟩ := list_length_six A hA
  obtain ⟨a2, b2, c2, d2, e2, f2, rfl⟩ := list_length_six B hB
  simp [ep_is_equal]

theorem find_ep_at (ep : List Nat) (t : List (List Nat)) (j : Nat) :
    ∀ fuel i, (∀ k, i ≤ k → k < j → ep_is_equal ep (t.getD k []) = false) →
      ep_is_equal ep (t.getD j []) = true → i ≤ j → j < i + fuel →
      find_ep ep t fuel i = j := by
  intro fuel
  induction fuel with
  | zero => intro i _ _ h1 h2; omega
  | succ fuel ih =>
    intro i hk hj h1 h2
    unfold find_ep
    by_cases hij : i = j
    · subst hij; rw [if_pos hj]
    · have hlt : i < j := by omega
      rw [hk i (Nat.le_refl _) hlt]
      simp only [Bool.false_eq_true, if_false]
      exact ih (i + 1) (fun k hk1 hk2 => hk k (by omega) hk2) hj (by omega) (by omega)

theorem perms_table_getD_valid (j : Nat) (hj : j < 720) :
    valid_position (perms_table.getD j []) := by
  have hj2 : j < perms_table.length := by rw [perms_table_length]; exact hj
  rw [List.getD_eq_getElem _ _ hj2]
  exact perms_table_valid _ (List.getElem_mem _)

theorem perms_table_getD_inj (j k : Nat) (hj : j < 720) (hk : k < 720)
    (h : perms_table.getD j [] = perms_table.getD k []) : j = k := by
  have hj2 : j < perms_table.length := by rw [perms_table_length]; exact hj
  have hk2 : k < perms_table.length := by rw [perms_table_length]; exact hk
  rw [List.getD_eq_getElem _ _ hj2, List.getD_eq_getElem _ _ hk2] at h
  exact (List.Nodup.getElem_inj_iff perms_table_nodup).mp h

/-- The lookup loop of `encode_state` stops at the index of the row. -/
theorem find_ep_row (j : Nat) (hj : j < 720) :
    find_ep (perms_table.getD j []) perms_table 720 0 = j := by
  have hv := perms_table_getD_valid j hj
  apply find_ep_at _ _ j 720 0 _ _ (Nat.zero_le _) (by omega)
  · intro k _ hkj
    have hvk := perms_table_getD_valid k (by omega)
    cases hb : ep_is_equal (perms_table.getD j []) (perms_table.getD k []) with
    | false => rfl
    | true =>
      have := (ep_is_equal_iff _ _ hv.1 hvk.1).mp hb
      have := perms_table_getD_inj j k hj (by omega) this
      omega
  · exact (ep_is_equal_iff _ _ hv.1 hv.1).mpr rfl

/-- For a permutation of the labels the lookup stops at the one index of the
table that holds it. -/
theorem find_ep_valid (ep : List Nat) (h : valid_position ep) :
    find_ep ep perms_table 720 0 < 720 ∧
      perms_table.getD (find_ep ep perms_table 720 0) [] = ep := by
  obtain ⟨j, hj, hje⟩ := List.mem_iff_getElem.mp (perms_table_complete ep h)
  have hj2 : j < 720 := by rw [perms_table_length] at hj; exact hj
  have hg : perms_table.getD j [] = ep := by rw [List.getD_eq_getElem _ _ hj]; exact hje
  have := find_ep_row j hj2
  rw [hg] at this
  rw [this]
  exact ⟨hj2, hg⟩

/-! ## The state codec -/

theorem bits_six_cases (eo : List Nat) (hl : eo.length = 6) (hb : ∀ x ∈ eo, x ≤ 1)
    (P : List Nat → Prop)
    (h : ∀ a < 2, ∀ b < 2, ∀ c < 2, ∀ d < 2, ∀ e < 2, ∀ f < 2, P [a, b, c, d, e, f]) :
    P eo := by
  obtain ⟨a, b, c, d, e, f, rfl⟩ := list_length_six eo hl
  simp only [List.mem_cons, List.mem_singleton, List.not_mem_nil, or_false,
    forall_eq_or_imp, forall_eq] at hb
  exact h a (by omega) b (by omega) c (by omega) d (by omega) e (by omega) f (by omega)

set_option synthInstance.maxSize 2000 in
/-- On the even-parity bit vectors `encode_eo` yields an index below 32 that
`decode_eo` maps back. -/
theorem decode_encode_eo (eo : List Nat) (h : valid_orientation eo) :
    encode_eo eo < 32 ∧ decode_eo (encode_eo eo) = eo := by
  have key : ∀ a < 2, ∀ b < 2, ∀ c < 2, ∀ d < 2, ∀ e < 2, ∀ f < 2,
      valid_orientation [a, b, c, d, e, f] →
        encode_eo [a, b, c, d, e, f] < 32 ∧
          decode_eo (encode_eo [a, b, c, d, e, f]) = [a, b, c, d, e, f] := by
    decide!
  exact bits_six_cases eo h.1 h.2.1
    (fun eo => valid_orientation eo → encode_eo eo < 32 ∧ decode_eo (encode_eo eo) = eo) key h

/-- Every index below 32 decodes to an even-parity bit vector that encodes
back to the index. -/
theorem encode_decode_eo : ∀ j < 32,
    valid_orientation (decode_eo j) ∧ encode_eo (decode_eo j) = j := by
  decide!

theorem shift_or_eq (a b k : Nat) (hb : b < 2 ^ k) (ha : a * 2 ^ k < 2 ^ 32) :
    ((a <<< k) % 2 ^ 32) ||| b = a * 2 ^ k + b := by
  rw [Nat.shiftLeft_eq, Nat.mod_eq_of_lt ha, Nat.mul_comm a, Nat.mul_add_lt_is_or hb]

/-- The packing of `encode_state` is positional: nothing overflows 32 bits. -/
theorem pack_eq (i e M U : Nat) (hi : i ≤ 720) (he : e < 32) (hM : M < 4) (hU : U < 4) :
    (((((((0 ||| i) <<< 5) % 2 ^ 32) ||| e) <<< 2) % 2 ^ 32 ||| M) <<< 2) % 2 ^ 32 ||| U
      = ((i * 32 + e) * 4 + M) * 4 + U := by
  rw [Nat.zero_or]
  rw [shift_or_eq i e 5 (by omega) (by omega)]
  rw [shift_or_eq (i * 2 ^ 5 + e) M 2 (by omega) (by omega)]
  rw [shift_or_eq _ U 2 (by omega) (by omega)]
  omega

theorem and_three (c : Nat) : c &&& 3 = c % 4 :=
  Nat.and_pow_two_sub_one_eq_mod c 2

theorem and_thirty_one (c : Nat) : c &&& 31 = c % 32 :=
  Nat.and_pow_two_sub_one_eq_mod c 5

theorem row_map_getD (r : List Nat) (h : r.length = 6) :
    ([0, 1, 2, 3, 4, 5].map fun i => r.getD i 0) = r := by
  obtain ⟨a, b, c, d, e, f, rfl⟩ := list_length_six r h
  rfl

/-- The code of a valid configuration, over the literal table. -/
theorem encode_state_eq (s : State) (h : s.Valid) :
    encode_state s perms_table =
      ((find_ep s.edges_position perms_table 720 0 * 32 + encode_eo s.edges_orientation) * 4
        + s.M_position) * 4 + s.U_position := by
  unfold encode_state
  exact pack_eq _ _ _ _ (Nat.le_of_lt (find_ep_valid _ h.1).1)
    (decode_encode_eo _ h.2.1).1 h.2.2.1 h.2.2.2

theorem decode_state_eq (i e M U : Nat) (he : e < 32) (hM : M < 4) (hU : U < 4) :
    decode_state (((i * 32 + e) * 4 + M) * 4 + U) perms_table =
      ⟨[0, 1, 2, 3, 4, 5].map fun k => (perms_table.getD i []).getD k 0,
        decode_eo e, M, U⟩ := by
  unfold decode_state
  simp only [and_three, and_thirty_one, Nat.shiftRight_eq_div_pow]
  have h1 : (((i * 32 + e) * 4 + M) * 4 + U) % 4 = U := by omega
  have h2 : (((i * 32 + e) * 4 + M) * 4 + U) / 2 ^ 2 % 4 = M := by omega
  have h3 : (((i * 32 + e) * 4 + M) * 4 + U) / 2 ^ 2 / 2 ^ 2 % 32 = e := by omega
  have h4 : (((i * 32 + e) * 4 + M) * 4 + U) / 2 ^ 2 / 2 ^ 2 / 2 ^ 5 = i := by omega
  rw [h1, h2, h3, h4]

/-- Round trip on the literal table. -/
theorem decode_encode_table (s : State) (h : s.Valid) :
    decode_state (encode_state s perms_table) perms_table = s := by
  rw [encode_state_eq s h]
  obtain ⟨he1, he2⟩ := decode_encode_eo _ h.2.1
  obtain ⟨hf1, hf2⟩ := find_ep_valid _ h.1
  rw [decode_state_eq _ _ _ _ he1 h.2.2.1 h.2.2.2, hf2, he2, row_map_getD _ h.1.1]

theorem encode_state_lt (s : State) (h : s.Valid) : encode_state s perms_table < 368640 := by
  rw [encode_state_eq s h]
  have := (find_ep_valid _ h.1).1
  have := (decode_encode_eo _ h.2.1).1
  have := h.2.2.1
  have := h.2.2.2
  omega

/-- The code is injective on valid configurations. -/
theorem encode_state_inj (s t : State) (hs : s.Valid) (ht : t.Valid)
    (h : encode_state s perms_table = encode_state t perms_table) : s = t := by
  rw [← decode_encode_table s hs, ← decode_encode_table t ht, h]

/-- Every code below `720 * 32 * 4 * 4` decodes to a valid configuration that
encodes back to it. -/
theorem encode_decode_table (c : Nat) (hc : c < 368640) :
    (decode_state c perms_table).Valid ∧
      encode_state (decode_state c perms_table) perms_table = c := by
  have hc2 : c = (((c / 512) * 32 + c / 16 % 32) * 4 + c / 4 % 4) * 4 + c % 4 := by omega
  have hi : c / 512 < 720 := by omega
  have he : c / 16 % 32 < 32 := Nat.mod_lt _ (by decide)
  have hM : c / 4 % 4 < 4 := Nat.mod_lt _ (by decide)
  have hU : c % 4 < 4 := Nat.mod_lt _ (by decide)
  have hrow := perms_table_getD_valid _ hi
  obtain ⟨hv, hee⟩ := encode_decode_eo _ he
  have hd : decode_state c perms_table =
      ⟨perms_table.getD (c / 512) [], decode_eo (c / 16 % 32), c / 4 % 4, c % 4⟩ := by
    conv => lhs; rw [hc2]
    rw [decode_state_eq _ _ _ _ he hM hU, row_map_getD _ hrow.1]
  have hvalid : (decode_state c perms_table).Valid := by
    rw [hd]; exact ⟨hrow, hv, hM, hU⟩
  refine ⟨hvalid, ?_⟩
  rw [encode_state_eq _ hvalid, hd]
  simp only
  rw [find_ep_row _ hi, hee]
  omega

/-! ## The move trace -/

theorem StateNode.induct (P : StateNode → Prop)
    (root : ∀ s g, P (StateNode.mk s g none))
    (child : ∀ s g p, P p → P (StateNode.mk s g (some p))) : ∀ n, P n := by
  intro n
  refine StateNode.rec (motive_1 := P) (motive_2 := fun o => ∀ p, o = some p → P p)
    ?_ ?_ ?_ n
  · intro s g parent ih
    cases parent with
    | none => exact root s g
    | some p => exact child s g p (ih p rfl)
  · intro p h; cases h
  · intro v hv p h
    cases h
    exact hv

theorem solution_moves_root (s : State) (g : Move) :
    solution_moves (StateNode.mk s g none) = [] := rfl

theorem solution_moves_child (s : State) (g : Move) (p : StateNode) :
    solution_moves (StateNode.mk s g (some p)) = reverse_move g :: solution_moves p := by
  simp [solution_moves, chain_moves]

theorem chain_moves_length (n : StateNode) : (chain_moves n).length = depth n := by
  induction n using StateNode.induct with
  | root s g => rfl
  | child s g p ih => simp [chain_moves, depth, ih]

theorem solution_moves_length (n : StateNode) : (solution_moves n).length = depth n := by
  simp [solution_moves, chain_moves_length]

theorem double_token_eq (m : Move) :
    String.mk [(move_names m).get 0, Char.ofNat 50, Char.ofNat 32] = layer_letter m ++ "2 " := by
  cases m <;> decide

/-- The loop of `print_moves_traceback` prints the spec's rendering of the
pending move followed by the moves still to walk through. -/
theorem print_moves_loop_eq (n : StateNode) :
    ∀ (cur : Move) (quiet : Bool) (out : List String),
      (let r := print_moves_loop n cur quiet out
       if !r.2.1 then r.2.2 ++ [move_names r.1] else r.2.2) =
        out ++ trace_tokens ((if quiet then [] else [cur]) ++ solution_moves n) := by
  induction n using StateNode.induct with
  | root s g =>
    intro cur quiet out
    cases quiet <;> simp [print_moves_loop, solution_moves_root, trace_tokens]
  | child s g p ih =>
    intro cur quiet out
    rw [solution_moves_child]
    cases quiet with
    | true =>
      have := ih (reverse_move g) false out
      simpa [print_moves_loop] using this
    | false =>
      by_cases h : reverse_move g = cur
      · have := ih (reverse_move g) true (out ++ [layer_letter cur ++ "2 "])
        simp only [print_moves_loop, Bool.false_eq_true, if_false, h, if_true,
          double_token_eq]
        simp only [h] at this
        simpa [trace_tokens] using this
      · have := ih (reverse_move g) false (out ++ [move_names cur ++ " "])
        simp only [print_moves_loop, Bool.false_eq_true, if_false, h]
        simpa [trace_tokens, h] using this

/-- The function `print_moves_traceback` prints the rendering of `solution_moves`. -/
theorem print_moves_traceback_eq (n : StateNode) :
    print_moves_traceback n = trace_tokens (solution_moves n) := by
  have := print_moves_loop_eq n Move.no_move true []
  simpa [print_moves_traceback] using this

theorem chain_ok_state (n : StateNode) (h : chain_ok n) :
    generator_moves (chain_moves n) ∧ apply_moves SOLVED (chain_moves n) = n.state := by
  induction n using StateNode.induct with
  | root s g =>
    simp only [chain_ok] at h
    subst h
    exact ⟨fun m hm => absurd hm (List.not_mem_nil m), rfl⟩
  | child s g p ih =>
    simp only [chain_ok] at h
    obtain ⟨hg, hs, hp⟩ := h
    obtain ⟨h1, h2⟩ := ih hp
    refine ⟨?_, ?_⟩
    · intro m hm
      simp only [chain_moves, List.mem_append, List.mem_singleton] at hm
      rcases hm with hm | rfl
      · exact h1 m hm
      · exact hg
    · simp only [chain_moves, apply_moves_append, h2]
      exact hs.symm

theorem chain_ok_reachable (n : StateNode) (h : chain_ok n) : Reachable n.state :=
  ⟨chain_moves n, (chain_ok_state n h).1, (chain_ok_state n h).2⟩

theorem reverse_move_generator (m : Move) (h : m ≠ Move.no_move) :
    reverse_move m ≠ Move.no_move := by
  cases m <;> simp_all [reverse_move]

theorem solution_moves_generator (n : StateNode) (h : chain_ok n) :
    generator_moves (solution_moves n) := by
  intro m hm
  simp only [solution_moves, List.mem_map, List.mem_reverse] at hm
  obtain ⟨g, hg, rfl⟩ := hm
  exact reverse_move_generator g ((chain_ok_state n h).1 g hg)

/-- The moves walked through by the traceback take the node's state to `SOLVED`. -/
theorem solution_moves_solve (n : StateNode) (h : chain_ok n) :
    apply_moves n.state (solution_moves n) = SOLVED := by
  induction n using StateNode.induct with
  | root s g =>
    simp only [chain_ok] at h
    subst h
    rfl
  | child s g p ih =>
    simp only [chain_ok] at h
    obtain ⟨hg, hs, hp⟩ := h
    rw [solution_moves_child]
    have hv : p.state.Valid := (chain_ok_reachable p hp).valid
    show apply_moves (make_move s (reverse_move g)) (solution_moves p) = SOLVED
    rw [hs, make_move_reverse _ _ hv hg]
    exact ih hp

theorem flip_twice_UU (eo : List Nat) (c d e f : Nat) :
    flip_at (flip_at (flip_at (flip_at (flip_at (flip_at (flip_at (flip_at eo f) d) e) c) c) f) d) e
      = eo := by
  apply list_ext_getD
  · simp [flip_at_length]
  · intro i hi
    simp only [flip_at_length] at hi
    simp only [flip_at_getD_bool, flip_at_length, hi]
    generalize decide (i = c) = b1
    generalize decide (i = d) = b2
    generalize decide (i = e) = b3
    generalize decide (i = f) = b4
    cases b1 <;> cases b2 <;> cases b3 <;> cases b4 <;> simp [xor_one_one]

theorem flip_twice_UpUp (eo : List Nat) (c d e f : Nat) :
    flip_at (flip_at (flip_at (flip_at (flip_at (flip_at (flip_at (flip_at eo e) c) f) d) c) f) d) e
      = eo := by
  apply list_ext_getD
  · simp [flip_at_length]
  · intro i hi
    simp only [flip_at_length] at hi
    simp only [flip_at_getD_bool, flip_at_length, hi]
    generalize decide (i = c) = b1
    generalize decide (i = d) = b2
    generalize decide (i = e) = b3
    generalize decide (i = f) = b4
    cases b1 <;> cases b2 <;> cases b3 <;> cases b4 <;> simp [xor_one_one]

/-- A move applied twice equals its reverse applied twice. -/
theorem make_move_twice (s : State) (m : Move) (hs : s.Valid) :
    make_move (make_move s m) m =
      make_move (make_move s (reverse_move m)) (reverse_move m) := by
  obtain ⟨ep, eo, M, U⟩ := s
  obtain ⟨a, b, c, d, e, f, rfl⟩ := list_length_six ep hs.1.1
  have hUU : make_move (make_move ⟨[a, b, c, d, e, f], eo, M, U⟩ Move.U) Move.U =
      make_move (make_move ⟨[a, b, c, d, e, f], eo, M, U⟩ Move.U_prime) Move.U_prime := by
    simp only [make_move_U, make_move_U_prime]
    by_cases h : M % 2 = 0
    · simp [h]; omega
    · simp only [h, ne_eq, not_false_eq_true, if_true, flip_twice_UU, flip_twice_UpUp]
      simp; omega
  have hMM : make_move (make_move ⟨[a, b, c, d, e, f], eo, M, U⟩ Move.M) Move.M =
      make_move (make_move ⟨[a, b, c, d, e, f], eo, M, U⟩ Move.M_prime) Move.M_prime := by
    simp only [make_move_M, make_move_M_prime]
    simp; omega
  cases m with
  | no_move => rfl
  | U => exact hUU
  | U_prime => exact hUU.symm
  | M => exact hMM
  | M_prime => exact hMM.symm

theorem token_moves_single (m : Move) (hm : m ≠ Move.no_move) :
    token_moves (move_names m) = [m] ∧ token_moves (move_names m ++ " ") = [m] := by
  cases m <;> first | exact absurd rfl hm | decide

theorem token_moves_double (m : Move) (hm : m ≠ Move.no_move) :
    token_moves (layer_letter m ++ "2 ") = [m, m] ∨
      token_moves (layer_letter m ++ "2 ") = [reverse_move m, reverse_move m] := by
  cases m <;> first | exact absurd rfl hm | decide

/-- Reading the printed tokens back (`X2` as `X` twice) and applying them
does what the rendered moves do. -/
theorem apply_tokens_moves (l : List Move) :
    ∀ s : State, s.Valid → generator_moves l →
      apply_moves s (tokens_moves (trace_tokens l)) = apply_moves s l := by
  induction l using trace_tokens.induct with
  | case1 => intro s _ _; rfl
  | case2 m =>
    intro s _ hl
    have hm : m ≠ Move.no_move := hl m (List.mem_cons_self _ _)
    simp [trace_tokens, tokens_moves, (token_moves_single m hm).1]
  | case3 m2 rest ih =>
    intro s hs hl
    have hm : m2 ≠ Move.no_move := hl m2 (List.mem_cons_self _ _)
    have hrest : generator_moves rest := fun x hx =>
      hl x (List.mem_cons_of_mem _ (List.mem_cons_of_mem _ hx))
    have hv2 : (make_move (make_move s m2) m2).Valid :=
      make_move_valid _ _ (make_move_valid _ _ hs hm) hm
    have key : apply_moves s (token_moves (layer_letter m2 ++ "2 ")) =
        make_move (make_move s m2) m2 := by
      rcases token_moves_double m2 hm with h2 | h2
      · rw [h2]; rfl
      · rw [h2]; exact (make_move_twice s m2 hs).symm
    simp only [trace_tokens, if_true, tokens_moves, List.flatMap_cons, apply_moves_append]
    rw [key]
    exact ih _ hv2 hrest
  | case4 m m2 rest h ih =>
    intro s hs hl
    have hm : m ≠ Move.no_move := hl m (List.mem_cons_self _ _)
    have hrest : generator_moves (m2 :: rest) := fun x hx =>
      hl x (List.mem_cons_of_mem _ hx)
    simp only [trace_tokens, h, if_false, tokens_moves, List.flatMap_cons,
      apply_moves_append, (token_moves_single m hm).2]
    exact ih _ (make_move_valid _ _ hs hm) hrest

/-- The tokens stand for as many moves as were rendered. -/
theorem logical_length_trace (l : List Move) :
    generator_moves l → logical_length (trace_tokens l) = l.length := by
  induction l using trace_tokens.induct with
  | case1 => intro _; rfl
  | case2 m =>
    intro hl
    have hm : m ≠ Move.no_move := hl m (List.mem_cons_self _ _)
    simp [trace_tokens, logical_length, tokens_moves, (token_moves_single m hm).1]
  | case3 m2 rest ih =>
    intro hl
    have hm : m2 ≠ Move.no_move := hl m2 (List.mem_cons_self _ _)
    have hrest : generator_moves rest := fun x hx =>
      hl x (List.mem_cons_of_mem _ (List.mem_cons_of_mem _ hx))
    have := ih hrest
    simp only [logical_length, tokens_moves] at this
    rcases token_moves_double m2 hm with h2 | h2 <;>
      simp [trace_tokens, logical_length, tokens_moves, h2, this]
  | case4 m m2 rest h ih =>
    intro hl
    have hm : m ≠ Move.no_move := hl m (List.mem_cons_self _ _)
    have hrest : generator_moves (m2 :: rest) := fun x hx =>
      hl x (List.mem_cons_of_mem _ hx)
    have := ih hrest
    simp only [logical_length, tokens_moves] at this
    simp [trace_tokens, h, logical_length, tokens_moves, (token_moves_single m hm).2, this]

theorem example_node_ok : chain_ok example_node := by
  simp [example_node, root_node, chain_ok, StateNode.state]

theorem example_node_double_ok : chain_ok example_node_double := by
  simp [example_node_double, root_node, chain_ok, StateNode.state]

/-! ## Reachable configurations and the cache bound -/

theorem mem_generators (m : Move) : m ∈ generators ↔ m ≠ Move.no_move := by
  cases m <;> simp [generators]

theorem make_move_position (ep eo : List Nat) (M U : Nat) (m : Move) (h : ep.length = 6) :
    (make_move ⟨ep, eo, M, U⟩ m).edges_position = moved_position ep m := by
  obtain ⟨a, b, c, d, e, f, rfl⟩ := list_length_six ep h
  cases m with
  | no_move => rfl
  | U => simp only [moved_position, make_move_U]
  | U_prime => simp only [moved_position, make_move_U_prime]
  | M => simp only [moved_position, make_move_M]
  | M_prime => simp only [moved_position, make_move_M_prime]

theorem make_move_offsets (ep eo : List Nat) (M U : Nat) (m : Move) (h : ep.length = 6)
    (hm : m ≠ Move.no_move) :
    ((make_move ⟨ep, eo, M, U⟩ m).M_position + (make_move ⟨ep, eo, M, U⟩ m).U_position) % 2
      = (M + U + 1) % 2 := by
  obtain ⟨a, b, c, d, e, f, rfl⟩ := list_length_six ep h
  cases m with
  | no_move => exact absurd rfl hm
  | U => simp only [make_move_U]; omega
  | U_prime => simp only [make_move_U_prime]; omega
  | M => simp only [make_move_M]; omega
  | M_prime => simp only [make_move_M_prime]; omega

theorem filter_lt_swap (l1 l2 : List Nat) (x y p : Nat) :
    ((l1 ++ x :: y :: l2).filter fun z => z < p).length =
      ((l1 ++ y :: x :: l2).filter fun z => z < p).length := by
  simp only [List.filter_append, List.filter_cons, List.length_append]
  split <;> split <;> simp

/-- Exchanging two neighbouring, different entries changes the parity of the
number of inversions. -/
theorem inversions_swap (l1 : List Nat) (x y : Nat) (l2 : List Nat) (h : x ≠ y) :
    (inversions (l1 ++ x :: y :: l2) + inversions (l1 ++ y :: x :: l2)) % 2 = 1 := by
  induction l1 with
  | nil =>
    simp only [List.nil_append, inversions, List.filter_cons]
    by_cases h1 : y < x
    · have h2 : ¬ x < y := by omega
      simp only [h1, h2, decide_True, decide_False, if_true, List.length_cons]
      simp
      omega
    · have h2 : x < y := by omega
      simp only [h1, h2, decide_True, decide_False, if_true, List.length_cons]
      simp
      omega
  | cons p l1 ih =>
    have hf := filter_lt_swap l1 l2 x y p
    have e1 : inversions (p :: l1 ++ x :: y :: l2) =
        ((l1 ++ x :: y :: l2).filter fun z => z < p).length
          + inversions (l1 ++ x :: y :: l2) := rfl
    have e2 : inversions (p :: l1 ++ y :: x :: l2) =
        ((l1 ++ y :: x :: l2).filter fun z => z < p).length
          + inversions (l1 ++ y :: x :: l2) := rfl
    rw [e1, e2, hf]
    omega

/-- Every move is an odd permutation of the positions. -/
theorem moved_position_inversions (a b c d e f : Nat) (h : valid_position [a, b, c, d, e, f])
    (m : Move) (hm : m ≠ Move.no_move) :
    (inversions (moved_position [a, b, c, d, e, f] m) + inversions [a, b, c, d, e, f]) % 2
      = 1 := by
  rw [valid_position_six] at h
  obtain ⟨⟨h1, h2, h3, h4, h5, h6, h7, h8, h9, h10, h11, h12, h13, h14, h15⟩, _⟩ := h
  cases m with
  | no_move => exact absurd rfl hm
  | U =>
    have e0 : moved_position [a, b, c, d, e, f] Move.U = [a, b, e, f, d, c] := by
      simp only [moved_position, make_move_U]
    rw [e0]
    have s1 := inversions_swap [a, b] c d [e, f] h10
    have s2 := inversions_swap [a, b, d] c e [f] h11
    have s3 := inversions_swap [a, b] d e [c, f] h13
    have s4 := inversions_swap [a, b, e, d] c f [] h12
    have s5 := inversions_swap [a, b, e] d f [c] h14
    simp only [List.cons_append, List.nil_append] at s1 s2 s3 s4 s5
    omega
  | U_prime =>
    have e0 : moved_position [a, b, c, d, e, f] Move.U_prime = [a, b, f, e, c, d] := by
      simp only [moved_position, make_move_U_prime]
    rw [e0]
    have s1 := inversions_swap [a, b, c, d] e f [] h15
    have s2 := inversions_swap [a, b, c] d f [e] h14
    have s3 := inversions_swap [a, b] c f [d, e] h12
    have s4 := inversions_swap [a, b, f, c] d e [] h13
    have s5 := inversions_swap [a, b, f] c e [d] h11
    simp only [List.cons_append, List.nil_append] at s1 s2 s3 s4 s5
    omega
  | M =>
    have e0 : moved_position [a, b, c, d, e, f] Move.M = [d, a, b, c, e, f] := by
      simp only [moved_position, make_move_M]
    rw [e0]
    have s1 := inversions_swap [a, b] c d [e, f] h10
    have s2 := inversions_swap [a] b d [c, e, f] h7
    have s3 := inversions_swap [] a d [b, c, e, f] h3
    simp only [List.cons_append, List.nil_append] at s1 s2 s3
    omega
  | M_prime =>
    have e0 : moved_position [a, b, c, d, e, f] Move.M_prime = [b, c, d, a, e, f] := by
      simp only [moved_position, make_move_M_prime]
    rw [e0]
    have s1 := inversions_swap [] a b [c, d, e, f] h1
    have s2 := inversions_swap [b] a c [d, e, f] h2
    have s3 := inversions_swap [b, c] a d [e, f] h3
    simp only [List.cons_append, List.nil_append] at s1 s2 s3
    omega

theorem make_move_parity (s : State) (m : Move) (hs : s.Valid) (hm : m ≠ Move.no_move)
    (hp : parity_ok s) : parity_ok (make_move s m) := by
  obtain ⟨ep, eo, M, U⟩ := s
  obtain ⟨a, b, c, d, e, f, rfl⟩ := list_length_six ep hs.1.1
  have h1 := moved_position_inversions a b c d e f hs.1 m hm
  have h2 := make_move_offsets [a, b, c, d, e, f] eo M U m rfl hm
  unfold parity_ok at hp ⊢
  rw [make_move_position [a, b, c, d, e, f] eo M U m rfl]
  simp only at hp
  omega

theorem apply_moves_parity (s : State) (ms : List Move) (hs : s.Valid)
    (hms : generator_moves ms) (hp : parity_ok s) : parity_ok (apply_moves s ms) := by
  induction ms generalizing s with
  | nil => exact hp
  | cons m ms ih =>
    have hm : m ≠ Move.no_move := hms m (List.mem_cons_self _ _)
    exact ih (make_move s m) (make_move_valid s m hs hm)
      (fun x hx => hms x (List.mem_cons_of_mem _ hx)) (make_move_parity s m hs hm hp)

theorem Reachable.parity {s : State} (h : Reachable s) : parity_ok s := by
  obtain ⟨ms, hms, rfl⟩ := h
  exact apply_moves_parity SOLVED ms SOLVED_valid hms (by decide)

theorem Reachable.after_move {s : State} (h : Reachable s) (m : Move) (hm : m ≠ Move.no_move) :
    Reachable (make_move s m) := by
  obtain ⟨ms, hms, rfl⟩ := h
  refine ⟨ms ++ [m], ?_, ?_⟩
  · intro x hx
    rcases List.mem_append.mp hx with hx | hx
    · exact hms x hx
    · rw [List.mem_singleton] at hx; rw [hx]; exact hm
  · rw [apply_moves_append]; rfl

theorem Reachable.of_solved : Reachable SOLVED :=
  ⟨[], fun m hm => absurd hm (List.not_mem_nil m), rfl⟩

/-- The configuration with the last code of the dense range breaks the parity
invariant. -/
theorem last_code_parity : ¬ parity_ok (decode_state 368639 perms_table) := by
  decide!

/-- The code of a reachable configuration is below `MAX_CACHE_SIZE`. -/
theorem Reachable.code_lt {s : State} (h : Reachable s) :
    encode_state s perms_table < MAX_CACHE_SIZE := by
  have h1 := encode_state_lt s h.valid
  have h2 : encode_state s perms_table ≠ 368639 := by
    intro h3
    have h4 := decode_encode_table s h.valid
    rw [h3] at h4
    exact last_code_parity (h4 ▸ h.parity)
  unfold MAX_CACHE_SIZE
  omega

theorem compare_states_self (A : State) : compare_states A A = true := by
  simp [compare_states]

theorem compare_states_eq (A B : State) (hA : A.Valid) (hB : B.Valid)
    (h : compare_states A B = true) : A = B := by
  obtain ⟨ep, eo, M, U⟩ := A
  obtain ⟨ep2, eo2, M2, U2⟩ := B
  obtain ⟨a, b, c, d, e, f, rfl⟩ := list_length_six ep hA.1.1
  obtain ⟨a2, b2, c2, d2, e2, f2, rfl⟩ := list_length_six ep2 hB.1.1
  obtain ⟨o0, o1, o2, o3, o4, o5, rfl⟩ := list_length_six eo hA.2.1.1
  obtain ⟨p0, p1, p2, p3, p4, p5, rfl⟩ := list_length_six eo2 hB.2.1.1
  simp [compare_states] at h
  simp
  tauto

theorem is_nostate_valid (s : State) (h : s.Valid) : is_nostate s = false := by
  obtain ⟨ep, eo, M, U⟩ := s
  obtain ⟨a, b, c, d, e, f, rfl⟩ := list_length_six ep h.1.1
  have := (valid_position_six a b c d e f).mp h.1
  simp [is_nostate]
  exact this.1.1

theorem is_nostate_NOSTATE : is_nostate NOSTATE = true := rfl

/-! ## One expansion of the search -/

theorem mark_all_perms (c : StateCache) (l : List State) : (mark_all c l).perms = c.perms := by
  induction l generalizing c with
  | nil => rfl
  | cons s l ih => simp only [mark_all, List.foldl_cons] at ih ⊢; rw [ih]; rfl

theorem mark_all_cons (c : StateCache) (s : State) (l : List State) :
    mark_all c (s :: l) = mark_all (c.mark (encode_state s perms_table)) l := rfl

theorem mark_array (c : StateCache) (i j : Nat) :
    (c.mark i).array j = true ↔ c.array j = true ∨ j = i := by
  simp only [StateCache.mark]
  by_cases h : j = i <;> simp [h]

theorem mark_all_array (c : StateCache) (l : List State) (i : Nat) :
    (mark_all c l).array i = true ↔
      c.array i = true ∨ ∃ s ∈ l, encode_state s perms_table = i := by
  induction l generalizing c with
  | nil => simp [mark_all]
  | cons s l ih =>
    rw [mark_all_cons, ih, mark_array]
    constructor
    · rintro ((h | h) | ⟨x, hx, h⟩)
      · exact Or.inl h
      · exact Or.inr ⟨s, List.mem_cons_self _ _, h.symm⟩
      · exact Or.inr ⟨x, List.mem_cons_of_mem _ hx, h⟩
    · rintro (h | ⟨x, hx, h⟩)
      · exact Or.inl (Or.inl h)
      · rcases List.mem_cons.mp hx with rfl | hx
        · exact Or.inl (Or.inr h.symm)
        · exact Or.inr ⟨x, hx, h⟩

theorem mark_all_mono (c : StateCache) (l : List State) (i : Nat) (h : c.array i = true) :
    (mark_all c l).array i = true :=
  (mark_all_array c l i).mpr (Or.inl h)

theorem unmarked_mark (c : StateCache) (i : Nat) (hi : i < 368640) (h : c.array i = false) :
    unmarked (c.mark i) + 1 = unmarked c := by
  unfold unmarked
  have hmem : i ∈ (Finset.range 368640).filter fun j => c.array j = false :=
    Finset.mem_filter.mpr ⟨Finset.mem_range.mpr hi, h⟩
  have heq : ((Finset.range 368640).filter fun j => (c.mark i).array j = false) =
      ((Finset.range 368640).filter fun j => c.array j = false).erase i := by
    ext j
    simp only [Finset.mem_filter, Finset.mem_range, Finset.mem_erase, StateCache.mark]
    by_cases hj : j = i
    · simp [hj]
    · simp [hj]
  rw [heq, Finset.card_erase_of_mem hmem]
  have : 0 < (Finset.filter (fun j => c.array j = false) (Finset.range 368640)).card :=
    Finset.card_pos.mpr ⟨i, hmem⟩
  omega

theorem unmarked_mark_all (c : StateCache) (l : List State)
    (hlt : ∀ s ∈ l, encode_state s perms_table < 368640)
    (hun : ∀ s ∈ l, c.array (encode_state s perms_table) = false)
    (hnd : (l.map fun s => encode_state s perms_table).Nodup) :
    unmarked (mark_all c l) + l.length = unmarked c := by
  induction l generalizing c with
  | nil => exact Nat.add_zero _
  | cons s l ih =>
    rw [mark_all_cons]
    rw [List.map_cons, List.nodup_cons] at hnd
    have h1 := unmarked_mark c _ (hlt s (List.mem_cons_self _ _)) (hun s (List.mem_cons_self _ _))
    have h2 := ih (c.mark (encode_state s perms_table))
      (fun x hx => hlt x (List.mem_cons_of_mem _ hx))
      (fun x hx => by
        have hx1 := hun x (List.mem_cons_of_mem _ hx)
        have hne : encode_state x perms_table ≠ encode_state s perms_table := by
          intro he
          exact hnd.1 (he ▸ List.mem_map_of_mem _ hx)
        simp [StateCache.mark, hne, hx1])
      hnd.2
    simp only [List.length_cons]
    omega

theorem get_new_neighbors_loop_eq (c : StateCache) (n : StateNode)
    (hp : c.perms = perms_table) (ms : List Move)
    (h : ∀ m ∈ ms, m ≠ reverse_move n.generator_move →
      encode_state (make_move n.state m) perms_table < MAX_CACHE_SIZE) :
    get_new_neighbors_loop c n (reverse_move n.generator_move) ms =
      some (ms.map (neighbor_entry c n)) := by
  induction ms with
  | nil => rfl
  | cons m ms ih =>
    have ih2 := ih (fun x hx => h x (List.mem_cons_of_mem _ hx))
    unfold get_new_neighbors_loop
    by_cases hm : m = reverse_move n.generator_move
    · simp [hm, ih2, neighbor_entry]
    · have hlt := h m (List.mem_cons_self _ _) hm
      simp [hm, ih2, neighbor_entry, is_in_cache, hp, hlt]

theorem append_new_states_eq (n : StateNode) (f : Move → State) (ms : List Move) :
    ∀ (q : List StateNode) (c : StateCache), c.perms = perms_table →
      (∀ m ∈ ms, is_nostate (f m) = false → encode_state (f m) perms_table < MAX_CACHE_SIZE) →
      append_new_states n (ms.map fun m => (m, f m)) q c =
        some (0,
          q ++ (ms.filter fun m => !is_nostate (f m)).map (fun m => StateNode.mk (f m) m (some n)),
          mark_all c ((ms.filter fun m => !is_nostate (f m)).map f)) := by
  induction ms with
  | nil => intro q c _ _; simp [append_new_states, mark_all]
  | cons m ms ih =>
    intro q c hp h
    obtain ⟨arr, len, pp⟩ := c
    have hpp : pp = perms_table := hp
    subst hpp
    have h2 : ∀ x ∈ ms, is_nostate (f x) = false →
        encode_state (f x) perms_table < MAX_CACHE_SIZE :=
      fun x hx => h x (List.mem_cons_of_mem _ hx)
    rw [List.map_cons]
    unfold append_new_states
    cases hn : is_nostate (f m) with
    | true =>
      simp only [Bool.not_true, Bool.false_eq_true, if_false]
      rw [ih q ⟨arr, len, perms_table⟩ rfl h2]
      simp [List.filter_cons, hn]
    | false =>
      have hlt := h m (List.mem_cons_self _ _) hn
      simp only [Bool.not_false, if_true, queue_append, cache_append, hlt]
      have := ih (q ++ [StateNode.mk (f m) m (some n)])
        (StateCache.mark ⟨arr, len, perms_table⟩ (encode_state (f m) perms_table)) rfl h2
      simp only [StateCache.mark] at this
      simp only [ne_eq, not_true_eq_false, if_false]
      rw [this]
      simp [List.filter_cons, hn, mark_all_cons, StateCache.mark]

theorem neighbor_entry_filter (c : StateCache) (n : StateNode) (hv : n.state.Valid) :
    ∀ m ∈ generators, (!is_nostate (neighbor_entry c n m)) =
      (decide (m ≠ reverse_move n.generator_move) &&
        !c.array (encode_state (make_move n.state m) perms_table)) := by
  intro m hm
  have hmv := make_move_valid n.state m hv ((mem_generators m).mp hm)
  unfold neighbor_entry
  by_cases h1 : m = reverse_move n.generator_move
  · simp [h1, is_nostate_NOSTATE]
  · cases h2 : c.array (encode_state (make_move n.state m) perms_table) with
    | true => simp [h1, is_nostate_NOSTATE]
    | false => simp [h1, is_nostate_valid _ hmv]

theorem mem_new_moves (c : StateCache) (n : StateNode) (m : Move) :
    m ∈ new_moves c n ↔ m ≠ Move.no_move ∧ m ≠ reverse_move n.generator_move ∧
      c.array (encode_state (make_move n.state m) perms_table) = false := by
  simp [new_moves, List.mem_filter, mem_generators]

theorem neighbor_entry_new (c : StateCache) (n : StateNode) (m : Move)
    (h : m ∈ new_moves c n) : neighbor_entry c n m = make_move n.state m := by
  obtain ⟨_, h1, h2⟩ := (mem_new_moves c n m).mp h
  simp [neighbor_entry, h1, h2]

/-- What one iteration of the loop of `main` does to the queue and the cache
when the dequeued node holds a reachable configuration. -/
theorem expand_eq (c : StateCache) (n : StateNode) (q : List StateNode)
    (hp : c.perms = perms_table) (hr : Reachable n.state) :
    get_new_neighbors c n = some (generators.map (neighbor_entry c n)) ∧
      append_new_states n
          ([Move.U_prime, Move.M, Move.U, Move.M_prime].zip
            (generators.map (neighbor_entry c n))) q c =
        some (0, q ++ new_nodes c n,
          mark_all c ((new_moves c n).map (make_move n.state))) := by
  have hlt : ∀ m ∈ generators, encode_state (make_move n.state m) perms_table < MAX_CACHE_SIZE :=
    fun m hm => (hr.after_move m ((mem_generators m).mp hm)).code_lt
  constructor
  · exact get_new_neighbors_loop_eq c n hp generators (fun m hm _ => hlt m hm)
  · have hz : [Move.U_prime, Move.M, Move.U, Move.M_prime].zip
        (generators.map (neighbor_entry c n)) =
        generators.map fun m => (m, neighbor_entry c n m) := rfl
    rw [hz, append_new_states_eq n (neighbor_entry c n) generators q c hp]
    · have hf : (generators.filter fun m => !is_nostate (neighbor_entry c n m)) =
          new_moves c n :=
        List.filter_congr (neighbor_entry_filter c n hr.valid)
      rw [hf]
      have h1 : (new_moves c n).map (fun m => StateNode.mk (neighbor_entry c n m) m (some n)) =
          new_nodes c n :=
        List.map_congr_left fun m hm => by rw [neighbor_entry_new c n m hm]
      have h2 : (new_moves c n).map (neighbor_entry c n) =
          (new_moves c n).map (make_move n.state) :=
        List.map_congr_left fun m hm => neighbor_entry_new c n m hm
      rw [h1, h2]
    · intro m hm hns
      have : neighbor_entry c n m = make_move n.state m := by
        unfold neighbor_entry at hns ⊢
        by_cases h1 : m = reverse_move n.generator_move
        · simp [h1, is_nostate_NOSTATE] at hns
        · cases h2 : c.array (encode_state (make_move n.state m) perms_table) with
          | true => simp [h1, h2, is_nostate_NOSTATE] at hns
          | false => simp [h1]
      rw [this]
      exact hlt m hm

/-! ## The loop invariant -/

theorem chain_ok_child (n p : StateNode) (h : chain_ok n) (hp : n.parent = some p) :
    n.generator_move ≠ Move.no_move ∧ n.state = make_move p.state n.generator_move ∧
      chain_ok p := by
  obtain ⟨s, g, par⟩ := n
  cases par with
  | none => cases hp
  | some p2 =>
    simp only [StateNode.parent, Option.some.injEq] at hp
    subst hp
    exact h

theorem root_move_none (n : StateNode) (h : root_move_ok n) (hp : n.parent = none) :
    n.generator_move = Move.no_move := by
  obtain ⟨s, g, par⟩ := n
  cases par with
  | none => exact h
  | some p2 => cases hp

/-- Two different generator moves lead to two different configurations. -/
theorem make_move_inj (s : State) (m m2 : Move) (hs : s.Valid)
    (hm : m ≠ Move.no_move) (hm2 : m2 ≠ Move.no_move)
    (h : make_move s m = make_move s m2) : m = m2 := by
  obtain ⟨ep, eo, M, U⟩ := s
  obtain ⟨a, b, c, d, e, f, rfl⟩ := list_length_six ep hs.1.1
  have hM : M < 4 := hs.2.2.1
  have hU : U < 4 := hs.2.2.2
  have h1 := congrArg State.M_position h
  have h2 := congrArg State.U_position h
  cases m <;> cases m2 <;>
    first
    | rfl
    | exact absurd rfl hm
    | exact absurd rfl hm2
    | (simp only [make_move_U, make_move_U_prime, make_move_M, make_move_M_prime] at h1 h2
       omega)

/-- Every configuration reachable in at most `depth n` moves is marked when `n`
is at the head of the queue. -/
theorem SearchInv.short_paths_marked {t : State} {n : StateNode} {q : List StateNode}
    {c : StateCache} (inv : SearchInv t (n :: q) c) :
    ∀ ms, generator_moves ms → ms.length ≤ depth n →
      c.array (encode_state (apply_moves SOLVED ms) perms_table) = true := by
  intro ms
  induction ms using List.reverseRecOn with
  | nil => intro _ _; exact inv.solved
  | append_singleton ms m ih =>
    intro hg hl
    rw [List.length_append, List.length_singleton] at hl
    have hg1 : generator_moves ms := fun x hx => hg x (List.mem_append_left _ hx)
    have hm : m ≠ Move.no_move := hg m (List.mem_append_right _ (List.mem_singleton_self m))
    have h1 := ih hg1 (by omega)
    have hr : Reachable (apply_moves SOLVED ms) := ⟨ms, hg1, rfl⟩
    rcases inv.closed _ hr h1 with ⟨n2, hn2, hs2⟩ | ⟨_, hall⟩
    · exfalso
      have hd := inv.minimal n2 hn2 ms hg1 hs2.symm
      have hle : depth n ≤ depth n2 := by
        rcases List.mem_cons.mp hn2 with rfl | hq
        · exact Nat.le_refl _
        · exact (List.pairwise_cons.mp inv.sorted).1 n2 hq
      omega
    · rw [apply_moves_append]
      exact hall m ((mem_generators m).mpr hm)

theorem depth_new_nodes (c : StateCache) (n x : StateNode) (h : x ∈ new_nodes c n) :
    depth x = depth n + 1 ∧ ∃ m ∈ new_moves c n,
      x = StateNode.mk (make_move n.state m) m (some n) := by
  simp only [new_nodes, List.mem_map] at h
  obtain ⟨m, hm, rfl⟩ := h
  exact ⟨rfl, m, hm, rfl⟩

/-- The invariant is kept by an iteration that does not find the target. -/
theorem SearchInv.expand {t : State} {n : StateNode} {q : List StateNode} {c : StateCache}
    (inv : SearchInv t (n :: q) c) (hne : compare_states t n.state = false) :
    SearchInv t (q ++ new_nodes c n)
      (mark_all c ((new_moves c n).map (make_move n.state))) := by
  have hn : n ∈ n :: q := List.mem_cons_self _ _
  have hchain := inv.chain n hn
  have hreach : Reachable n.state := chain_ok_reachable n hchain.1
  have hlow : ∀ x ∈ q, depth n ≤ depth x := (List.pairwise_cons.mp inv.sorted).1
  have hup : ∀ x ∈ q, depth x ≤ depth n + 1 := fun x hx =>
    inv.near n hn x (List.mem_cons_of_mem _ hx)
  have hnew_marked : ∀ m ∈ new_moves c n,
      (mark_all c ((new_moves c n).map (make_move n.state))).array
        (encode_state (make_move n.state m) perms_table) = true := fun m hm =>
    (mark_all_array _ _ _).mpr (Or.inr ⟨_, List.mem_map_of_mem _ hm, rfl⟩)
  refine ⟨?_, ?_, ?_, ?_, ?_, ?_, ?_, ?_, ?_⟩
  · rw [mark_all_perms]; exact inv.perms
  · intro x hx
    rcases List.mem_append.mp hx with hx | hx
    · exact inv.chain x (List.mem_cons_of_mem _ hx)
    · obtain ⟨_, m, hm, rfl⟩ := depth_new_nodes c n x hx
      exact ⟨⟨((mem_new_moves c n m).mp hm).1, rfl, hchain.1⟩, hchain.2⟩
  · intro x hx
    rcases List.mem_append.mp hx with hx | hx
    · exact mark_all_mono _ _ _ (inv.marked x (List.mem_cons_of_mem _ hx))
    · obtain ⟨_, m, hm, rfl⟩ := depth_new_nodes c n x hx
      exact hnew_marked m hm
  · intro x hx p hp
    rcases List.mem_append.mp hx with hx | hx
    · exact mark_all_mono _ _ _ (inv.parent x (List.mem_cons_of_mem _ hx) p hp)
    · obtain ⟨_, m, hm, rfl⟩ := depth_new_nodes c n x hx
      simp only [StateNode.parent, Option.some.injEq] at hp
      subst hp
      exact mark_all_mono _ _ _ (inv.marked _ hn)
  · intro x hx ms hg hs
    rcases List.mem_append.mp hx with hx | hx
    · exact inv.minimal x (List.mem_cons_of_mem _ hx) ms hg hs
    · obtain ⟨hd, m, hm, rfl⟩ := depth_new_nodes c n x hx
      rw [hd]
      by_contra hlt
      have h1 := inv.short_paths_marked ms hg (by omega)
      rw [hs] at h1
      have h2 := ((mem_new_moves c n m).mp hm).2.2
      have h3 : c.array (encode_state (make_move n.state m) perms_table) = true := h1
      rw [h2] at h3
      cases h3
  · rw [List.pairwise_append]
    refine ⟨(List.pairwise_cons.mp inv.sorted).2, ?_, ?_⟩
    · apply List.pairwise_of_forall_mem_list
      intro a ha b hb
      rw [(depth_new_nodes c n a ha).1, (depth_new_nodes c n b hb).1]
    · intro a ha b hb
      rw [(depth_new_nodes c n b hb).1]
      exact hup a ha
  · have hrange : ∀ x ∈ q ++ new_nodes c n, depth n ≤ depth x ∧ depth x ≤ depth n + 1 := by
      intro x hx
      rcases List.mem_append.mp hx with hx | hx
      · exact ⟨hlow x hx, hup x hx⟩
      · rw [(depth_new_nodes c n x hx).1]; omega
    intro a ha b hb
    have := hrange a ha
    have := hrange b hb
    omega
  · intro s hs hmark
    rcases (mark_all_array _ _ _).mp hmark with hold | ⟨x, hx, hcode⟩
    · rcases inv.closed s hs hold with ⟨n2, hn2, hs2⟩ | ⟨hst, hall⟩
      · rcases List.mem_cons.mp hn2 with rfl | hq
        · right
          refine ⟨?_, ?_⟩
          · intro hst
            rw [hs2, hst, compare_states_self] at hne
            cases hne
          · intro m hm
            rw [← hs2]
            by_cases hrev : m = reverse_move n2.generator_move
            · cases hpar : n2.parent with
              | none =>
                have := root_move_none n2 hchain.2 hpar
                rw [this] at hrev
                rw [hrev] at hm
                exact absurd rfl ((mem_generators _).mp hm)
              | some p =>
                obtain ⟨hg, hst2, hcp⟩ := chain_ok_child n2 p hchain.1 hpar
                have hpv : p.state.Valid := (chain_ok_reachable p hcp).valid
                rw [hrev, hst2, make_move_reverse _ _ hpv hg]
                exact mark_all_mono _ _ _ (inv.parent n2 hn p hpar)
            · cases hc : c.array (encode_state (make_move n2.state m) perms_table) with
              | true => exact mark_all_mono _ _ _ hc
              | false =>
                exact hnew_marked m
                  ((mem_new_moves c n2 m).mpr ⟨(mem_generators m).mp hm, hrev, hc⟩)
        · exact Or.inl ⟨n2, List.mem_append_left _ hq, hs2⟩
      · exact Or.inr ⟨hst, fun m hm => mark_all_mono _ _ _ (hall m hm)⟩
    · left
      simp only [List.mem_map] at hx
      obtain ⟨m, hm, rfl⟩ := hx
      have hmg := ((mem_new_moves c n m).mp hm).1
      have heq := encode_state_inj _ _ (hreach.after_move m hmg).valid hs.valid hcode
      exact ⟨StateNode.mk (make_move n.state m) m (some n),
        List.mem_append_right _ (List.mem_map_of_mem _ hm), heq⟩
  · exact mark_all_mono _ _ _ inv.solved

/-- Each iteration that does not end the loop lowers the number of unmarked
codes plus the length of the queue. -/
theorem SearchInv.step_measure {t : State} {n : StateNode} {q : List StateNode}
    {c : StateCache} (inv : SearchInv t (n :: q) c) :
    unmarked (mark_all c ((new_moves c n).map (make_move n.state)))
        + (q ++ new_nodes c n).length + 1 =
      unmarked c + (n :: q).length := by
  have hreach : Reachable n.state :=
    chain_ok_reachable n (inv.chain n (List.mem_cons_self _ _)).1
  have h := unmarked_mark_all c ((new_moves c n).map (make_move n.state))
    (by
      intro s hs
      simp only [List.mem_map] at hs
      obtain ⟨m, hm, rfl⟩ := hs
      exact encode_state_lt _ (hreach.after_move m ((mem_new_moves c n m).mp hm).1).valid)
    (by
      intro s hs
      simp only [List.mem_map] at hs
      obtain ⟨m, hm, rfl⟩ := hs
      exact ((mem_new_moves c n m).mp hm).2.2)
    (by
      rw [List.map_map]
      apply List.Nodup.map_on
      · intro m hm m2 hm2 he
        have hg := ((mem_new_moves c n m).mp hm).1
        have hg2 := ((mem_new_moves c n m2).mp hm2).1
        exact make_move_inj n.state m m2 hreach.valid hg hg2
          (encode_state_inj _ _ (hreach.after_move m hg).valid (hreach.after_move m2 hg2).valid he)
      · exact List.Nodup.filter _ (by decide))
  simp only [List.length_append, List.length_cons, new_nodes, List.length_map] at h ⊢
  omega

/-! ## The search of `main` -/

/-- With an empty queue every reachable configuration has been expanded, so a
reachable target cannot have been missed. -/
theorem SearchInv.nil_absurd {t : State} {c : StateCache} (inv : SearchInv t [] c)
    (ht : Reachable t) : False := by
  have hall : ∀ ms, generator_moves ms →
      c.array (encode_state (apply_moves SOLVED ms) perms_table) = true := by
    intro ms
    induction ms using List.reverseRecOn with
    | nil => intro _; exact inv.solved
    | append_singleton ms m ih =>
      intro hg
      have hg1 : generator_moves ms := fun x hx => hg x (List.mem_append_left _ hx)
      have hm : m ≠ Move.no_move :=
        hg m (List.mem_append_right _ (List.mem_singleton_self m))
      rcases inv.closed _ ⟨ms, hg1, rfl⟩ (ih hg1) with ⟨n2, hn2, _⟩ | ⟨_, hall⟩
      · cases hn2
      · rw [apply_moves_append]
        exact hall m ((mem_generators m).mpr hm)
  obtain ⟨ms, hg, hs⟩ := ht
  have hm := hall ms hg
  rw [hs] at hm
  rcases inv.closed t ⟨ms, hg, hs⟩ hm with ⟨n2, hn2, _⟩ | ⟨hne, _⟩
  · cases hn2
  · exact hne rfl

/-- From a state satisfying the invariant the loop ends, within the fuel given
by the measure, at a node holding the target at minimal depth. -/
theorem main_loop_finds (t : State) (ht : Reachable t) :
    ∀ (fuel : Nat) (q : List StateNode) (c : StateCache), SearchInv t q c →
      unmarked c + q.length < fuel →
      ∃ node f, main_loop t fuel q c = some f ∧ f.outcome = Outcome.solution_found node ∧
        node.state = t ∧ chain_ok node ∧
        ∀ ms, generator_moves ms → apply_moves SOLVED ms = t → depth node ≤ ms.length := by
  intro fuel
  induction fuel with
  | zero => intro q c _ h; omega
  | succ fuel ih =>
    intro q c inv hfuel
    cases q with
    | nil => exact absurd ht (fun h => inv.nil_absurd h)
    | cons n q =>
      have hn : n ∈ n :: q := List.mem_cons_self _ _
      have hchain := inv.chain n hn
      have hreach : Reachable n.state := chain_ok_reachable n hchain.1
      cases hcmp : compare_states t n.state with
      | true =>
        have heq : t = n.state := compare_states_eq t n.state ht.valid hreach.valid hcmp
        refine ⟨n, ⟨Outcome.solution_found n, q, c⟩, ?_, rfl, heq.symm, hchain.1, ?_⟩
        · simp [main_loop, hcmp]
        · intro ms hg hs
          exact inv.minimal n hn ms hg (hs.trans heq)
      | false =>
        obtain ⟨h1, h2⟩ := expand_eq c n q inv.perms hreach
        have hm := inv.step_measure
        have hrec := ih _ _ (inv.expand hcmp) (by omega)
        obtain ⟨node, f, hf, hrest⟩ := hrec
        refine ⟨node, f, ?_, hrest⟩
        rw [← hf]
        simp only [main_loop, hcmp, Bool.false_eq_true, if_false, h1]
        rw [h2]
        simp

theorem encode_state_SOLVED : encode_state SOLVED perms_table = 0 := by decide!

theorem unmarked_new_cache : unmarked new_cache = 368640 := by
  unfold unmarked new_cache
  rw [Finset.filter_true_of_mem (fun _ _ => rfl), Finset.card_range]

/-- The queue and the cache after the root node is appended. -/
theorem main_init :
    queue_append [] SOLVED none Move.no_move new_cache =
      some (0, [StateNode.mk SOLVED Move.no_move none],
        StateCache.mark ⟨fun _ => false, 0, perms_table⟩ 0) := by
  simp only [queue_append, cache_append, new_cache, new_cache_perms_eq, encode_state_SOLVED,
    MAX_CACHE_SIZE, StateCache.mark]
  simp

theorem SearchInv.init (t : State) :
    SearchInv t [StateNode.mk SOLVED Move.no_move none]
      (StateCache.mark ⟨fun _ => false, 0, perms_table⟩ 0) := by
  have harr : ∀ i, (StateCache.mark ⟨fun _ => false, 0, perms_table⟩ 0).array i = true ↔
      i = 0 := by
    intro i
    simp [StateCache.mark]
  refine ⟨rfl, ?_, ?_, ?_, ?_, ?_, ?_, ?_, ?_⟩
  · intro n hn
    rw [List.mem_singleton] at hn
    subst hn
    exact ⟨rfl, rfl⟩
  · intro n hn
    rw [List.mem_singleton] at hn
    subst hn
    exact (harr _).mpr encode_state_SOLVED
  · intro n hn p hp
    rw [List.mem_singleton] at hn
    subst hn
    cases hp
  · intro n hn ms _ _
    rw [List.mem_singleton] at hn
    subst hn
    exact Nat.zero_le _
  · exact List.pairwise_singleton _ _
  · intro a ha b hb
    rw [List.mem_singleton] at ha hb
    subst ha hb
    exact Nat.le_succ _
  · intro s hs hm
    left
    refine ⟨_, List.mem_singleton_self _, ?_⟩
    have h0 := (harr _).mp hm
    exact (encode_state_inj s SOLVED hs.valid SOLVED_valid
      (h0.trans encode_state_SOLVED.symm)).symm
  · exact (harr _).mpr encode_state_SOLVED

theorem unmarked_init :
    unmarked (StateCache.mark ⟨fun _ => false, 0, perms_table⟩ 0) + 1 = 368640 := by
  have h1 : unmarked (StateCache.mark ⟨fun _ => false, 0, perms_table⟩ 0) + 1 =
      unmarked ⟨fun _ => false, 0, perms_table⟩ :=
    unmarked_mark ⟨fun _ => false, 0, perms_table⟩ 0 (by decide) rfl
  have h2 : unmarked ⟨fun _ => false, 0, perms_table⟩ = 368640 := by
    unfold unmarked
    rw [Finset.filter_true_of_mem (fun _ _ => rfl), Finset.card_range]
  rw [h2] at h1
  exact h1

/-- For a reachable target, `main` ends with success at a node of minimal
depth whenever the fuel allows one dequeue per code of the dense range. -/
theorem main_finds (t : State) (ht : Reachable t) (fuel : Nat) (hfuel : 368640 < fuel) :
    ∃ node f, main t fuel = some f ∧ f.outcome = Outcome.solution_found node ∧
      node.state = t ∧ chain_ok node ∧
      ∀ ms, generator_moves ms → apply_moves SOLVED ms = t → depth node ≤ ms.length := by
  have hlt : unmarked (StateCache.mark ⟨fun _ => false, 0, perms_table⟩ 0)
      + [StateNode.mk SOLVED Move.no_move none].length < fuel := by
    have h := unmarked_init
    rw [List.length_singleton]
    generalize unmarked (StateCache.mark ⟨fun _ => false, 0, perms_table⟩ 0) = u at h ⊢
    omega
  have := main_loop_finds t ht fuel _ _ (SearchInv.init t) hlt
  unfold main
  rw [main_init]
  exact this

/-- The loop accepts the root node at once when the target is `SOLVED`. -/
theorem main_loop_root (fuel : Nat) (c : StateCache) :
    main_loop SOLVED (fuel + 1) [root_node] c =
      some ⟨Outcome.solution_found root_node, [], c⟩ := by
  simp [main_loop, StateNode.state, compare_states_self, root_node]

/-! ## Lower bounds on the distance from `SOLVED` -/

theorem mem_sphere_step (l : List (State × Move)) (x : State) (m : Move) :
    (x, m) ∈ sphere_step l ↔
      ∃ p ∈ l, m ≠ Move.no_move ∧ m ≠ reverse_move p.2 ∧ x = make_move p.1 m := by
  simp only [sphere_step, List.mem_flatMap, List.mem_map, List.mem_filter, mem_generators,
    decide_eq_true_eq, Prod.mk.injEq]
  constructor
  · rintro ⟨p, hp, m2, ⟨h1, h2⟩, h3, rfl⟩
    exact ⟨p, hp, h1, h2, h3.symm⟩
  · rintro ⟨p, hp, h1, h2, h3⟩
    exact ⟨p, hp, m, ⟨h1, h2⟩, h3.symm, rfl⟩

theorem sphere_valid (s : State) (hs : s.Valid) (j : Nat) :
    ∀ p ∈ sphere_step^[j] [(s, Move.no_move)], p.1.Valid := by
  induction j with
  | zero =>
    intro p hp
    rw [Function.iterate_zero_apply, List.mem_singleton] at hp
    subst hp
    exact hs
  | succ j ih =>
    intro p hp
    rw [Function.iterate_succ_apply'] at hp
    obtain ⟨x, m⟩ := p
    obtain ⟨p2, hp2, hm, _, rfl⟩ := (mem_sphere_step _ x m).mp hp
    exact make_move_valid _ _ (ih p2 hp2) hm

theorem sphere_zero_move (s : State) (j : Nat) (x : State)
    (h : (x, Move.no_move) ∈ sphere_step^[j] [(s, Move.no_move)]) : j = 0 := by
  cases j with
  | zero => rfl
  | succ j =>
    rw [Function.iterate_succ_apply'] at h
    obtain ⟨_, _, hm, _, _⟩ := (mem_sphere_step _ x _).mp h
    exact absurd rfl hm

/-- Every configuration reached by a move sequence is reached by a sequence
without immediate reversals that is no longer. -/
theorem sphere_cover (s : State) (hs : s.Valid) :
    ∀ ms, generator_moves ms →
      ∃ j, j ≤ ms.length ∧ ∃ l, (apply_moves s ms, l) ∈ sphere_step^[j] [(s, Move.no_move)] := by
  intro ms
  induction ms using List.reverseRecOn with
  | nil =>
    intro _
    exact ⟨0, Nat.le_refl _, Move.no_move, List.mem_singleton_self _⟩
  | append_singleton ms m ih =>
    intro hg
    have hg1 : generator_moves ms := fun x hx => hg x (List.mem_append_left _ hx)
    have hm : m ≠ Move.no_move :=
      hg m (List.mem_append_right _ (List.mem_singleton_self m))
    obtain ⟨j, hj, l, hl⟩ := ih hg1
    rw [apply_moves_append, List.length_append, List.length_singleton]
    show ∃ j2, j2 ≤ ms.length + 1 ∧
      ∃ l2, (make_move (apply_moves s ms) m, l2) ∈ sphere_step^[j2] [(s, Move.no_move)]
    by_cases hrev : m = reverse_move l
    · cases j with
      | zero =>
        rw [Function.iterate_zero_apply, List.mem_singleton] at hl
        have hl2 : l = Move.no_move := (Prod.mk.inj hl).2
        rw [hl2] at hrev
        exact absurd hrev hm
      | succ j =>
        rw [Function.iterate_succ_apply'] at hl
        obtain ⟨p, hp, hlg, _, hx⟩ := (mem_sphere_step _ _ l).mp hl
        have hpv := sphere_valid s hs j p hp
        refine ⟨j, by omega, p.2, ?_⟩
        rw [hx, hrev, make_move_reverse _ _ hpv hlg]
        exact hp
    · refine ⟨j + 1, by omega, m, ?_⟩
      rw [Function.iterate_succ_apply']
      exact (mem_sphere_step _ _ m).mpr ⟨_, hl, hm, hrev, rfl⟩

/-- The reversed sequence of reverse moves undoes a move sequence. -/
theorem apply_moves_reverse (s : State) (ms : List Move) (hs : s.Valid)
    (hg : generator_moves ms) :
    apply_moves (apply_moves s ms) (ms.reverse.map reverse_move) = s := by
  induction ms generalizing s with
  | nil => rfl
  | cons m ms ih =>
    have hm : m ≠ Move.no_move := hg m (List.mem_cons_self _ _)
    have hg1 : generator_moves ms := fun x hx => hg x (List.mem_cons_of_mem _ hx)
    rw [List.reverse_cons, List.map_append, apply_moves_append]
    show apply_moves (apply_moves (apply_moves (make_move s m) ms)
      (ms.reverse.map reverse_move)) [reverse_move m] = s
    rw [ih (make_move s m) (make_move_valid s m hs hm) hg1]
    exact make_move_reverse s m hs hm

theorem generator_moves_reverse (ms : List Move) (hg : generator_moves ms) :
    generator_moves (ms.reverse.map reverse_move) := by
  intro m hm
  simp only [List.mem_map, List.mem_reverse] at hm
  obtain ⟨g, hg2, rfl⟩ := hm
  exact reverse_move_generator g (hg g hg2)

theorem nat_div_eq (a b : Nat) : Nat.div a b = a / b := rfl

theorem nat_mod_eq (a b : Nat) : Nat.mod a b = a % b := rfl

theorem pack_six (a b c d e f : Nat) (eo : List Nat) (M U : Nat) :
    pack ⟨[a, b, c, d, e, f], eo, M, U⟩ =
      a + 8 * b + 64 * c + 512 * d + 4096 * e + 32768 * f + 262144 * bits_code eo
        + 16777216 * M + 67108864 * U := by
  simp only [pack, List.foldr]
  omega

/-- The fields of a packed configuration. -/
theorem pack_fields (a b c d e f E M U X : Nat) (ha : a < 8) (hb : b < 8) (hc : c < 8)
    (hd : d < 8) (he : e < 8) (hf : f < 8) (hE : E < 64) (hM : M < 4)
    (hX : X = a + 8 * b + 64 * c + 512 * d + 4096 * e + 32768 * f + 262144 * E
      + 16777216 * M + 67108864 * U) :
    digit X 1 = a ∧ digit X 8 = b ∧ digit X 64 = c ∧ digit X 512 = d ∧ digit X 4096 = e ∧
      digit X 32768 = f ∧ Nat.mod (Nat.div X 262144) 64 = E ∧
      Nat.mod (Nat.div X 16777216) 4 = M ∧ Nat.div X 67108864 = U ∧
      Nat.mod (Nat.div X 4096) 4096 = e + 8 * f + 64 * E ∧
      Nat.mod (Nat.div X 16777216) 2 = M % 2 := by
  simp only [digit, nat_div_eq, nat_mod_eq]
  subst hX
  refine ⟨?_, ?_, ?_, ?_, ?_, ?_, ?_, ?_, ?_, ?_, ?_⟩ <;> omega

set_option synthInstance.maxSize 2000 in
/-- One flip of an orientation bit is an exclusive or on the packed bits. -/
theorem bits_code_flip (eo : List Nat) (hl : eo.length = 6) (hb : ∀ x ∈ eo, x ≤ 1) :
    bits_code eo < 64 ∧ ∀ e < 6, bits_code (flip_at eo e) = Nat.xor (bits_code eo) (2 ^ e) := by
  have key : ∀ a < 2, ∀ b < 2, ∀ c < 2, ∀ d < 2, ∀ e < 2, ∀ f < 2,
      bits_code [a, b, c, d, e, f] < 64 ∧ ∀ i < 6,
        bits_code (flip_at [a, b, c, d, e, f] i) =
          Nat.xor (bits_code [a, b, c, d, e, f]) (2 ^ i) := by
    decide!
  exact bits_six_cases eo hl hb
    (fun eo => bits_code eo < 64 ∧
      ∀ e < 6, bits_code (flip_at eo e) = Nat.xor (bits_code eo) (2 ^ e)) key

theorem flipped_eq (X M : Nat) (eo : List Nat) (x1 x2 x3 x4 : Nat) (hl : eo.length = 6)
    (hb : ∀ x ∈ eo, x ≤ 1) (h1 : x1 < 6) (h2 : x2 < 6) (h3 : x3 < 6) (h4 : x4 < 6)
    (hE : Nat.mod (Nat.div X 262144) 64 = bits_code eo)
    (hM : Nat.mod (Nat.div X 16777216) 2 = M % 2) :
    flipped X x1 x2 x3 x4 =
      bits_code (if M % 2 ≠ 0 then flip_at (flip_at (flip_at (flip_at eo x1) x2) x3) x4
        else eo) := by
  unfold flipped
  rw [hE, hM]
  by_cases h : M % 2 = 0
  · rw [if_neg (not_not.mpr h), h]
    show bits_code eo ^^^ 0 * 2 ^ x1 ^^^ 0 * 2 ^ x2 ^^^ 0 * 2 ^ x3 ^^^ 0 * 2 ^ x4 = bits_code eo
    simp
  · have h5 : M % 2 = 1 := by omega
    rw [if_pos h, h5]
    have b1 := flip_at_bits eo x1 hb
    have b2 := flip_at_bits _ x2 b1
    have b3 := flip_at_bits _ x3 b2
    have l1 : (flip_at eo x1).length = 6 := by rw [flip_at_length]; exact hl
    have l2 : (flip_at (flip_at eo x1) x2).length = 6 := by rw [flip_at_length]; exact l1
    have l3 : (flip_at (flip_at (flip_at eo x1) x2) x3).length = 6 := by
      rw [flip_at_length]; exact l2
    rw [(bits_code_flip _ l3 b3).2 x4 h4, (bits_code_flip _ l2 b2).2 x3 h3,
      (bits_code_flip _ l1 b1).2 x2 h2, (bits_code_flip _ hl hb).2 x1 h1]
    show Nat.xor (Nat.xor (Nat.xor (Nat.xor (bits_code eo) (1 * 2 ^ x1)) (1 * 2 ^ x2))
      (1 * 2 ^ x3)) (1 * 2 ^ x4) = _
    simp only [Nat.one_mul]

/-- The function `code_move` is `make_move` on packed configurations. -/
theorem pack_move (s : State) (hs : s.Valid) (m : Move) (hm : m ≠ Move.no_move) :
    code_move (pack s) m = pack (make_move s m) := by
  obtain ⟨ep, eo, M, U⟩ := s
  obtain ⟨hep, heo, hM, hU⟩ := hs
  simp only at hep heo hM hU
  obtain ⟨a, b, c, d, e, f, rfl⟩ := list_length_six ep hep.1
  rw [valid_position_six] at hep
  obtain ⟨_, ha, hb, hc, hd, he, hf⟩ := hep
  have hE := (bits_code_flip eo heo.1 heo.2.1).1
  have hX := pack_six a b c d e f eo M U
  generalize pack ⟨[a, b, c, d, e, f], eo, M, U⟩ = X at hX ⊢
  obtain ⟨f0, f1, f2, f3, f4, f5, fE, fM, fU, fT, fP⟩ :=
    pack_fields a b c d e f (bits_code eo) M U X (by omega) (by omega) (by omega) (by omega)
      (by omega) (by omega) hE hM hX
  cases m with
  | no_move => exact absurd rfl hm
  | U =>
    rw [make_move_U, pack_six]
    simp only [code_move]
    rw [f0, f1, f2, f3, f4, f5, fM, fU,
      flipped_eq _ M eo f d e c heo.1 heo.2.1 hf hd he hc fE fP]
    show a + 8 * b + 64 * e + 512 * f + 4096 * d + 32768 * c + 262144 * _ + 16777216 * M
      + 67108864 * ((U + 1) % 4) = _
    rfl
  | U_prime =>
    rw [make_move_U_prime, pack_six]
    simp only [code_move]
    rw [f0, f1, f2, f3, f4, f5, fM, fU,
      flipped_eq _ M eo e c f d heo.1 heo.2.1 he hc hf hd fE fP]
    show a + 8 * b + 64 * f + 512 * e + 4096 * c + 32768 * d + 262144 * _ + 16777216 * M
      + 67108864 * ((U + 3) % 4) = _
    rfl
  | M =>
    rw [make_move_M, pack_six]
    simp only [code_move]
    rw [f0, f1, f2, f3, fM, fU, fT]
    show d + 8 * a + 64 * b + 512 * c + 4096 * (e + 8 * f + 64 * bits_code eo)
      + (16777216 * ((M + 1) % 4) + 67108864 * U) = _
    omega
  | M_prime =>
    rw [make_move_M_prime, pack_six]
    simp only [code_move]
    rw [f0, f1, f2, f3, fM, fU, fT]
    show b + 8 * c + 64 * d + 512 * a + 4096 * (e + 8 * f + 64 * bits_code eo)
      + (16777216 * ((M + 3) % 4) + 67108864 * U) = _
    omega

theorem mem_code_children_acc (c : Nat) (last : Move) (acc : List (Nat × Move))
    (q : Nat × Move) (h : q ∈ acc) : q ∈ code_children c last acc := by
  cases last <;> simp [code_children, h]

theorem mem_code_children (c : Nat) (last : Move) (acc : List (Nat × Move)) (m : Move)
    (hm : m ≠ Move.no_move) (hr : m ≠ reverse_move last) :
    (code_move c m, m) ∈ code_children c last acc := by
  cases last <;> cases m <;> simp [code_children, reverse_move] at hm hr ⊢

theorem mem_next_codes_acc (C : List (Nat × Move)) :
    ∀ (acc : List (Nat × Move)) (q : Nat × Move), q ∈ acc → q ∈ next_codes C acc := by
  induction C with
  | nil => intro acc q h; exact h
  | cons p C ih =>
    intro acc q h
    obtain ⟨c, last⟩ := p
    exact ih _ q (mem_code_children_acc c last acc q h)

theorem mem_next_codes (C : List (Nat × Move)) (c : Nat) (last m : Move)
    (hm : m ≠ Move.no_move) (hr : m ≠ reverse_move last) :
    ∀ acc : List (Nat × Move), (c, last) ∈ C → (code_move c m, m) ∈ next_codes C acc := by
  induction C with
  | nil => intro acc h; cases h
  | cons p C ih =>
    intro acc h
    obtain ⟨c2, l2⟩ := p
    rcases List.mem_cons.mp h with h | h
    · obtain ⟨rfl, rfl⟩ := Prod.mk.inj h
      exact mem_next_codes_acc C _ _ (mem_code_children c last acc m hm hr)
    · exact ih _ h

/-- The packed frontier holds the packed form of every configuration of the
frontier of `sphere_step`. -/
theorem next_codes_cover (s : State) (hs : s.Valid) (j : Nat) :
    ∀ p ∈ sphere_step^[j] [(s, Move.no_move)],
      (pack p.1, p.2) ∈ (fun C => next_codes C [])^[j] [(pack s, Move.no_move)] := by
  induction j with
  | zero =>
    intro p hp
    rw [Function.iterate_zero_apply, List.mem_singleton] at hp
    subst hp
    exact List.mem_singleton_self _
  | succ j ih =>
    intro p hp
    rw [Function.iterate_succ_apply'] at hp ⊢
    obtain ⟨x, m⟩ := p
    obtain ⟨p2, hp2, hm, hr, rfl⟩ := (mem_sphere_step _ x m).mp hp
    have h := mem_next_codes _ (pack p2.1) p2.2 m hm hr [] (ih p2 hp2)
    rw [pack_move _ (sphere_valid s hs j p2 hp2) m hm] at h
    exact h

theorem mask_fold_mono (C : List (Nat × Move)) (k : Nat) :
    ∀ mask : Nat, mask.testBit k = true → (mask_fold C mask).testBit k = true := by
  induction C with
  | nil => intro mask h; exact h
  | cons p C ih =>
    intro mask h
    obtain ⟨c, l⟩ := p
    apply ih
    show (mask ||| 1 <<< code_key c).testBit k = true
    rw [Nat.testBit_or, h]
    rfl

theorem mask_fold_mem (C : List (Nat × Move)) (q : Nat × Move) :
    ∀ mask : Nat, q ∈ C → (mask_fold C mask).testBit (code_key q.1) = true := by
  induction C with
  | nil => intro mask h; cases h
  | cons p C ih =>
    intro mask h
    obtain ⟨c, l⟩ := p
    rcases List.mem_cons.mp h with rfl | h
    · show (mask_fold C (mask ||| 1 <<< code_key c)).testBit (code_key c) = true
      apply mask_fold_mono
      rw [Nat.testBit_or, Nat.one_shiftLeft, Nat.testBit_two_pow_self]
      simp
    · exact ih _ h

theorem ball_mask_mono (k : Nat) (i : Nat) :
    ∀ (C : List (Nat × Move)) (mask : Nat), mask.testBit i = true →
      (ball_mask k C mask).testBit i = true := by
  induction k with
  | zero => intro C mask h; exact mask_fold_mono C i mask h
  | succ k ih => intro C mask h; exact ih _ _ (mask_fold_mono C i mask h)

theorem ball_mask_mem (k : Nat) :
    ∀ (C : List (Nat × Move)) (mask : Nat) (j : Nat), j ≤ k →
      ∀ q ∈ (fun C => next_codes C [])^[j] C,
        (ball_mask k C mask).testBit (code_key q.1) = true := by
  induction k with
  | zero =>
    intro C mask j hj q hq
    have : j = 0 := by omega
    subst this
    exact mask_fold_mem C q mask hq
  | succ k ih =>
    intro C mask j hj q hq
    cases j with
    | zero => exact ball_mask_mono k _ _ _ (mask_fold_mem C q mask hq)
    | succ j =>
      rw [Function.iterate_succ_apply] at hq
      exact ih _ _ j (by omega) q hq

theorem hits_fold_zero (C : List (Nat × Move)) (mask : Nat) :
    ∀ h : Nat, hits_fold C mask h = 0 →
      h = 0 ∧ ∀ q ∈ C, mask.testBit (code_key q.1) = false := by
  induction C with
  | nil => intro h hz; exact ⟨hz, fun q hq => by cases hq⟩
  | cons p C ih =>
    intro h hz
    obtain ⟨c, l⟩ := p
    obtain ⟨h1, h2⟩ := ih _ hz
    have h3 : h + (1 &&& mask >>> code_key c) = 0 := h1
    have h4 : (1 &&& mask >>> code_key c) = 0 := by omega
    refine ⟨by omega, ?_⟩
    intro q hq
    rcases List.mem_cons.mp hq with rfl | hq
    · show (1 &&& mask >>> code_key c != 0) = false
      rw [h4]
      rfl
    · exact h2 q hq

theorem ball_hits_zero (k : Nat) :
    ∀ (C : List (Nat × Move)) (mask h : Nat), ball_hits k C mask h = 0 →
      h = 0 ∧ ∀ j ≤ k, ∀ q ∈ (fun C => next_codes C [])^[j] C,
        mask.testBit (code_key q.1) = false := by
  induction k with
  | zero =>
    intro C mask h hz
    obtain ⟨h1, h2⟩ := hits_fold_zero C mask h hz
    refine ⟨h1, ?_⟩
    intro j hj q hq
    have : j = 0 := by omega
    subst this
    exact h2 q hq
  | succ k ih =>
    intro C mask h hz
    obtain ⟨h1, h2⟩ := ih _ mask _ hz
    obtain ⟨h3, h4⟩ := hits_fold_zero C mask h h1
    refine ⟨h3, ?_⟩
    intro j hj q hq
    cases j with
    | zero => exact h4 q hq
    | succ j =>
      rw [Function.iterate_succ_apply] at hq
      exact h2 j (by omega) q hq

/-- When `codes_meet` counts nothing, no configuration lies both within `a`
moves of `s` and within `b` moves of `t`. -/
theorem codes_meet_sound (s t : State) (a b : Nat) (hs : s.Valid) (ht : t.Valid)
    (h : codes_meet s a t b = 0) (x : State) (i j : Nat) (hi : i ≤ a) (hj : j ≤ b)
    (l1 l2 : Move) (h1 : (x, l1) ∈ sphere_step^[i] [(s, Move.no_move)])
    (h2 : (x, l2) ∈ sphere_step^[j] [(t, Move.no_move)]) : False := by
  have c1 := next_codes_cover s hs i _ h1
  have c2 := next_codes_cover t ht j _ h2
  have m1 := (ball_hits_zero a _ _ 0 h).2 i hi _ c1
  have m2 := ball_mask_mem b _ 0 j hj _ c2
  rw [m1] at m2
  cases m2

/-- When no configuration lies both within `a` moves of `SOLVED` and within
`b` moves of `t`, every move sequence from `SOLVED` to `t` is longer than
`a + b`. -/
theorem distance_lower_bound (a b : Nat) (t : State) (ht : t.Valid)
    (hchk : codes_meet SOLVED a t b = 0) :
    ∀ ms, generator_moves ms → apply_moves SOLVED ms = t → a + b < ms.length := by
  intro ms hg hs
  by_contra hlen
  have hsplit : ms = ms.take a ++ ms.drop a := (List.take_append_drop a ms).symm
  have hg1 : generator_moves (ms.take a) := fun x hx => hg x (List.mem_of_mem_take hx)
  have hg2 : generator_moves (ms.drop a) := fun x hx => hg x (List.mem_of_mem_drop hx)
  have hmidv := apply_moves_valid SOLVED (ms.take a) SOLVED_valid hg1
  obtain ⟨i, hi, l1, h1⟩ := sphere_cover SOLVED SOLVED_valid (ms.take a) hg1
  have ht2 : apply_moves (apply_moves SOLVED (ms.take a)) (ms.drop a) = t := by
    rw [← apply_moves_append, ← hsplit]; exact hs
  have hback := apply_moves_reverse _ (ms.drop a) hmidv hg2
  rw [ht2] at hback
  obtain ⟨j, hj, l2, h2⟩ := sphere_cover t ht _ (generator_moves_reverse _ hg2)
  rw [hback] at h2
  have hi2 : i ≤ a := Nat.le_trans hi (List.length_take_le a ms)
  have hj2 : j ≤ b := by
    simp only [List.length_map, List.length_reverse, List.length_drop] at hj
    omega
  exact codes_meet_sound SOLVED t a b SOLVED_valid ht hchk _ i j hi2 hj2 l1 l2 h1 h2

/-- The printed tokens stand for as many moves as the node is deep. -/
theorem logical_length_print (node : StateNode) (h : chain_ok node) :
    logical_length (print_moves_traceback node) = depth node := by
  rw [print_moves_traceback_eq, logical_length_trace _ (solution_moves_generator node h),
    solution_moves_length]

set_option maxRecDepth 1000000 in
/-- No configuration is both within 8 moves of `SOLVED` and within 7 moves of
`example_target`. -/
theorem example_target_check : codes_meet SOLVED 8 example_target 7 = 0 := by decide!

theorem example_target_distance (ms : List Move) (hg : generator_moves ms)
    (hs : apply_moves SOLVED ms = example_target) : 16 ≤ ms.length :=
  distance_lower_bound 8 7 example_target (by decide) example_target_check ms hg hs

theorem example_path_ok :
    generator_moves example_path ∧ example_path.length = 16 ∧
      apply_moves SOLVED example_path = example_target := by
  refine ⟨?_, rfl, by decide⟩
  unfold generator_moves
  decide

/-! ## Runs of the search for an arbitrary target -/

theorem main_loop_nil (t : State) (fuel : Nat) (c : StateCache) :
    main_loop t (fuel + 1) [] c = some ⟨Outcome.not_found, [], c⟩ := rfl

theorem main_loop_accept (t : State) (fuel : Nat) (n : StateNode) (q : List StateNode)
    (c : StateCache) (h : compare_states t n.state = true) :
    main_loop t (fuel + 1) (n :: q) c = some ⟨Outcome.solution_found n, q, c⟩ := by
  simp [main_loop, h]

/-- One iteration of the loop of `main` on a node that is not the target and
holds a reachable configuration. -/
theorem main_loop_expand (t : State) (fuel : Nat) (n : StateNode) (q : List StateNode)
    (c : StateCache) (hp : c.perms = perms_table) (hr : Reachable n.state)
    (h : compare_states t n.state = false) :
    main_loop t (fuel + 1) (n :: q) c =
      main_loop t fuel (q ++ new_nodes c n)
        (mark_all c ((new_moves c n).map (make_move n.state))) := by
  obtain ⟨h1, h2⟩ := expand_eq c n q hp hr
  simp only [main_loop, h, Bool.false_eq_true, if_false, h1]
  rw [h2]
  simp

/-- From a state satisfying the invariant the loop ends within the fuel given
by the measure, for any target: with success at a node whose configuration
`compare_states` accepts, or with `not_found` on an empty queue. -/
theorem main_loop_ends (t : State) :
    ∀ (fuel : Nat) (q : List StateNode) (c : StateCache), SearchInv t q c →
      unmarked c + q.length < fuel →
      ∃ f, main_loop t fuel q c = some f ∧
        ((∃ node, f.outcome = Outcome.solution_found node ∧
            compare_states t node.state = true ∧ chain_ok node) ∨
          (f.outcome = Outcome.not_found ∧ f.queue = [] ∧ ¬ Reachable t)) := by
  intro fuel
  induction fuel with
  | zero => intro q c _ h; omega
  | succ fuel ih =>
    intro q c inv hfuel
    cases q with
    | nil =>
      exact ⟨_, main_loop_nil t fuel c, Or.inr ⟨rfl, rfl, fun ht => inv.nil_absurd ht⟩⟩
    | cons n q =>
      have hchain := inv.chain n (List.mem_cons_self _ _)
      have hreach : Reachable n.state := chain_ok_reachable n hchain.1
      cases hcmp : compare_states t n.state with
      | true =>
        exact ⟨_, main_loop_accept t fuel n q c hcmp, Or.inl ⟨n, rfl, hcmp, hchain.1⟩⟩
      | false =>
        have hm := inv.step_measure
        rw [main_loop_expand t fuel n q c inv.perms hreach hcmp]
        exact ih _ _ (inv.expand hcmp) (by omega)

/-- More fuel does not change the result of a loop that ended. -/
theorem main_loop_mono (t : State) (k : Nat) :
    ∀ (fuel : Nat) (q : List StateNode) (c : StateCache) (f : Final),
      main_loop t fuel q c = some f → main_loop t (fuel + k) q c = some f := by
  intro fuel
  induction fuel with
  | zero => intro q c f h; simp [main_loop] at h
  | succ fuel ih =>
    intro q c f h
    rw [Nat.succ_add]
    cases q with
    | nil => exact h
    | cons n q =>
      cases hcmp : compare_states t n.state with
      | true =>
        rw [main_loop_accept t _ n q c hcmp] at h ⊢
        exact h
      | false =>
        cases hg : get_new_neighbors c n with
        | none =>
          simp only [main_loop, hcmp, hg, Bool.false_eq_true, if_false] at h ⊢
          exact h
        | some next =>
          cases ha : append_new_states n
              ([Move.U_prime, Move.M, Move.U, Move.M_prime].zip next) q c with
          | none =>
            simp only [main_loop, hcmp, hg, ha, Bool.false_eq_true, if_false] at h ⊢
            exact h
          | some r =>
            obtain ⟨rc, q2, c2⟩ := r
            by_cases hrc : rc = 0
            · simp only [main_loop, hcmp, hg, ha, hrc, Bool.false_eq_true, if_false, ne_eq,
                not_true_eq_false] at h ⊢
              exact ih q2 c2 f h
            · simp only [main_loop, hcmp, hg, ha, hrc, Bool.false_eq_true, if_false, ne_eq,
                not_false_eq_true, if_true] at h ⊢
              exact h

/-- For any target `main` ends within 368641 dequeues, with success or with
`not_found`. -/
theorem main_ends (t : State) (fuel : Nat) (hfuel : 368640 < fuel) :
    ∃ f, main t fuel = some f ∧
      ((∃ node, f.outcome = Outcome.solution_found node ∧
          compare_states t node.state = true ∧ chain_ok node) ∨
        (f.outcome = Outcome.not_found ∧ f.queue = [] ∧ ¬ Reachable t)) := by
  have hlt : unmarked (StateCache.mark ⟨fun _ => false, 0, perms_table⟩ 0)
      + [StateNode.mk SOLVED Move.no_move none].length < fuel := by
    have h := unmarked_init
    rw [List.length_singleton]
    generalize unmarked (StateCache.mark ⟨fun _ => false, 0, perms_table⟩ 0) = u at h ⊢
    omega
  have := main_loop_ends t fuel _ _ (SearchInv.init t) hlt
  unfold main
  rw [main_init]
  exact this

/-- Whatever the fuel, a run of `main` that ends does so with success or with
`not_found`, as the run with 368641 dequeues does. -/
theorem main_result (t : State) (fuel : Nat) (f : Final) (h : main t fuel = some f) :
    main t (368641 + fuel) = some f ∧
      ((∃ node, f.outcome = Outcome.solution_found node ∧
          compare_states t node.state = true ∧ chain_ok node) ∨
        (f.outcome = Outcome.not_found ∧ f.queue = [] ∧ ¬ Reachable t)) := by
  have h1 : main t (fuel + 368641) = some f := by
    unfold main at h ⊢
    rw [main_init] at h ⊢
    exact main_loop_mono t 368641 fuel _ _ f h
  rw [Nat.add_comm] at h1
  obtain ⟨f2, h2, h3⟩ := main_ends t (368641 + fuel) (by omega)
  rw [h1] at h2
  cases h2
  exact ⟨h1, h3⟩

/-! ## The search without the pruning of the move back to the parent -/

/-- The move back to the parent leads to the parent's configuration, which is
marked. -/
theorem SearchInv.back_marked {t : State} {n : StateNode} {q : List StateNode}
    {c : StateCache} (inv : SearchInv t (n :: q) c) (p : StateNode)
    (hp : n.parent = some p) :
    make_move n.state (reverse_move n.generator_move) = p.state ∧
      c.array (encode_state p.state perms_table) = true := by
  have hn : n ∈ n :: q := List.mem_cons_self _ _
  obtain ⟨hg, hst, hcp⟩ := chain_ok_child n p (inv.chain n hn).1 hp
  have hpv : p.state.Valid := (chain_ok_reachable p hcp).valid
  refine ⟨?_, inv.parent n hn p hp⟩
  rw [hst, make_move_reverse _ _ hpv hg]

/-- The neighbour skipped by `get_new_neighbors` is marked in the cache. -/
theorem SearchInv.skipped_marked {t : State} {n : StateNode} {q : List StateNode}
    {c : StateCache} (inv : SearchInv t (n :: q) c) (m : Move) (hm : m ≠ Move.no_move)
    (hrev : m = reverse_move n.generator_move) :
    c.array (encode_state (make_move n.state m) perms_table) = true := by
  have hn : n ∈ n :: q := List.mem_cons_self _ _
  cases hpar : n.parent with
  | none =>
    have h := root_move_none n (inv.chain n hn).2 hpar
    rw [h] at hrev
    exact absurd hrev hm
  | some p =>
    obtain ⟨h1, h2⟩ := inv.back_marked p hpar
    rw [hrev, h1]
    exact h2

theorem get_new_neighbors_noskip_loop_eq (c : StateCache) (n : StateNode)
    (hp : c.perms = perms_table) (ms : List Move)
    (hlt : ∀ m ∈ ms, encode_state (make_move n.state m) perms_table < MAX_CACHE_SIZE)
    (hback : ∀ m ∈ ms, m = reverse_move n.generator_move →
      c.array (encode_state (make_move n.state m) perms_table) = true) :
    get_new_neighbors_noskip_loop c n ms = some (ms.map (neighbor_entry c n)) := by
  induction ms with
  | nil => rfl
  | cons m ms ih =>
    have ih2 := ih (fun x hx => hlt x (List.mem_cons_of_mem _ hx))
      (fun x hx => hback x (List.mem_cons_of_mem _ hx))
    have h1 := hlt m (List.mem_cons_self _ _)
    unfold get_new_neighbors_noskip_loop
    by_cases hm : m = reverse_move n.generator_move
    · have h2 := hback m (List.mem_cons_self _ _) hm
      simp [ih2, neighbor_entry, is_in_cache, hp, h1, h2]
    · simp [hm, ih2, neighbor_entry, is_in_cache, hp, h1]

/-- At the head of an iteration of the search both variants of
`get_new_neighbors` fill `new_neighbors` with the same entries. -/
theorem SearchInv.noskip_eq {t : State} {n : StateNode} {q : List StateNode}
    {c : StateCache} (inv : SearchInv t (n :: q) c) :
    get_new_neighbors_noskip c n = get_new_neighbors c n := by
  have hreach : Reachable n.state :=
    chain_ok_reachable n (inv.chain n (List.mem_cons_self _ _)).1
  rw [(expand_eq c n q inv.perms hreach).1]
  exact get_new_neighbors_noskip_loop_eq c n inv.perms generators
    (fun m hm => (hreach.after_move m ((mem_generators m).mp hm)).code_lt)
    (fun m hm hrev => inv.skipped_marked m ((mem_generators m).mp hm) hrev)

theorem main_loop_noskip_eq (t : State) :
    ∀ (fuel : Nat) (q : List StateNode) (c : StateCache), SearchInv t q c →
      main_loop_noskip t fuel q c = main_loop t fuel q c := by
  intro fuel
  induction fuel with
  | zero => intro q c _; rfl
  | succ fuel ih =>
    intro q c inv
    cases q with
    | nil => rfl
    | cons n q =>
      have hreach : Reachable n.state :=
        chain_ok_reachable n (inv.chain n (List.mem_cons_self _ _)).1
      cases hcmp : compare_states t n.state with
      | true =>
        rw [main_loop_accept t fuel n q c hcmp]
        simp [main_loop_noskip, hcmp]
      | false =>
        obtain ⟨h1, h2⟩ := expand_eq c n q inv.perms hreach
        rw [main_loop_expand t fuel n q c inv.perms hreach hcmp, ← ih _ _ (inv.expand hcmp)]
        simp only [main_loop_noskip, hcmp, Bool.false_eq_true, if_false, inv.noskip_eq, h1]
        rw [h2]
        simp

/-- The search gives the same result with and without the pruning. -/
theorem main_noskip_eq (t : State) (fuel : Nat) : main_noskip t fuel = main t fuel := by
  unfold main main_noskip
  rw [main_init]
  exact main_loop_noskip_eq t fuel _ _ (SearchInv.init t)

/-- The queue and the cache after the expansion of the root node, for a
target other than `SOLVED`: the four neighbours of `SOLVED` are queued. -/
theorem SearchInv.first (t : State) (h : compare_states t SOLVED = false) :
    SearchInv t (generators.map fun m => StateNode.mk (make_move SOLVED m) m (some root_node))
      (mark_all (StateCache.mark ⟨fun _ => false, 0, perms_table⟩ 0)
        (generators.map (make_move SOLVED))) := by
  have hnew : new_moves (StateCache.mark ⟨fun _ => false, 0, perms_table⟩ 0) root_node =
      generators := by
    unfold new_moves
    apply List.filter_eq_self.mpr
    intro m hm
    have hg := (mem_generators m).mp hm
    have hne : encode_state (make_move SOLVED m) perms_table ≠ 0 := by
      intro h0
      have heq := encode_state_inj _ _ (make_move_valid SOLVED m SOLVED_valid hg) SOLVED_valid
        (h0.trans encode_state_SOLVED.symm)
      revert heq
      cases m <;> first | exact absurd rfl hg | decide
    have hrev : m ≠ reverse_move root_node.generator_move := hg
    have harr : (StateCache.mark ⟨fun _ => false, 0, perms_table⟩ 0).array
        (encode_state (make_move root_node.state m) perms_table) = false := by
      show (if encode_state (make_move SOLVED m) perms_table = 0 then true else false) = false
      rw [if_neg hne]
    rw [harr]
    simp [hrev]
  have inv : SearchInv t
      ([] ++ new_nodes (StateCache.mark ⟨fun _ => false, 0, perms_table⟩ 0) root_node)
      (mark_all (StateCache.mark ⟨fun _ => false, 0, perms_table⟩ 0)
        ((new_moves (StateCache.mark ⟨fun _ => false, 0, perms_table⟩ 0) root_node).map
          (make_move root_node.state))) :=
    (SearchInv.init t).expand h
  unfold new_nodes at inv
  rw [hnew] at inv
  exact inv

/-! ## The record of the calls of `queue_append` -/

theorem queue_append_eq (q : List StateNode) (s : State) (p : Option StateNode) (m : Move)
    (c : StateCache) (hp : c.perms = perms_table)
    (hlt : encode_state s perms_table < MAX_CACHE_SIZE) :
    queue_append q s p m c =
      some (0, q ++ [StateNode.mk s m p], c.mark (encode_state s perms_table)) := by
  obtain ⟨arr, len, pp⟩ := c
  have hpp : pp = perms_table := hp
  subst hpp
  simp [queue_append, cache_append, hlt, StateCache.mark]

theorem is_in_cache_eq (c : StateCache) (s : State) (hp : c.perms = perms_table)
    (hlt : encode_state s perms_table < MAX_CACHE_SIZE) :
    is_in_cache c s = some (c.array (encode_state s perms_table)) := by
  simp [is_in_cache, hp, hlt]

/-- Without the record, `append_new_states_log` is `append_new_states`. -/
theorem append_new_states_log_erase (n : StateNode) :
    ∀ (l : List (Move × State)) (q : List StateNode) (c : StateCache)
      (log : List (StateNode × Option Bool)),
      (append_new_states_log n l q c log).map (fun r => (r.1, r.2.1, r.2.2.1)) =
        append_new_states n l q c := by
  intro l
  induction l with
  | nil => intro q c log; rfl
  | cons e l ih =>
    intro q c log
    obtain ⟨m, s⟩ := e
    unfold append_new_states_log append_new_states
    cases hn : is_nostate s with
    | true => simp only [Bool.not_true, Bool.false_eq_true, if_false]; exact ih q c log
    | false =>
      simp only [Bool.not_false, if_true]
      cases hq : queue_append q s (some n) m c with
      | none => rfl
      | some r =>
        obtain ⟨rc, q2, c2⟩ := r
        by_cases hrc : rc = 0
        · simp only [hrc, ne_eq, not_true_eq_false, if_false]
          exact ih q2 c2 _
        · simp only [hrc, ne_eq, not_false_eq_true, if_true]
          rfl

/-- Without the record, `main_loop_log` is `main_loop`. -/
theorem main_loop_log_erase (t : State) :
    ∀ (fuel : Nat) (q : List StateNode) (c : StateCache)
      (log : List (StateNode × Option Bool)),
      (main_loop_log t fuel q c log).map Prod.fst = main_loop t fuel q c := by
  intro fuel
  induction fuel with
  | zero => intro q c log; rfl
  | succ fuel ih =>
    intro q c log
    cases q with
    | nil => rfl
    | cons n q =>
      cases hcmp : compare_states t n.state with
      | true => simp [main_loop_log, main_loop, hcmp]
      | false =>
        cases hg : get_new_neighbors c n with
        | none => simp [main_loop_log, main_loop, hcmp, hg]
        | some next =>
          have he := append_new_states_log_erase n
            ([Move.U_prime, Move.M, Move.U, Move.M_prime].zip next) q c log
          cases ha : append_new_states_log n
              ([Move.U_prime, Move.M, Move.U, Move.M_prime].zip next) q c log with
          | none =>
            rw [ha] at he
            simp only [main_loop_log, main_loop, hcmp, hg, ha, ← he, Bool.false_eq_true,
              if_false, Option.map_none', Option.map_some']
          | some r =>
            obtain ⟨rc, q2, c2, log2⟩ := r
            rw [ha] at he
            by_cases hrc : rc = 0
            · simp only [main_loop_log, main_loop, hcmp, hg, ha, ← he, Bool.false_eq_true,
                if_false, Option.map_some', hrc, ne_eq, not_true_eq_false]
              exact ih q2 c2 log2
            · simp only [main_loop_log, main_loop, hcmp, hg, ha, ← he, Bool.false_eq_true,
                if_false, Option.map_some', hrc, ne_eq, not_false_eq_true, if_true]

theorem main_log_erase (t : State) (fuel : Nat) :
    (main_log t fuel).map Prod.fst = main t fuel := by
  unfold main_log main
  rw [main_init]
  exact main_loop_log_erase t fuel _ _ _

/-- One more call of `queue_append`, for a reachable configuration that is
not marked, keeps the invariant of the record. -/
theorem LogInv.append {c : StateCache} {log : List (StateNode × Option Bool)}
    (inv : LogInv c log) (hp : c.perms = perms_table) (node : StateNode)
    (hr : Reachable node.state)
    (hun : c.array (encode_state node.state perms_table) = false) :
    LogInv (c.mark (encode_state node.state perms_table))
      (log ++ [(node, is_in_cache c node.state)]) := by
  have hlt := hr.code_lt
  refine ⟨hp, ?_, ?_, ?_, ?_, ?_, ?_⟩
  · intro e he
    rcases List.mem_append.mp he with he | he
    · exact inv.fresh e he
    · rw [List.mem_singleton] at he
      subst he
      show is_in_cache c node.state = some false
      rw [is_in_cache_eq c _ hp hlt, hun]
  · intro e he
    rcases List.mem_append.mp he with he | he
    · exact inv.reach e he
    · rw [List.mem_singleton] at he
      subst he
      exact hr
  · rw [List.map_append, List.map_singleton]
    apply List.Nodup.append inv.distinct (List.nodup_singleton _)
    intro s hs1 hs2
    rw [List.mem_singleton] at hs2
    subst hs2
    simp only [List.mem_map] at hs1
    obtain ⟨e, he, hes⟩ := hs1
    have h1 := (inv.marks _).mpr ⟨e, he, rfl⟩
    rw [hes, hun] at h1
    cases h1
  · intro i
    rw [mark_array, inv.marks]
    constructor
    · rintro (⟨e, he, h⟩ | h)
      · exact ⟨e, List.mem_append_left _ he, h⟩
      · exact ⟨_, List.mem_append_right _ (List.mem_singleton_self _), h.symm⟩
    · rintro ⟨e, he, h⟩
      rcases List.mem_append.mp he with he | he
      · exact Or.inl ⟨e, he, h⟩
      · rw [List.mem_singleton] at he
        subst he
        exact Or.inr h.symm
  · show c.length + 1 = _
    rw [List.length_append, List.length_singleton, inv.length]
  · have h1 := unmarked_mark c _ (encode_state_lt _ hr.valid) hun
    have h2 := inv.count
    show c.length + 1 + _ = _
    generalize unmarked (c.mark (encode_state node.state perms_table)) = u at h1 ⊢
    generalize unmarked c = v at h1 h2
    omega

/-- The calls of `queue_append` for the neighbours of one node keep the
invariant of the record, when the neighbours not set to `NOSTATE` are the
configurations after pairwise different moves and are not marked. -/
theorem append_new_states_log_inv (n : StateNode) (hn : Reachable n.state) :
    ∀ (l : List (Move × State)) (q : List StateNode) (c : StateCache)
      (log : List (StateNode × Option Bool)),
      c.perms = perms_table → LogInv c log →
      (∀ e ∈ l, is_nostate e.2 = false →
        e.1 ≠ Move.no_move ∧ e.2 = make_move n.state e.1 ∧
          c.array (encode_state e.2 perms_table) = false) →
      l.Pairwise (fun a b => a.1 ≠ b.1) →
      ∀ r, append_new_states_log n l q c log = some r → LogInv r.2.2.1 r.2.2.2 := by
  intro l
  induction l with
  | nil =>
    intro q c log _ inv _ _ r hr
    simp only [append_new_states_log, Option.some.injEq] at hr
    subst hr
    exact inv
  | cons e l ih =>
    intro q c log hp inv hl hpw r hr
    obtain ⟨m, s⟩ := e
    have hl2 : ∀ e ∈ l, is_nostate e.2 = false →
        e.1 ≠ Move.no_move ∧ e.2 = make_move n.state e.1 ∧
          c.array (encode_state e.2 perms_table) = false :=
      fun e he => hl e (List.mem_cons_of_mem _ he)
    rw [List.pairwise_cons] at hpw
    unfold append_new_states_log at hr
    cases hns : is_nostate s with
    | true =>
      simp only [hns, Bool.not_true, Bool.false_eq_true, if_false] at hr
      exact ih q c log hp inv hl2 hpw.2 r hr
    | false =>
      obtain ⟨hm, hs, hun⟩ := hl (m, s) (List.mem_cons_self _ _) hns
      have hs2 : s = make_move n.state m := hs
      have hun2 : c.array (encode_state s perms_table) = false := hun
      have hm2 : m ≠ Move.no_move := hm
      have hrs : Reachable s := by rw [hs2]; exact hn.after_move m hm2
      simp only [hns, Bool.not_false, if_true, queue_append_eq q s (some n) m c hp hrs.code_lt,
        ne_eq, not_true_eq_false, if_false] at hr
      have inv2 : LogInv (c.mark (encode_state s perms_table))
          (log ++ [(StateNode.mk s m (some n), is_in_cache c s)]) :=
        inv.append hp (StateNode.mk s m (some n)) hrs hun2
      have hp2 : (c.mark (encode_state s perms_table)).perms = perms_table := hp
      refine ih _ _ _ hp2 inv2 ?_ hpw.2 r hr
      intro e he hne
      obtain ⟨h1, h2, h3⟩ := hl2 e he hne
      refine ⟨h1, h2, ?_⟩
      have hre : Reachable e.2 := by rw [h2]; exact hn.after_move e.1 h1
      have hcode : encode_state e.2 perms_table ≠ encode_state s perms_table := by
        intro hc
        have heq := encode_state_inj _ _ hre.valid hrs.valid hc
        rw [h2, hs2] at heq
        exact hpw.1 e he (make_move_inj n.state e.1 m hn.valid h1 hm2 heq).symm
      cases h4 : (c.mark (encode_state s perms_table)).array (encode_state e.2 perms_table) with
      | false => rfl
      | true =>
        rcases (mark_array c _ _).mp h4 with h5 | h5
        · rw [h3] at h5; cases h5
        · exact absurd h5 hcode

/-- The entries of `new_neighbors` that are not `NOSTATE` are the
configurations after the moves of `new_moves`. -/
theorem neighbor_entry_live (c : StateCache) (n : StateNode) (m : Move)
    (h : is_nostate (neighbor_entry c n m) = false) :
    neighbor_entry c n m = make_move n.state m ∧
      c.array (encode_state (make_move n.state m) perms_table) = false := by
  unfold neighbor_entry at h ⊢
  by_cases h1 : m = reverse_move n.generator_move
  · simp [h1, is_nostate_NOSTATE] at h
  · cases h2 : c.array (encode_state (make_move n.state m) perms_table) with
    | true => simp [h1, h2, is_nostate_NOSTATE] at h
    | false => simp [h1]

/-- The loop of `main` keeps the invariant of the record. -/
theorem main_loop_log_inv (t : State) :
    ∀ (fuel : Nat) (q : List StateNode) (c : StateCache)
      (log : List (StateNode × Option Bool)),
      SearchInv t q c → LogInv c log →
      ∀ r, main_loop_log t fuel q c log = some r → LogInv r.1.cache r.2 := by
  intro fuel
  induction fuel with
  | zero => intro q c log _ _ r hr; simp [main_loop_log] at hr
  | succ fuel ih =>
    intro q c log inv linv r hr
    cases q with
    | nil =>
      simp only [main_loop_log, Option.some.injEq] at hr
      subst hr
      exact linv
    | cons n q =>
      have hreach : Reachable n.state :=
        chain_ok_reachable n (inv.chain n (List.mem_cons_self _ _)).1
      cases hcmp : compare_states t n.state with
      | true =>
        simp only [main_loop_log, hcmp, if_true, Option.some.injEq] at hr
        subst hr
        exact linv
      | false =>
        obtain ⟨h1, h2⟩ := expand_eq c n q inv.perms hreach
        have he := append_new_states_log_erase n
          ([Move.U_prime, Move.M, Move.U, Move.M_prime].zip
            (generators.map (neighbor_entry c n))) q c log
        rw [h2] at he
        cases ha : append_new_states_log n
            ([Move.U_prime, Move.M, Move.U, Move.M_prime].zip
              (generators.map (neighbor_entry c n))) q c log with
        | none => rw [ha] at he; cases he
        | some r2 =>
          obtain ⟨rc, q2, c2, log2⟩ := r2
          rw [ha] at he
          simp only [Option.map_some', Option.some.injEq, Prod.mk.injEq] at he
          obtain ⟨hrc, hq2, hc2⟩ := he
          have hz : [Move.U_prime, Move.M, Move.U, Move.M_prime].zip
              (generators.map (neighbor_entry c n)) =
              generators.map fun m => (m, neighbor_entry c n m) := rfl
          have linv2 : LogInv c2 log2 := by
            refine append_new_states_log_inv n hreach _ q c log inv.perms linv ?_ ?_ _ ha
            · intro e he hne
              rw [hz, List.mem_map] at he
              obtain ⟨m, hm, rfl⟩ := he
              obtain ⟨h3, h4⟩ := neighbor_entry_live c n m hne
              refine ⟨(mem_generators m).mp hm, h3, ?_⟩
              show c.array (encode_state (neighbor_entry c n m) perms_table) = false
              rw [h3]
              exact h4
            · rw [hz]
              simp [generators]
          simp only [main_loop_log, hcmp, Bool.false_eq_true, if_false, h1, ha, hrc, ne_eq,
            not_true_eq_false] at hr
          have inv2 := inv.expand hcmp
          rw [← hq2, ← hc2] at inv2
          exact ih q2 c2 log2 inv2 linv2 r hr

theorem LogInv.at_start :
    LogInv (StateCache.mark ⟨fun _ => false, 0, perms_table⟩ 0)
      [(StateNode.mk SOLVED Move.no_move none, is_in_cache new_cache SOLVED)] := by
  have harr : ∀ i, (StateCache.mark ⟨fun _ => false, 0, perms_table⟩ 0).array i = true ↔
      i = 0 := by
    intro i
    simp [StateCache.mark]
  have h0 : is_in_cache new_cache SOLVED = some false := by
    rw [is_in_cache_eq new_cache SOLVED new_cache_perms_table
      (by rw [encode_state_SOLVED]; decide)]
    rfl
  refine ⟨rfl, ?_, ?_, by simp, ?_, rfl, ?_⟩
  · intro e he
    rw [List.mem_singleton] at he
    rw [he]
    dsimp only
    exact h0
  · intro e he
    rw [List.mem_singleton] at he
    subst he
    exact Reachable.of_solved
  · intro i
    rw [harr]
    constructor
    · intro h
      exact ⟨_, List.mem_singleton_self _, by rw [h]; exact encode_state_SOLVED⟩
    · rintro ⟨e, he, h⟩
      rw [List.mem_singleton] at he
      subst he
      rw [← h]
      exact encode_state_SOLVED
  · have h := unmarked_init
    have hlen : (StateCache.mark ⟨fun _ => false, 0, perms_table⟩ 0).length = 1 := rfl
    rw [hlen]
    generalize unmarked (StateCache.mark ⟨fun _ => false, 0, perms_table⟩ 0) = u at h ⊢
    omega

/-- The number of marked entries is `cache->length`. -/
theorem LogInv.length_eq_count {c : StateCache} {log : List (StateNode × Option Bool)}
    (inv : LogInv c log) : c.length = marked_count c := by
  have hlast : c.array 368639 = false := by
    cases h : c.array 368639 with
    | false => rfl
    | true =>
      obtain ⟨e, he, hc⟩ := (inv.marks _).mp h
      have := (inv.reach e he).code_lt
      rw [hc] at this
      exact absurd this (by decide)
  have hsplit := Finset.filter_card_add_filter_neg_card_eq_card
    (s := Finset.range 368640) (fun i => c.array i = true)
  have hneg : ((Finset.range 368640).filter fun i => ¬ c.array i = true) =
      (Finset.range 368640).filter fun i => c.array i = false := by
    apply Finset.filter_congr
    intro i _
    simp
  rw [hneg, Finset.card_range] at hsplit
  have hrange : ((Finset.range 368640).filter fun i => c.array i = true) =
      (Finset.range 368639).filter fun i => c.array i = true := by
    have : Finset.range 368640 = insert 368639 (Finset.range 368639) :=
      Finset.range_succ
    rw [this, Finset.filter_insert, if_neg (by rw [hlast]; exact Bool.false_ne_true)]
  rw [hrange] at hsplit
  have hcount := inv.count
  unfold marked_count unmarked at *
  show c.length = ((Finset.range 368639).filter fun i => c.array i = true).card
  generalize ((Finset.range 368639).filter fun i => c.array i = true).card = a at hsplit ⊢
  generalize ((Finset.range 368640).filter fun i => c.array i = false).card = b at hsplit hcount
  omega

/-- A run of `main` with at least 368641 dequeues ends, and the record of its
calls of `queue_append` satisfies the invariant. -/
theorem main_log_ends (t : State) (fuel : Nat) (hfuel : 368640 < fuel) :
    ∃ f log, main_log t fuel = some (f, log) ∧ main t fuel = some f ∧
      LogInv f.cache log := by
  obtain ⟨f, hf, _⟩ := main_ends t fuel hfuel
  have he := main_log_erase t fuel
  rw [hf] at he
  cases hl : main_log t fuel with
  | none => rw [hl] at he; cases he
  | some r =>
    obtain ⟨f2, log⟩ := r
    rw [hl] at he
    simp only [Option.map_some', Option.some.injEq] at he
    subst he
    refine ⟨f2, log, rfl, hf, ?_⟩
    unfold main_log at hl
    rw [main_init] at hl
    exact main_loop_log_inv t fuel _ _ _ (SearchInv.init t) LogInv.at_start _ hl

/-! ## Orientation rule, error results and rendering -/

/-- Four flips at four different edges change the bits of these edges and no
other. -/
theorem flip_four_getD (eo : List Nat) (c d e f x : Nat) (hl : eo.length = 6) (hx : x < 6)
    (hcd : c ≠ d) (hce : c ≠ e) (hcf : c ≠ f) (hde : d ≠ e) (hdf : d ≠ f) (hef : e ≠ f) :
    (flip_at (flip_at (flip_at (flip_at eo c) d) e) f).getD x 0 =
      if x = c ∨ x = d ∨ x = e ∨ x = f then eo.getD x 0 ^^^ 1 else eo.getD x 0 := by
  have hx2 : x < eo.length := by omega
  simp only [flip_at_getD, flip_at_length, hx2]
  by_cases h1 : x = c
  · subst h1
    simp [hcd, hce, hcf]
  · by_cases h2 : x = d
    · subst h2
      simp [h1, hde, hdf]
    · by_cases h3 : x = e
      · subst h3
        simp [h1, h2, hef]
      · by_cases h4 : x = f
        · subst h4
          simp [h1, h2, h3]
        · simp [h1, h2, h3, h4]

/-- The orientation bits after a top-layer move at an odd middle-layer offset:
the bits of the edges in the top-layer slots after the rotation are flipped, the
others are kept. -/
theorem make_move_top_flips (s : State) (hs : s.Valid) (m : Move)
    (hm : m = Move.U ∨ m = Move.U_prime) (hodd : s.M_position % 2 = 1) :
    (make_move s m).edges_orientation.length = 6 ∧
      (top_edges (make_move s m)).Nodup ∧ (top_edges (make_move s m)).length = 4 ∧
      ∀ edge < 6, (make_move s m).edges_orientation.getD edge 0 =
        if edge ∈ top_edges (make_move s m) then s.edges_orientation.getD edge 0 ^^^ 1
        else s.edges_orientation.getD edge 0 := by
  obtain ⟨ep, eo, M, U⟩ := s
  obtain ⟨hep, heo, hM, hU⟩ := hs
  simp only at hep heo hM hU hodd
  obtain ⟨a, b, c, d, e, f, rfl⟩ := list_length_six ep hep.1
  rw [valid_position_six] at hep
  obtain ⟨⟨h1, h2, h3, h4, h5, h6, h7, h8, h9, h10, h11, h12, h13, h14, h15⟩, _⟩ := hep
  have hne : M % 2 ≠ 0 := by omega
  rcases hm with rfl | rfl
  · rw [make_move_U]
    simp only [if_pos hne, top_edges, top_slots, List.map, List.getD_cons_succ,
      List.getD_cons_zero]
    refine ⟨by simp [flip_at_length, heo.1], ?_, rfl, ?_⟩
    · simp [h10, h11, h12, h13, h14, h15, Ne.symm h10, Ne.symm h11, Ne.symm h12, Ne.symm h13,
        Ne.symm h14, Ne.symm h15]
    · intro x hx
      rw [flip_four_getD eo f d e c x heo.1 hx (Ne.symm h14) (Ne.symm h15) (Ne.symm h12) h13
        (Ne.symm h10) (Ne.symm h11)]
      simp only [List.mem_cons, List.mem_singleton, List.not_mem_nil, or_false]
      by_cases q1 : x = c <;> by_cases q2 : x = d <;> by_cases q3 : x = e <;>
        by_cases q4 : x = f <;> simp [q1, q2, q3, q4]
  · rw [make_move_U_prime]
    simp only [if_pos hne, top_edges, top_slots, List.map, List.getD_cons_succ,
      List.getD_cons_zero]
    refine ⟨by simp [flip_at_length, heo.1], ?_, rfl, ?_⟩
    · simp [h10, h11, h12, h13, h14, h15, Ne.symm h10, Ne.symm h11, Ne.symm h12, Ne.symm h13,
        Ne.symm h14, Ne.symm h15]
    · intro x hx
      rw [flip_four_getD eo e c f d x heo.1 hx (Ne.symm h11) h15 (Ne.symm h13) h12 h10
        (Ne.symm h14)]
      simp only [List.mem_cons, List.mem_singleton, List.not_mem_nil, or_false]
      by_cases q1 : x = c <;> by_cases q2 : x = d <;> by_cases q3 : x = e <;>
        by_cases q4 : x = f <;> simp [q1, q2, q3, q4]

/-- The orientation bits are kept by the middle-layer moves, and by the
top-layer moves at an even middle-layer offset. -/
theorem make_move_keeps_orientation (s : State) (hs : s.Valid) :
    (make_move s Move.M).edges_orientation = s.edges_orientation ∧
      (make_move s Move.M_prime).edges_orientation = s.edges_orientation ∧
      (s.M_position % 2 = 0 →
        (make_move s Move.U).edges_orientation = s.edges_orientation ∧
          (make_move s Move.U_prime).edges_orientation = s.edges_orientation) := by
  obtain ⟨ep, eo, M, U⟩ := s
  obtain ⟨a, b, c, d, e, f, rfl⟩ := list_length_six ep hs.1.1
  refine ⟨by rw [make_move_M], by rw [make_move_M_prime], ?_⟩
  intro h
  have h2 : M % 2 = 0 := h
  rw [make_move_U, make_move_U_prime]
  simp [h2]

set_option synthInstance.maxSize 2000 in
/-- The two results of `encode_eo`: the error value 1 with the message on odd
parity, the index below 32 that `decode_eo` maps back on even parity. -/
theorem encode_eo_cases (eo : List Nat) (hl : eo.length = 6) (hb : ∀ x ∈ eo, x ≤ 1) :
    (eo.count 1 % 2 = 1 → encode_eo_error eo = true ∧ encode_eo eo = 1) ∧
      (eo.count 1 % 2 = 0 →
        encode_eo_error eo = false ∧ encode_eo eo < 32 ∧ decode_eo (encode_eo eo) = eo) := by
  have key : ∀ a < 2, ∀ b < 2, ∀ c < 2, ∀ d < 2, ∀ e < 2, ∀ f < 2,
      ([a, b, c, d, e, f].count 1 % 2 = 1 →
        encode_eo_error [a, b, c, d, e, f] = true ∧ encode_eo [a, b, c, d, e, f] = 1) ∧
      ([a, b, c, d, e, f].count 1 % 2 = 0 →
        encode_eo_error [a, b, c, d, e, f] = false ∧ encode_eo [a, b, c, d, e, f] < 32 ∧
          decode_eo (encode_eo [a, b, c, d, e, f]) = [a, b, c, d, e, f]) := by
    decide!
  exact bits_six_cases eo hl hb
    (fun eo => (eo.count 1 % 2 = 1 → encode_eo_error eo = true ∧ encode_eo eo = 1) ∧
      (eo.count 1 % 2 = 0 →
        encode_eo_error eo = false ∧ encode_eo eo < 32 ∧ decode_eo (encode_eo eo) = eo)) key

theorem decode_state_last : decode_state 368639 perms_table = last_state := by decide!

theorem encode_state_last : encode_state last_state perms_table = 368639 := by
  rw [← decode_state_last]
  exact (encode_decode_table 368639 (by decide)).2

theorem last_state_valid : last_state.Valid := by decide

/-- The configuration `last_state` is not reachable from `SOLVED`. -/
theorem last_state_unreachable : ¬ Reachable last_state := by
  intro h
  have := h.code_lt
  rw [encode_state_last] at this
  exact absurd this (by decide)

/-- The function `cache_append` has one return value. -/
theorem cache_append_zero (c : StateCache) (s : State) (r : StateCache × Nat)
    (h : cache_append c s = some r) : r.2 = 0 := by
  by_cases hlt : encode_state s c.perms < MAX_CACHE_SIZE
  · simp only [cache_append, hlt, if_true, Option.some.injEq] at h
    rw [← h]
  · simp only [cache_append, hlt, if_false] at h
    cases h

theorem queue_append_zero (q : List StateNode) (s : State) (p : Option StateNode) (m : Move)
    (c : StateCache) (r : Nat × List StateNode × StateCache)
    (h : queue_append q s p m c = some r) : r.1 = 0 := by
  unfold queue_append at h
  cases hc : cache_append c s with
  | none => rw [hc] at h; cases h
  | some r2 =>
    obtain ⟨c2, rc⟩ := r2
    have hz : rc = 0 := cache_append_zero c s _ hc
    subst hz
    rw [hc] at h
    simp only [ne_eq, not_true_eq_false, if_false, Option.some.injEq] at h
    rw [← h]

/-- Two runs of `main` that end give the same result. -/
theorem main_unique (t : State) (a b : Nat) (f g : Final) (hf : main t a = some f)
    (hg : main t b = some g) : f = g := by
  unfold main at hf hg
  rw [main_init] at hf hg
  have h1 := main_loop_mono t b a _ _ f hf
  have h2 := main_loop_mono t a b _ _ g hg
  rw [Nat.add_comm] at h2
  rw [h1] at h2
  exact Option.some.inj h2

theorem compare_states_six (A B : State) (hA1 : A.edges_position.length = 6)
    (hA2 : A.edges_orientation.length = 6) (hB1 : B.edges_position.length = 6)
    (hB2 : B.edges_orientation.length = 6) (h : compare_states A B = true) : A = B := by
  obtain ⟨ep, eo, M, U⟩ := A
  obtain ⟨ep2, eo2, M2, U2⟩ := B
  obtain ⟨a, b, c, d, e, f, rfl⟩ := list_length_six ep hA1
  obtain ⟨a2, b2, c2, d2, e2, f2, rfl⟩ := list_length_six ep2 hB1
  obtain ⟨o0, o1, o2, o3, o4, o5, rfl⟩ := list_length_six eo hA2
  obtain ⟨p0, p1, p2, p3, p4, p5, rfl⟩ := list_length_six eo2 hB2
  simp [compare_states] at h
  simp
  tauto

/-- The printed tokens correspond, one by one, to a division of the rendered
moves into single moves and pairs of adjacent identical moves. -/
theorem trace_tokens_segments (l : List Move) :
    ∃ segs : List (List Move), segs.flatten = l ∧
      List.Forall₂ token_of segs (trace_tokens l) := by
  induction l using trace_tokens.induct with
  | case1 => exact ⟨[], rfl, List.Forall₂.nil⟩
  | case2 m =>
    exact ⟨[[m]], rfl, List.Forall₂.cons (Or.inl ⟨m, rfl, Or.inl rfl⟩) List.Forall₂.nil⟩
  | case3 m rest ih =>
    obtain ⟨segs, h1, h2⟩ := ih
    refine ⟨[m, m] :: segs, by simp [h1], ?_⟩
    simp only [trace_tokens, if_true]
    exact List.Forall₂.cons (Or.inr ⟨m, rfl, rfl⟩) h2
  | case4 m m2 rest hne ih =>
    obtain ⟨segs, h1, h2⟩ := ih
    refine ⟨[m] :: segs, by simp [h1], ?_⟩
    simp only [trace_tokens, hne, if_false]
    exact List.Forall₂.cons (Or.inl ⟨m, rfl, Or.inr rfl⟩) h2

/-! ## The claims -/

/-- C1: codec round trip. For every valid configuration `s` and the permutation
table built by `new_cache`, `decode_state (encode_state s perms) perms` is `s`
(every field: positions, orientation bits, both offsets). -/
theorem C1_decode_encode_round_trip (s : State) (hs : s.Valid) :
    decode_state (encode_state s new_cache.perms) new_cache.perms = s := by
  rw [new_cache_perms_table]
  exact decode_encode_table s hs

theorem C1_round_trip_witness :
    example_target.Valid ∧
      decode_state (encode_state example_target new_cache.perms) new_cache.perms =
        example_target :=
  ⟨by decide, C1_decode_encode_round_trip example_target (by decide)⟩

/-- C2: `encode_state` restricted to the valid configurations is a bijection
onto the dense range `[0, 720*32*4*4) = [0, 368640)`: valid configurations have
codes below 368640, two valid configurations with one code are equal, and every
code of the range decodes to a valid configuration that encodes back to it. -/
theorem C2_codec_bijection :
    720 * 32 * 4 * 4 = 368640 ∧
    (∀ s : State, s.Valid → encode_state s new_cache.perms < 368640) ∧
    (∀ s t : State, s.Valid → t.Valid →
      encode_state s new_cache.perms = encode_state t new_cache.perms → s = t) ∧
    (∀ c, c < 368640 →
      (decode_state c new_cache.perms).Valid ∧
        encode_state (decode_state c new_cache.perms) new_cache.perms = c) := by
  rw [new_cache_perms_table]
  exact ⟨rfl, encode_state_lt, encode_state_inj, encode_decode_table⟩

/-- C3: BFS optimality. For every target reachable from `SOLVED` by generator
moves, the search of `main` ends (for every fuel of at least 368641 dequeues)
with success at a node that holds the target, whose parent chain is a move
sequence from `SOLVED` to the target, and whose depth is at most the length of
any move sequence taking `SOLVED` to the target. -/
theorem C3_bfs_optimality (target : State) (h : Reachable target) (fuel : Nat) :
    ∃ node f, main target (368641 + fuel) = some f ∧
      f.outcome = Outcome.solution_found node ∧ node.state = target ∧
      generator_moves (chain_moves node) ∧
      apply_moves SOLVED (chain_moves node) = target ∧
      (chain_moves node).length = depth node ∧
      ∀ ms, generator_moves ms → apply_moves SOLVED ms = target → depth node ≤ ms.length := by
  obtain ⟨node, f, h1, h2, h3, h4, h5⟩ := main_finds target h (368641 + fuel) (by omega)
  refine ⟨node, f, h1, h2, h3, (chain_ok_state node h4).1, ?_, chain_moves_length node, h5⟩
  rw [(chain_ok_state node h4).2, h3]

theorem C3_bfs_witness :
    Reachable (make_move SOLVED Move.U) ∧
      ∃ node f, main (make_move SOLVED Move.U) (368641 + 0) = some f ∧
        f.outcome = Outcome.solution_found node ∧ node.state = make_move SOLVED Move.U ∧
        generator_moves (chain_moves node) ∧
        apply_moves SOLVED (chain_moves node) = make_move SOLVED Move.U ∧
        (chain_moves node).length = depth node ∧
        ∀ ms, generator_moves ms → apply_moves SOLVED ms = make_move SOLVED Move.U →
          depth node ≤ ms.length :=
  ⟨Reachable.of_solved.after_move Move.U (by decide),
    C3_bfs_optimality (make_move SOLVED Move.U) (Reachable.of_solved.after_move Move.U (by decide)) 0⟩

/-- C4: a move is undone by its reverse. For every valid configuration `s` and
every generator move `m`, `make_move (make_move s m) (reverse_move m) = s`
(all fields, odd middle-layer offsets included); in particular for `SOLVED`. -/
theorem C4_move_undone_by_reverse (s : State) (m : Move) (hs : s.Valid)
    (hm : m ∈ generators) :
    make_move (make_move s m) (reverse_move m) = s ∧
      make_move (make_move SOLVED m) (reverse_move m) = SOLVED :=
  ⟨make_move_reverse s m hs ((mem_generators m).mp hm),
    make_move_reverse SOLVED m SOLVED_valid ((mem_generators m).mp hm)⟩

theorem C4_reverse_witness :
    example_state.Valid ∧ Move.U ∈ generators ∧ example_state.M_position % 2 = 1 ∧
      make_move (make_move example_state Move.U) (reverse_move Move.U) = example_state ∧
      make_move (make_move SOLVED Move.U) (reverse_move Move.U) = SOLVED :=
  ⟨by decide, by decide, by decide,
    C4_move_undone_by_reverse example_state Move.U (by decide) (by decide)⟩

/-- C5: `make_move` preserves the configuration invariants. For every valid
configuration `s` and generator move `m`, `make_move s m` has positions that
are a permutation of `0..5`, orientation bits with an even number of ones and
both offsets in `0..3`; hence every configuration reachable from `SOLVED` is
valid. -/
theorem C5_make_move_preserves_valid (s : State) (m : Move) (hs : s.Valid)
    (hm : m ∈ generators) :
    (valid_position (make_move s m).edges_position ∧
      valid_orientation (make_move s m).edges_orientation ∧
      (make_move s m).M_position < 4 ∧ (make_move s m).U_position < 4) ∧
    ∀ t, Reachable t → t.Valid :=
  ⟨make_move_valid s m hs ((mem_generators m).mp hm), fun _ ht => ht.valid⟩

theorem C5_preserves_witness :
    example_state.Valid ∧ Move.U_prime ∈ generators ∧
      ((valid_position (make_move example_state Move.U_prime).edges_position ∧
        valid_orientation (make_move example_state Move.U_prime).edges_orientation ∧
        (make_move example_state Move.U_prime).M_position < 4 ∧
        (make_move example_state Move.U_prime).U_position < 4) ∧
      ∀ t, Reachable t → t.Valid) :=
  ⟨by decide, by decide,
    C5_make_move_preserves_valid example_state Move.U_prime (by decide) (by decide)⟩

/-- C6, as stated, fails: for the node reached by `M` then `U` the printed
tokens stand for `U', M'`, not for the generating moves `M, U`, and applied to
`SOLVED` they do not give the node's configuration. -/
theorem C6_root_to_goal_counterexample :
    chain_ok example_node ∧
      chain_moves example_node = [Move.M, Move.U] ∧
      tokens_moves (print_moves_traceback example_node) = [Move.U_prime, Move.M_prime] ∧
      apply_moves SOLVED (tokens_moves (print_moves_traceback example_node)) ≠
        example_node.state := by
  refine ⟨example_node_ok, by decide, by decide, by decide⟩

/-- C6, amended: the trace is emitted in goal-to-root order. For every node
of a search chain, `print_moves_traceback` prints the rendering (equal adjacent
pairs as one `X2` token) of the reverses of the generating moves, ordered from
the node itself up to the root's child; these moves take the node's
configuration to `SOLVED`, as the generating moves in root-to-node order take
`SOLVED` to the node's configuration. -/
theorem C6_trace_goal_to_root (node : StateNode) (h : chain_ok node) :
    print_moves_traceback node =
        trace_tokens ((chain_moves node).reverse.map reverse_move) ∧
      apply_moves node.state ((chain_moves node).reverse.map reverse_move) = SOLVED ∧
      apply_moves SOLVED (chain_moves node) = node.state :=
  ⟨print_moves_traceback_eq node, solution_moves_solve node h, (chain_ok_state node h).2⟩

theorem C6_trace_witness :
    chain_ok example_node_double ∧
      print_moves_traceback example_node_double =
        trace_tokens ((chain_moves example_node_double).reverse.map reverse_move) ∧
      apply_moves example_node_double.state
        ((chain_moves example_node_double).reverse.map reverse_move) = SOLVED ∧
      apply_moves SOLVED (chain_moves example_node_double) = example_node_double.state :=
  ⟨example_node_double_ok, C6_trace_goal_to_root example_node_double example_node_double_ok⟩

/-- C7: the printed sequence solves the node's configuration. For every node
of a chain whose root holds `SOLVED` and whose states are `make_move` of the
parent's state by the generator move, the printed tokens (`X2` read as `X`
twice), applied in printed order to the node's state, give `SOLVED`; and the
output documented for `012345 000011 2 2` takes that target to `SOLVED`. -/
theorem C7_printed_sequence_solves (node : StateNode) (h : chain_ok node) :
    apply_moves node.state (tokens_moves (print_moves_traceback node)) = SOLVED ∧
      apply_moves example_target (tokens_moves example_output) = SOLVED := by
  refine ⟨?_, by decide⟩
  rw [print_moves_traceback_eq,
    apply_tokens_moves _ _ (chain_ok_reachable node h).valid (solution_moves_generator node h)]
  exact solution_moves_solve node h

theorem C7_printed_witness :
    chain_ok example_node_double ∧
      print_moves_traceback example_node_double = ["M\x27 ", "U2 "] ∧
      apply_moves example_node_double.state
        (tokens_moves (print_moves_traceback example_node_double)) = SOLVED ∧
      apply_moves example_target (tokens_moves example_output) = SOLVED :=
  ⟨example_node_double_ok, by decide,
    C7_printed_sequence_solves example_node_double example_node_double_ok⟩

/-- C8, as stated, fails: no sequence of 12 or fewer generator moves takes
`SOLVED` to `012345 000011 2 2`, and no search node holding that target has a
printed sequence of logical length 12. -/
theorem C8_length_twelve_counterexample :
    (¬ ∃ ms, generator_moves ms ∧ ms.length ≤ 12 ∧ apply_moves SOLVED ms = example_target) ∧
      ∀ node, chain_ok node → node.state = example_target →
        logical_length (print_moves_traceback node) ≠ 12 := by
  constructor
  · rintro ⟨ms, hg, hl, hs⟩
    have := example_target_distance ms hg hs
    omega
  · intro node h hs
    rw [logical_length_print node h, ← chain_moves_length]
    have := example_target_distance (chain_moves node) (chain_ok_state node h).1
      ((chain_ok_state node h).2.trans hs)
    omega

/-- C8, amended: for the target `012345 000011 2 2` the search ends with
success (for every fuel of at least 368641 dequeues) and the printed sequence
has logical length 16 (a `2`-suffixed token counting as two moves), the
shortest-path distance of that configuration from `SOLVED`: some sequence of
16 generator moves reaches it and none shorter does. -/
theorem C8_example_search_sixteen (fuel : Nat) :
    ∃ node f, main example_target (368641 + fuel) = some f ∧
      f.outcome = Outcome.solution_found node ∧ node.state = example_target ∧
      logical_length (print_moves_traceback node) = 16 ∧
      (∀ ms, generator_moves ms → apply_moves SOLVED ms = example_target →
        16 ≤ ms.length) ∧
      ∃ ms, generator_moves ms ∧ ms.length = 16 ∧ apply_moves SOLVED ms = example_target := by
  have hr : Reachable example_target := ⟨example_path, example_path_ok.1, example_path_ok.2.2⟩
  obtain ⟨node, f, h1, h2, h3, h4, h5⟩ := main_finds example_target hr (368641 + fuel) (by omega)
  refine ⟨node, f, h1, h2, h3, ?_, example_target_distance, example_path, example_path_ok⟩
  rw [logical_length_print node h4]
  have hup := h5 example_path example_path_ok.1 example_path_ok.2.2
  rw [example_path_ok.2.1] at hup
  have hlow := example_target_distance (chain_moves node) (chain_ok_state node h4).1
    ((chain_ok_state node h4).2.trans h3)
  rw [chain_moves_length] at hlow
  omega

/-- C9: when the target is `SOLVED` the search succeeds on the first dequeue
(one unit of fuel is enough): the root node is accepted, nothing else was
appended to the queue or recorded in the cache, and no move token is printed. -/
theorem C9_solved_target_immediate (fuel : Nat) :
    ∃ f, main SOLVED (fuel + 1) = some f ∧
      f.outcome = Outcome.solution_found root_node ∧ f.queue = [] ∧
      f.cache.length = 1 ∧ (∀ i, f.cache.array i = true ↔ i = 0) ∧
      print_moves_traceback root_node = [] := by
  refine ⟨⟨Outcome.solution_found root_node, [],
    StateCache.mark ⟨fun _ => false, 0, perms_table⟩ 0⟩, ?_, rfl, rfl, rfl, ?_, by decide⟩
  · unfold main
    rw [main_init]
    exact main_loop_root fuel _
  · intro i
    simp [StateCache.mark]

/-- C10: the permutation table built by `new_cache` enumerates the 720
permutations of six labels: 720 rows are written, every row is a permutation of
`0..5`, the rows are pairwise distinct, every permutation is a row, and for
every valid `edges_position` the lookup loop of `encode_state` stops at the one
index in `0..719` whose row equals it. -/
theorem C10_permutation_table :
    new_cache.perms.length = 720 ∧
    (∀ row ∈ new_cache.perms, valid_position row) ∧
    new_cache.perms.Nodup ∧
    (∀ ep, valid_position ep → ep ∈ new_cache.perms) ∧
    ∀ ep, valid_position ep →
      find_ep ep new_cache.perms 720 0 < 720 ∧
      new_cache.perms.getD (find_ep ep new_cache.perms 720 0) [] = ep ∧
      ∀ k, k < 720 → new_cache.perms.getD k [] = ep →
        k = find_ep ep new_cache.perms 720 0 := by
  rw [new_cache_perms_table]
  refine ⟨perms_table_length, perms_table_valid, perms_table_nodup, perms_table_complete, ?_⟩
  intro ep h
  obtain ⟨h1, h2⟩ := find_ep_valid ep h
  exact ⟨h1, h2, fun k hk hke => perms_table_getD_inj k _ hk h1 (hke.trans h2.symm)⟩

/-- C11: the table of `new_cache` has `MAX_CACHE_SIZE = 368639` entries, one
fewer than the 720*32*4*4 = 368640 codes of the valid configurations: the valid
configuration `103254 111111 3 3` has the code 368639, which is not below
`MAX_CACHE_SIZE`, and `is_in_cache` reads outside the table for it. -/
theorem C11_last_state_beyond_capacity :
    last_state.Valid ∧ encode_state last_state new_cache.perms = 368639 ∧
      MAX_CACHE_SIZE = 368639 ∧ 720 * 32 * 4 * 4 = 368640 ∧
      ¬ encode_state last_state new_cache.perms < MAX_CACHE_SIZE ∧
      is_in_cache new_cache last_state = none := by
  have h : encode_state last_state new_cache.perms = 368639 := by
    rw [new_cache_perms_table]
    exact encode_state_last
  refine ⟨last_state_valid, h, rfl, rfl, ?_, ?_⟩
  · rw [h]
    decide
  · simp only [is_in_cache, h]
    rfl

/-- C12: `cache_append` has no capacity test. Whenever it returns, it returns
0, so `queue_append` never returns 1 and no run of `main` ends with the
`exausted cache` result; for the configuration `103254 111111 3 3`, whose code
is `MAX_CACHE_SIZE`, it writes outside the table instead of failing; and on a
table whose `length` already is `MAX_CACHE_SIZE` it records one more code and
returns 0. -/
theorem C12_cache_append_never_fails :
    (∀ cache state r, cache_append cache state = some r → r.2 = 0) ∧
      (∀ q s p m c r, queue_append q s p m c = some r → r.1 = 0) ∧
      (∀ target fuel f, main target fuel = some f → f.outcome ≠ Outcome.exausted_cache) ∧
      encode_state last_state new_cache.perms = MAX_CACHE_SIZE ∧
      cache_append new_cache last_state = none ∧
      (cache_append ⟨fun _ => true, MAX_CACHE_SIZE, perms_table⟩ SOLVED).map
        (fun r => (r.1.length, r.2)) = some (MAX_CACHE_SIZE + 1, 0) := by
  have h : encode_state last_state new_cache.perms = 368639 := by
    rw [new_cache_perms_table]
    exact encode_state_last
  refine ⟨cache_append_zero, queue_append_zero, ?_, h, ?_, ?_⟩
  · intro target fuel f hf hout
    rcases (main_result target fuel f hf).2 with ⟨node, h1, _⟩ | ⟨h1, _⟩
    · rw [h1] at hout
      cases hout
    · rw [h1] at hout
      cases hout
  · simp only [cache_append, h]
    rfl
  · simp only [cache_append, encode_state_SOLVED]
    rfl

/-- C13, as stated, fails: the value returned for the odd-parity vector
`000001` is the value returned for the even-parity vector `000011`, for
`encode_eo` and so for `encode_state`. -/
theorem C13_error_value_counterexample :
    odd_bits.count 1 % 2 = 1 ∧ even_bits.count 1 % 2 = 0 ∧
      encode_eo odd_bits = encode_eo even_bits ∧
      encode_state ⟨[0, 1, 2, 3, 4, 5], odd_bits, 0, 0⟩ new_cache.perms =
        encode_state ⟨[0, 1, 2, 3, 4, 5], even_bits, 0, 0⟩ new_cache.perms := by
  have h : encode_eo odd_bits = encode_eo even_bits := by decide
  refine ⟨by decide, by decide, h, ?_⟩
  simp only [encode_state]
  rw [h]

/-- C13, amended: for every orientation vector of six bits with an odd number
of ones, `encode_eo` reports the error by printing its message
`Error: invalid edge orientation`; for every vector with an even number of
ones it prints no message and returns the index below 32 that `decode_eo` maps
back to the vector, different vectors having different indices. -/
theorem C13_encode_eo_parity (eo : List Nat) (hl : eo.length = 6) (hb : ∀ x ∈ eo, x ≤ 1) :
    (eo.count 1 % 2 = 1 → encode_eo_error eo = true) ∧
      (eo.count 1 % 2 = 0 →
        encode_eo_error eo = false ∧ encode_eo eo < 32 ∧ decode_eo (encode_eo eo) = eo ∧
          ∀ eo2 : List Nat, eo2.length = 6 → (∀ x ∈ eo2, x ≤ 1) → eo2.count 1 % 2 = 0 →
            encode_eo eo2 = encode_eo eo → eo2 = eo) := by
  obtain ⟨h1, h2⟩ := encode_eo_cases eo hl hb
  refine ⟨fun hodd => (h1 hodd).1, ?_⟩
  intro heven
  obtain ⟨h3, h4, h5⟩ := h2 heven
  refine ⟨h3, h4, h5, ?_⟩
  intro eo2 hl2 hb2 heven2 heq
  have h6 := ((encode_eo_cases eo2 hl2 hb2).2 heven2).2.2
  rw [← h6, heq, h5]

theorem C13_parity_witness :
    odd_bits.length = 6 ∧ (∀ x ∈ odd_bits, x ≤ 1) ∧ odd_bits.count 1 % 2 = 1 ∧
      encode_eo_error odd_bits = true ∧
      even_bits.length = 6 ∧ (∀ x ∈ even_bits, x ≤ 1) ∧ even_bits.count 1 % 2 = 0 ∧
      encode_eo_error even_bits = false ∧ encode_eo even_bits < 32 :=
  ⟨by decide, by decide, by decide,
    (C13_encode_eo_parity odd_bits (by decide) (by decide)).1 (by decide),
    by decide, by decide, by decide,
    ((C13_encode_eo_parity even_bits (by decide) (by decide)).2 (by decide)).1,
    ((C13_encode_eo_parity even_bits (by decide) (by decide)).2 (by decide)).2.1⟩

/-- C14: `reverse_move` is an involution on the five values of `Move`, and it
pairs `U` with `U'` and `M` with `M'`. -/
theorem C14_reverse_move_involution :
    (∀ m : Move, reverse_move (reverse_move m) = m) ∧
      reverse_move Move.U = Move.U_prime ∧ reverse_move Move.U_prime = Move.U ∧
      reverse_move Move.M = Move.M_prime ∧ reverse_move Move.M_prime = Move.M ∧
      reverse_move Move.no_move = Move.no_move := by
  refine ⟨?_, rfl, rfl, rfl, rfl, rfl⟩
  intro m
  cases m <;> rfl

/-- C15: no configuration is enqueued twice. For any target, the run of `main`
(with 368641 dequeues or more) ends, and in the record of its calls of
`queue_append` every call was made for a configuration whose code was not
marked in the cache (`is_in_cache` gave `false`), the nodes created hold
pairwise different configurations (so do the neighbours appended from one
node), the marked codes are the codes of these configurations, and
`cache->length` is the number of calls and the number of marked entries. -/
theorem C15_no_state_enqueued_twice (target : State) (fuel : Nat) :
    ∃ f log, main_log target (368641 + fuel) = some (f, log) ∧
      main target (368641 + fuel) = some f ∧
      (∀ e ∈ log, e.2 = some false) ∧
      (log.map fun e => e.1.state).Nodup ∧
      (∀ i, f.cache.array i = true ↔ ∃ e ∈ log, encode_state e.1.state f.cache.perms = i) ∧
      f.cache.length = log.length ∧ f.cache.length = marked_count f.cache := by
  obtain ⟨f, log, h1, h2, inv⟩ := main_log_ends target (368641 + fuel) (by omega)
  refine ⟨f, log, h1, h2, inv.fresh, inv.distinct, ?_, inv.length, inv.length_eq_count⟩
  rw [inv.perms]
  exact inv.marks

/-- C16: pruning the move back to the parent is safe. The search gives the
same result (outcome, goal node, queue and cache) with `get_new_neighbors` and
with the variant that tries all four moves; and at the head of every
iteration (a queue and cache satisfying the loop invariant), both variants
yield the same neighbours, the skipped neighbour of a node with a parent is
the parent's configuration, and it is marked in the cache. -/
theorem C16_pruning_is_safe (target : State) (fuel : Nat) :
    main_noskip target fuel = main target fuel ∧
      ∀ (n : StateNode) (q : List StateNode) (c : StateCache),
        SearchInv target (n :: q) c →
        get_new_neighbors_noskip c n = get_new_neighbors c n ∧
          ∀ p, n.parent = some p →
            make_move n.state (reverse_move n.generator_move) = p.state ∧
              is_in_cache c p.state = some true := by
  refine ⟨main_noskip_eq target fuel, ?_⟩
  intro n q c inv
  refine ⟨inv.noskip_eq, ?_⟩
  intro p hp
  obtain ⟨h1, h2⟩ := inv.back_marked p hp
  refine ⟨h1, ?_⟩
  have hn : n ∈ n :: q := List.mem_cons_self _ _
  obtain ⟨_, _, hcp⟩ := chain_ok_child n p (inv.chain n hn).1 hp
  rw [is_in_cache_eq c p.state inv.perms (chain_ok_reachable p hcp).code_lt, h2]

theorem C16_pruning_witness :
    main_noskip example_target 3 = main example_target 3 ∧
      get_new_neighbors_noskip
          (mark_all (StateCache.mark ⟨fun _ => false, 0, perms_table⟩ 0)
            (generators.map (make_move SOLVED)))
          (StateNode.mk (make_move SOLVED Move.U_prime) Move.U_prime (some root_node)) =
        get_new_neighbors
          (mark_all (StateCache.mark ⟨fun _ => false, 0, perms_table⟩ 0)
            (generators.map (make_move SOLVED)))
          (StateNode.mk (make_move SOLVED Move.U_prime) Move.U_prime (some root_node)) ∧
      make_move (make_move SOLVED Move.U_prime) (reverse_move Move.U_prime) = SOLVED ∧
      is_in_cache
          (mark_all (StateCache.mark ⟨fun _ => false, 0, perms_table⟩ 0)
            (generators.map (make_move SOLVED))) SOLVED = some true :=
  ⟨(C16_pruning_is_safe example_target 3).1,
    ((C16_pruning_is_safe example_target 3).2 _ _ _
      (SearchInv.first example_target (by decide))).1,
    (((C16_pruning_is_safe example_target 3).2 _ _ _
      (SearchInv.first example_target (by decide))).2 root_node rfl).1,
    (((C16_pruning_is_safe example_target 3).2 _ _ _
      (SearchInv.first example_target (by decide))).2 root_node rfl).2⟩

/-- C17: the search always terminates. For every target, whatever its fields,
`main` ends within 368641 dequeues, with success at a node that
`compare_states` accepts or with `not_found` on an empty queue; every run
that ends, with any fuel, ends in that same way; `not_found` is the result for
no reachable target, and it is the result for every target of six positions
and six orientation entries that is not reachable. -/
theorem C17_search_terminates (target : State) (fuel : Nat) :
    ∃ f, main target (368641 + fuel) = some f ∧
      ((∃ node, f.outcome = Outcome.solution_found node ∧
          compare_states target node.state = true) ∨
        (f.outcome = Outcome.not_found ∧ f.queue = [])) ∧
      (∀ fuel2 f2, main target fuel2 = some f2 → f2 = f) ∧
      (f.outcome = Outcome.not_found → ¬ Reachable target) ∧
      (target.edges_position.length = 6 → target.edges_orientation.length = 6 →
        ¬ Reachable target → f.outcome = Outcome.not_found) := by
  obtain ⟨f, hf, hres⟩ := main_ends target (368641 + fuel) (by omega)
  refine ⟨f, hf, ?_, ?_, ?_, ?_⟩
  · rcases hres with ⟨node, h1, h2, _⟩ | ⟨h1, h2, _⟩
    · exact Or.inl ⟨node, h1, h2⟩
    · exact Or.inr ⟨h1, h2⟩
  · intro fuel2 f2 h2
    exact main_unique target fuel2 _ f2 f h2 hf
  · intro hnf
    rcases hres with ⟨node, h1, _, _⟩ | ⟨_, _, h3⟩
    · rw [h1] at hnf
      cases hnf
    · exact h3
  · intro hl1 hl2 hnr
    rcases hres with ⟨node, h1, h2, h3⟩ | ⟨h1, _, _⟩
    · exfalso
      have hv := (chain_ok_reachable node h3).valid
      have heq := compare_states_six target node.state hl1 hl2 hv.1.1 hv.2.1.1 h2
      rw [heq] at hnr
      exact hnr (chain_ok_reachable node h3)
    · exact h1

theorem C17_not_found_witness :
    last_state.edges_position.length = 6 ∧ last_state.edges_orientation.length = 6 ∧
      ¬ Reachable last_state ∧
      ∃ f, main last_state (368641 + 0) = some f ∧ f.outcome = Outcome.not_found ∧
        f.queue = [] := by
  obtain ⟨f, h1, h2, _, _, h5⟩ := C17_search_terminates last_state 0
  have h6 := h5 rfl rfl last_state_unreachable
  refine ⟨rfl, rfl, last_state_unreachable, f, h1, h6, ?_⟩
  rcases h2 with ⟨node, h7, _⟩ | ⟨_, h8⟩
  · rw [h7] at h6
    cases h6
  · exact h8

/-- C18: trace compression keeps the logical move count. For every node of a
search chain at depth `d`, the printed tokens, `X2` read as two moves and any
other token as one, stand for `d` moves; and the tokens correspond one by one
to a division of the uncompressed sequence into single moves and pairs of
adjacent identical moves, a token `X2` standing for such a pair only. -/
theorem C18_trace_compression (node : StateNode) (h : chain_ok node) :
    logical_length (print_moves_traceback node) = depth node ∧
      ∃ segs : List (List Move),
        segs.flatten = (chain_moves node).reverse.map reverse_move ∧
          List.Forall₂ token_of segs (print_moves_traceback node) ∧
          (segs.map List.length).sum = depth node := by
  refine ⟨logical_length_print node h, ?_⟩
  obtain ⟨segs, h1, h2⟩ := trace_tokens_segments (solution_moves node)
  refine ⟨segs, h1, ?_, ?_⟩
  · rw [print_moves_traceback_eq]
    exact h2
  · rw [← List.length_flatten, h1]
    exact solution_moves_length node

theorem C18_compression_witness :
    chain_ok example_node_double ∧ depth example_node_double = 3 ∧
      print_moves_traceback example_node_double = ["M\x27 ", "U2 "] ∧
      logical_length (print_moves_traceback example_node_double) =
        depth example_node_double :=
  ⟨example_node_double_ok, rfl, by decide,
    (C18_trace_compression example_node_double example_node_double_ok).1⟩

/-- C19: the orientation-flip rule of `make_move`. For every valid
configuration, `M` and `M'` keep `edges_orientation`; `U` and `U'` keep it when
`M_position` is even; when `M_position` is odd, `U` and `U'` flip the bit of
each of the four (different) edges that occupy the top-layer slots 2, 3, 4, 5
after the rotation and keep the bits of the other two edges. -/
theorem C19_orientation_flip_rule (s : State) (hs : s.Valid) :
    (make_move s Move.M).edges_orientation = s.edges_orientation ∧
      (make_move s Move.M_prime).edges_orientation = s.edges_orientation ∧
      (s.M_position % 2 = 0 →
        (make_move s Move.U).edges_orientation = s.edges_orientation ∧
          (make_move s Move.U_prime).edges_orientation = s.edges_orientation) ∧
      (s.M_position % 2 = 1 → ∀ m, m = Move.U ∨ m = Move.U_prime →
        (make_move s m).edges_orientation.length = 6 ∧
          (top_edges (make_move s m)).Nodup ∧ (top_edges (make_move s m)).length = 4 ∧
          ∀ edge < 6, (make_move s m).edges_orientation.getD edge 0 =
            if edge ∈ top_edges (make_move s m) then s.edges_orientation.getD edge 0 ^^^ 1
            else s.edges_orientation.getD edge 0) := by
  obtain ⟨h1, h2, h3⟩ := make_move_keeps_orientation s hs
  exact ⟨h1, h2, h3, fun hodd m hm => make_move_top_flips s hs m hm hodd⟩

theorem C19_flip_rule_witness :
    example_state.Valid ∧ example_state.M_position % 2 = 1 ∧
      (make_move example_state Move.U).edges_orientation = [0, 1, 1, 0, 0, 0] ∧
      top_edges (make_move example_state Move.U) = [4, 5, 2, 1] ∧
      ∀ edge < 6, (make_move example_state Move.U).edges_orientation.getD edge 0 =
        if edge ∈ top_edges (make_move example_state Move.U) then
          example_state.edges_orientation.getD edge 0 ^^^ 1
        else example_state.edges_orientation.getD edge 0 :=
  ⟨by decide, by decide, by decide, by decide,
    ((C19_orientation_flip_rule example_state (by decide)).2.2.2 (by decide) Move.U
      (Or.inl rfl)).2.2.2⟩

/-- C20: every configuration reachable from `SOLVED` has a code below
`MAX_CACHE_SIZE = 368639`, so `is_in_cache` and `cache_append` stay inside the
table for it and no run of `main` leaves the table; the one valid
configuration with the code 368639, `103254 111111 3 3`, is not reachable. -/
theorem C20_reachable_codes_in_bounds (s : State) (h : Reachable s) :
    encode_state s new_cache.perms < MAX_CACHE_SIZE ∧ MAX_CACHE_SIZE = 368639 ∧
      (∀ c : StateCache, c.perms = new_cache.perms →
        is_in_cache c s = some (c.array (encode_state s c.perms)) ∧
          ∃ c2, cache_append c s = some (c2, 0)) ∧
      (∀ target fuel f, main target fuel = some f → f.outcome ≠ Outcome.out_of_bounds) ∧
      (last_state.Valid ∧ encode_state last_state new_cache.perms = 368639 ∧
        ¬ Reachable last_state ∧
        ∀ t : State, t.Valid → encode_state t new_cache.perms = 368639 → t = last_state) := by
  rw [new_cache_perms_table]
  refine ⟨h.code_lt, rfl, ?_, ?_, last_state_valid, encode_state_last,
    last_state_unreachable, ?_⟩
  · intro c hp
    refine ⟨?_, ?_⟩
    · rw [is_in_cache_eq c s hp h.code_lt, hp]
    · have hq := queue_append_eq [] s none Move.no_move c hp h.code_lt
      cases hc : cache_append c s with
      | none => simp [queue_append, hc] at hq
      | some r =>
        obtain ⟨c2, rc⟩ := r
        have hz : rc = 0 := cache_append_zero c s _ hc
        subst hz
        exact ⟨c2, rfl⟩
  · intro target fuel f hf hout
    rcases (main_result target fuel f hf).2 with ⟨node, h1, _⟩ | ⟨h1, _⟩
    · rw [h1] at hout
      cases hout
    · rw [h1] at hout
      cases hout
  · intro t ht hc
    exact encode_state_inj t last_state ht last_state_valid (hc.trans encode_state_last.symm)

theorem C20_in_bounds_witness :
    Reachable (make_move SOLVED Move.M) ∧
      encode_state (make_move SOLVED Move.M) new_cache.perms < MAX_CACHE_SIZE :=
  ⟨Reachable.of_solved.after_move Move.M (by decide),
    (C20_reachable_codes_in_bounds (make_move SOLVED Move.M)
      (Reachable.of_solved.after_move Move.M (by decide))).1⟩

end RouxLSE
